import Mathlib

/-!
Roguelike map: line rasterisation, line of sight and level generation.

A shallow embedding of `src/map.cpp`.  C++ `int` values are mathematical
integers (`Int`); the source's arithmetic agrees with them whenever no signed
overflow occurs, which is undefined behaviour in the source.  Loops that the
source writes without a bound carry an explicit fuel and return `none` when it
runs out.
-/

set_option autoImplicit false
set_option linter.dupNamespace false

/-! ## Grid primitives -/

/-- Modelled from the spec: `int2` is declared in `common.h`, which is not among the sources; a pair of
integers with component-wise arithmetic. -/
structure int2 where
  x : Int
  y : Int
deriving DecidableEq, Repr

namespace int2

instance : Add int2 := ⟨fun p q => ⟨p.x + q.x, p.y + q.y⟩⟩
instance : Sub int2 := ⟨fun p q => ⟨p.x - q.x, p.y - q.y⟩⟩

/-- Scalar multiple `p * k`. -/
def scale (p : int2) (k : Int) : int2 := ⟨p.x * k, p.y * k⟩

/-- Scalar quotient `p / k`, truncating as C++ division does. -/
def quot (p : int2) (k : Int) : int2 := ⟨Int.tdiv p.x k, Int.tdiv p.y k⟩

/-- Component-wise absolute value, `int2::Abs`. -/
def Abs (p : int2) : int2 := ⟨|p.x|, |p.y|⟩

end int2

/-- Modelled from the spec: `Direction` is declared in `common.h`; the four compass directions. -/
inductive Direction where
  | North
  | East
  | South
  | West
deriving DecidableEq, Repr

/-- Modelled from the spec: the conversion of a `Direction` to its unit offset.  The constructor of
`BresenhamLine` steps `South` when `a.y < b.y` and `East` when `a.x < b.x`, so south is `+y` and east
is `+x`. -/
def Direction.toInt2 : Direction → int2
  | .North => ⟨0, -1⟩
  | .East => ⟨1, 0⟩
  | .South => ⟨0, 1⟩
  | .West => ⟨-1, 0⟩

/-- Chebyshev distance between two cells; two distinct cells are 8-neighbours when it is `1`. -/
def chebyshev (p q : int2) : Int := max |q.x - p.x| |q.y - p.y|

/-! ## BresenhamLine -/

/-- The state of `BresenhamLine::const_iterator`. -/
structure const_iterator where
  point : int2
  mainStep : Direction
  sideStep : Direction
  mainDelta : Int
  sideDelta : Int
  error : Int
deriving DecidableEq, Repr

namespace const_iterator

/-- The iterator's `operator ++`. -/
def next (it : const_iterator) : const_iterator :=
  let point := it.point + it.mainStep.toInt2
  let error := it.error - it.sideDelta
  if error < 0 then
    { it with point := point + it.sideStep.toInt2, error := error + it.mainDelta }
  else
    { it with point := point, error := error }

/-- Modelled from the spec: `operator !=` of the iterator is declared in `map.h`; two iterators differ
when they stand on different cells. -/
def ne (a b : const_iterator) : Bool := decide (a.point ≠ b.point)

end const_iterator

/-- The two cursors a `BresenhamLine` holds. -/
structure BresenhamLine where
  first : const_iterator
  last : const_iterator
deriving DecidableEq, Repr

/-- The constructor `BresenhamLine::BresenhamLine(a, includeA, b, includeB)`. -/
def BresenhamLine.BresenhamLine (a : int2) (includeA : Bool) (b : int2) (includeB : Bool) : BresenhamLine :=
  let mainDelta0 := |b.x - a.x|
  let sideDelta0 := |b.y - a.y|
  let mainStep0 := if a.x < b.x then Direction.East else Direction.West
  let sideStep0 := if a.y < b.y then Direction.South else Direction.North
  let swap := decide (|b.y - a.y| > |b.x - a.x|)
  let mainDelta := if swap then sideDelta0 else mainDelta0
  let sideDelta := if swap then mainDelta0 else sideDelta0
  let mainStep := if swap then sideStep0 else mainStep0
  let sideStep := if swap then mainStep0 else sideStep0
  let first : const_iterator := ⟨a, mainStep, sideStep, mainDelta, sideDelta, Int.tdiv mainDelta 2⟩
  let last : const_iterator := ⟨b, mainStep, sideStep, mainDelta, sideDelta, Int.tdiv mainDelta 2⟩
  let last := if includeB then last.next else last
  let first := if !includeA && first.ne last then first.next else first
  ⟨first, last⟩

/-- The cells visited by `for(auto point : line)`: starting at `it`, the cell under the cursor is
produced and the cursor advanced until it compares equal to `last`.  One unit of fuel is spent per
`++`. -/
def lineCellsFrom : Nat → const_iterator → const_iterator → Option (List int2)
  | fuel, it, last =>
    if it.ne last then
      match fuel with
      | 0 => none
      | fuel + 1 => (lineCellsFrom fuel it.next last).map (fun rest => it.point :: rest)
    else some []

/-- The sequence of cells of a line, `none` when the fuel does not suffice. -/
def lineCells (fuel : Nat) (line : BresenhamLine) : Option (List int2) :=
  lineCellsFrom fuel line.first line.last

/-- Fuel that always suffices to walk the line between `a` and `b`. -/
def lineFuel (a b : int2) : Nat := (chebyshev a b).toNat + 1

/-- Number of endpoints left out of a line. -/
def excludedEndpoints (includeA includeB : Bool) : Int :=
  (if includeA then 0 else 1) + (if includeB then 0 else 1)

/-- Inner product of two grid vectors. -/
def dot (p q : int2) : Int := p.x * q.x + p.y * q.y

/-- The cursor at `a` before any endpoint adjustment (the constructor's initial `first`). -/
def lineStart (a b : int2) : const_iterator := (BresenhamLine.BresenhamLine a true b false).first

/-- The cursor at `b` before any endpoint adjustment (the constructor's initial `last`). -/
def lineEnd (a b : int2) : const_iterator := (BresenhamLine.BresenhamLine a true b false).last

namespace const_iterator

/-- The main and side steps are perpendicular unit vectors. -/
def Perp (it : const_iterator) : Prop :=
  dot it.mainStep.toInt2 it.mainStep.toInt2 = 1 ∧ dot it.sideStep.toInt2 it.mainStep.toInt2 = 0

/-- The error accumulator is in its working range. -/
def Ranged (it : const_iterator) : Prop :=
  0 < it.mainDelta ∧ 0 ≤ it.sideDelta ∧ it.sideDelta ≤ it.mainDelta ∧ 0 ≤ it.error ∧
    it.error < it.mainDelta

end const_iterator

/-- The cell under the cursor after `i` applications of `++` to the constructor's initial `first`. -/
def linePoint (a b : int2) (i : Nat) : int2 := (const_iterator.next^[i] (lineStart a b)).point

/-- Index of the first produced cell along the walk from `a`: `0` when `a` is included. -/
def lineLo (includeA : Bool) : Nat := if includeA then 0 else 1

/-- Index one past the last produced cell along the walk from `a` to `b`. -/
def lineHi (a b : int2) (includeB : Bool) : Nat :=
  if includeB then (chebyshev a b).toNat + 1 else (chebyshev a b).toNat

/-- The cells of the line from `a` to `b`, computed with the fuel `lineFuel a b`; by
`lineCells_enough_fuel` every larger fuel yields the same list. -/
def rayCells (a : int2) (includeA : Bool) (b : int2) (includeB : Bool) : List int2 :=
  (lineCells (lineFuel a b) (BresenhamLine.BresenhamLine a includeA b includeB)).getD []

/-! ## Tiles and the map -/

/-- Modelled from the spec: the tile identifiers `TILE_*` are declared in `map.h`; they index the table
`Tile::types` in the order of its rows (void, dirt floor, wall, secret door, closed door, open door). -/
inductive Tile where
  | TILE_VOID
  | TILE_FLOOR
  | TILE_WALL
  | TILE_HIDDEN_DOOR
  | TILE_CLOSED_DOOR
  | TILE_OPEN_DOOR
deriving DecidableEq, Repr

/-- A row of the table `Tile::types`, without its glyph. -/
structure TileType where
  walkable : Bool
  label : String

/-- The table `Tile::types`. -/
def Tile.types : Tile → TileType
  | .TILE_VOID => ⟨false, "void"⟩
  | .TILE_FLOOR => ⟨true, "dirt floor"⟩
  | .TILE_WALL => ⟨false, "wall"⟩
  | .TILE_HIDDEN_DOOR => ⟨false, "secret door"⟩
  | .TILE_CLOSED_DOOR => ⟨false, "closed door"⟩
  | .TILE_OPEN_DOOR => ⟨true, "open door"⟩

/-- Modelled from the spec: `Tile::IsWalkable` is declared in `map.h`; it reads the walkability flag of
the tile's row in `Tile::types`. -/
def Tile.IsWalkable (t : Tile) : Bool := (Tile.types t).walkable

/-- Modelled from the spec: `Rect` is declared in `common.h`; `a` is the inclusive minimum corner and
`b` the exclusive maximum corner. -/
structure Rect where
  a : int2
  b : int2
deriving DecidableEq, Repr

/-- Modelled from the spec: `Rect::Intersects` is true iff the half-open intervals overlap on both
axes. -/
def Rect.Intersects (r other : Rect) : Bool :=
  decide (r.a.x < other.b.x ∧ other.a.x < r.b.x ∧ r.a.y < other.b.y ∧ other.a.y < r.b.y)

/-- Cells of a rectangle: `a` inclusive, `b` exclusive. -/
def Rect.Contains (r : Rect) (p : int2) : Bool :=
  decide (r.a.x ≤ p.x ∧ p.x < r.b.x ∧ r.a.y ≤ p.y ∧ p.y < r.b.y)

/-- Modelled from the spec: `Map` is declared in `map.h` as a `MAP_WIDTH` by `MAP_HEIGHT` grid of
tiles, initialised to void.  The grid is a total function of the cell; the source leaves lookups
outside the grid undefined. -/
structure Map where
  tiles : int2 → Tile

namespace Map

/-- The freshly constructed map: every cell void. -/
def empty : Map := ⟨fun _ => Tile.TILE_VOID⟩

/-- The lookup `map.GetTile(p)`. -/
def GetTile (map : Map) (p : int2) : Tile := map.tiles p

/-- The assignment `map[p] = t`. -/
def set (map : Map) (p : int2) (t : Tile) : Map :=
  ⟨fun q => if q = p then t else map.tiles q⟩

/-- The call `map.Fill(r, t)`: every cell of `r` becomes `t`. -/
def Fill (map : Map) (r : Rect) (t : Tile) : Map :=
  ⟨fun q => if r.Contains q then t else map.tiles q⟩

end Map

/-! ## Line of sight -/

/-- The loop of `CheckLineOfSight`: walks the cursor to `last`, returning `false` at the first
unwalkable cell and `true` when `last` is reached. -/
def losLoop (map : Map) : Nat → const_iterator → const_iterator → Option Bool
  | fuel, it, last =>
    if it.ne last then
      if !(map.GetTile it.point).IsWalkable then some false
      else
        match fuel with
        | 0 => none
        | fuel + 1 => losLoop map fuel it.next last
    else some true

/-- The function `CheckLineOfSight(map, viewer, target, isNeighbor)`. -/
def CheckLineOfSight (fuel : Nat) (map : Map) (viewer target : int2) (isNeighbor : Bool) :
    Option Bool :=
  if isNeighbor && !(map.GetTile target).IsWalkable then some false
  else
    let line := BresenhamLine.BresenhamLine viewer false target isNeighbor
    losLoop map fuel line.first line.last

/-- Short-circuit disjunction of two fallible checks, as `||` evaluates them. -/
def orElseCheck (x y : Option Bool) : Option Bool :=
  match x with
  | none => none
  | some true => some true
  | some false => y

/-- The method `Map::HasLineOfSight(viewer, target)`. -/
def Map.HasLineOfSight (fuel : Nat) (map : Map) (viewer target : int2) : Option Bool :=
  orElseCheck (CheckLineOfSight fuel map viewer target false)
  (orElseCheck (CheckLineOfSight fuel map viewer (target + ⟨1, 0⟩) true)
  (orElseCheck (CheckLineOfSight fuel map viewer (target + ⟨0, 1⟩) true)
  (orElseCheck (CheckLineOfSight fuel map viewer (target - ⟨1, 0⟩) true)
  (orElseCheck (CheckLineOfSight fuel map viewer (target - ⟨0, 1⟩) true)
  (orElseCheck (CheckLineOfSight fuel map viewer (target + ⟨-1, -1⟩) true)
  (orElseCheck (CheckLineOfSight fuel map viewer (target + ⟨1, -1⟩) true)
  (orElseCheck (CheckLineOfSight fuel map viewer (target + ⟨1, 1⟩) true)
               (CheckLineOfSight fuel map viewer (target + ⟨-1, 1⟩) true))))))))

/-- The eight offsets of the cells around a target: four orthogonal, four diagonal. -/
def neighborOffsets : List int2 :=
  [⟨1, 0⟩, ⟨0, 1⟩, ⟨-1, 0⟩, ⟨0, -1⟩, ⟨-1, -1⟩, ⟨1, -1⟩, ⟨1, 1⟩, ⟨-1, 1⟩]

/-- Fuel that suffices for every ray `HasLineOfSight` walks from `viewer`. -/
def losFuel (viewer target : int2) : Nat := lineFuel viewer target + 1

/-- A map that is floor everywhere except for one wall cell. -/
def floorWithWallAt (w : int2) : Map :=
  (Map.empty.Fill ⟨⟨-8, -8⟩, ⟨8, 8⟩⟩ Tile.TILE_FLOOR).set w Tile.TILE_WALL

/-- A 5 by 5 room of floor with its minimum corner at `(1,1)`, surrounded by wall. -/
def squareRoom : Map :=
  (Map.empty.Fill ⟨⟨0, 0⟩, ⟨7, 7⟩⟩ Tile.TILE_WALL).Fill ⟨⟨1, 1⟩, ⟨6, 6⟩⟩ Tile.TILE_FLOOR

/-- Two floor corridors along the rows `y = 0` and `y = 2`, separated by a row of wall. -/
def twoCorridors : Map :=
  ((Map.empty.Fill ⟨⟨-8, -8⟩, ⟨8, 8⟩⟩ Tile.TILE_WALL).Fill ⟨⟨-8, 0⟩, ⟨8, 1⟩⟩ Tile.TILE_FLOOR).Fill
    ⟨⟨-8, 2⟩, ⟨8, 3⟩⟩ Tile.TILE_FLOOR

/-! ## Random draws -/

/-- Modelled from the spec: the pseudo-random generator `std::mt19937` is an external collaborator; it
is an arbitrary stream of raw values together with the position of the next one. -/
structure Engine where
  draws : Nat → Nat
  pos : Nat

/-- The raw value the next draw will consume. -/
def Engine.peek (e : Engine) : Nat := e.draws e.pos

/-- The engine after one draw. -/
def Engine.advance (e : Engine) : Engine := { e with pos := e.pos + 1 }

/-- The draw `std::uniform_int_distribution<int>(lo, hi)(engine)`: some value of the closed range, any
of them for a suitable raw value; undefined (`none`) when the range is empty. -/
def uniformInt (lo hi : Int) (e : Engine) : Option (Int × Engine) :=
  if lo ≤ hi then some (lo + (e.peek : Int) % (hi - lo + 1), e.advance) else none

/-- The draw `std::uniform_int_distribution<size_t>(0, n-1)(engine)` used as an index into a vector of
`n` elements; with `n = 0` the unsigned bound wraps around and the access is undefined (`none`). -/
def uniformIndex (n : Nat) (e : Engine) : Option (Nat × Engine) :=
  if 0 < n then some (e.peek % n, e.advance) else none

/-- The test `std::uniform_real_distribution<float>()(engine) < 0.2f`, with the drawn number in
`[0, 1)` taken in thousandths. -/
def chanceOneInFive (e : Engine) : Bool × Engine :=
  (decide (e.peek % 1000 < 200), e.advance)

/-! ## Room placement -/

/-- The values `lo, lo+2, lo+4, ...` below `hi`, as visited by `for(int v=lo; v<hi; v+=2)`. -/
def stepsByTwo (lo hi : Int) : List Int :=
  (List.range ((hi - lo + 1) / 2).toNat).map (fun (k : Nat) => lo + 2 * (k : Int))

/-- The rectangle `{r.a - int2(2,2), r.b + int2(2,2)}` built for `expandedRoom`. -/
def Rect.expand2 (r : Rect) : Rect := ⟨r.a - ⟨2, 2⟩, r.b + ⟨2, 2⟩⟩

/-- The rectangle padded by one cell on every side. -/
def Rect.expand1 (r : Rect) : Rect := ⟨r.a - ⟨1, 1⟩, r.b + ⟨1, 1⟩⟩

/-- The room rectangle `{place*2 + int2(1,1), (place+size)*2}`. -/
def roomRect (place size : int2) : Rect := ⟨place.scale 2 + ⟨1, 1⟩, (place + size).scale 2⟩

/-- The inner loop over `rooms` that clears `good` when the expanded room meets an earlier room. -/
def roomIsGood (expandedRoom : Rect) (rooms : List Rect) : Bool :=
  rooms.foldl (fun good other => if expandedRoom.Intersects other then false else good) true

/-- One iteration of the placement loop of `GenerateRandomMap`. -/
def placeAttempt (W H : Int) (rooms : List Rect) (e : Engine) : Option (List Rect × Engine) :=
  let places : int2 := (⟨W - 2, H - 2⟩ : int2).quot 2
  match uniformInt 3 5 e with
  | none => none
  | some (w, e) =>
    match uniformInt 2 4 e with
    | none => none
    | some (h, e) =>
      match uniformInt 0 (places.x - w) e with
      | none => none
      | some (px, e) =>
        match uniformInt 0 (places.y - h) e with
        | none => none
        | some (py, e) =>
          let room := roomRect ⟨px, py⟩ ⟨w, h⟩
          let expandedRoom := room.expand2
          if roomIsGood expandedRoom rooms then some (rooms ++ [room], e) else some (rooms, e)

/-- The placement loop `for(int i=0; i<1000 && rooms.size() < 8; ++i)`, with `n` iterations left. -/
def placeRoomsLoop (W H : Int) : Nat → List Rect → Engine → Option (List Rect × Engine)
  | 0, rooms, e => some (rooms, e)
  | n + 1, rooms, e =>
    if rooms.length < 8 then
      match placeAttempt W H rooms e with
      | none => none
      | some (rooms, e) => placeRoomsLoop W H n rooms e
    else some (rooms, e)

/-- The room list built by the placement loop of `GenerateRandomMap`. -/
def placeRooms (W H : Int) (e : Engine) : Option (List Rect × Engine) :=
  placeRoomsLoop W H 1000 [] e

/-! ## Tunnel carving -/

/-- The function `EnumerateDoorCandidates(room, other)`. -/
def EnumerateDoorCandidates (room other : Rect) : List (int2 × Direction) :=
  (if other.a.x > room.b.x then
      (stepsByTwo room.a.y room.b.y).map (fun y => ((⟨room.b.x - 1, y⟩ : int2), Direction.East))
    else []) ++
  (if other.b.x < room.a.x then
      (stepsByTwo room.a.y room.b.y).map (fun y => ((⟨room.a.x, y⟩ : int2), Direction.West))
    else []) ++
  (if other.a.y > room.b.y then
      (stepsByTwo room.a.x room.b.x).map (fun x => ((⟨x, room.b.y - 1⟩ : int2), Direction.South))
    else []) ++
  (if other.b.y < room.a.y then
      (stepsByTwo room.a.x room.b.x).map (fun x => ((⟨x, room.a.y⟩ : int2), Direction.North))
    else [])

/-- The values `CarveTunnel` fixes before it starts carving: the chosen doors, the two landing
points, the steps, the halved distances after the swap, and the turn index. -/
structure TunnelPlan where
  doorA : int2 × Direction
  doorB : int2 × Direction
  pointA : int2
  pointB : int2
  stepMain : int2
  stepSide : int2
  absDelta : int2
  turn : Int

/-- The values `CarveTunnel` computes from the two chosen doors and the drawn turn index. -/
def tunnelGeometry (doorA doorB : int2 × Direction) (turn : Int) : TunnelPlan :=
  let pointA := doorA.1 + doorA.2.toInt2.scale 2
  let pointB := doorB.1 + doorB.2.toInt2.scale 2
  let delta := pointB - pointA
  let absDelta := delta.Abs.quot 2
  let stepMain : int2 := ⟨if delta.x > 0 then 1 else -1, 0⟩
  let stepSide : int2 := ⟨0, if delta.y > 0 then 1 else -1⟩
  let swap := decide (absDelta.y > absDelta.x)
  let absDelta' : int2 := if swap then ⟨absDelta.y, absDelta.x⟩ else absDelta
  let stepMain' := if swap then stepSide else stepMain
  let stepSide' := if swap then stepMain else stepSide
  ⟨doorA, doorB, pointA, pointB, stepMain', stepSide', absDelta', turn⟩

/-- The first part of `CarveTunnel`, up to the draw of `turn`: two doors are drawn from the candidate
lists, then `turn` from `[0, absDelta.x]`. -/
def planTunnel (e : Engine) (roomA roomB : Rect) : Option (TunnelPlan × Engine) :=
  let doorsA := EnumerateDoorCandidates roomA roomB
  let doorsB := EnumerateDoorCandidates roomB roomA
  match uniformIndex doorsA.length e with
  | none => none
  | some (ia, e) =>
    match uniformIndex doorsB.length e with
    | none => none
    | some (ib, e) =>
      match doorsA[ia]?, doorsB[ib]? with
      | some doorA, some doorB =>
        match uniformInt 0 (tunnelGeometry doorA doorB 0).absDelta.x e with
        | none => none
        | some (turn, e) => some (tunnelGeometry doorA doorB turn, e)
      | _, _ => none

/-- The map being carved, the cursor `point`, and (as a record of the run) the cells assigned so far
in order. -/
structure Carver where
  map : Map
  point : int2
  visited : List int2

/-- The assignment `map[point] = TILE_FLOOR`. -/
def Carver.carve (c : Carver) : Carver :=
  { c with map := c.map.set c.point Tile.TILE_FLOOR, visited := c.visited ++ [c.point] }

/-- The update `point += step`. -/
def Carver.move (c : Carver) (step : int2) : Carver := { c with point := c.point + step }

/-- A carving loop of `CarveTunnel` run `n` times: two one-cell steps per iteration. -/
def carveSteps (step : int2) : Nat → Carver → Carver
  | 0, c => c
  | n + 1, c => carveSteps step n (((c.move step).carve.move step).carve)

/-- The carving part of `CarveTunnel`: the landing point, then the three loops. -/
def carveWalk (map : Map) (plan : TunnelPlan) : Carver :=
  let c := (⟨map, plan.pointA, []⟩ : Carver).carve
  let c := carveSteps plan.stepMain plan.turn.toNat c
  let c := carveSteps plan.stepSide plan.absDelta.y.toNat c
  carveSteps plan.stepMain (plan.absDelta.x - plan.turn).toNat c

/-- The map after `CarveTunnel` has followed a plan: the walk, then the two door cells. -/
def carvePlan (map : Map) (plan : TunnelPlan) : Map :=
  ((carveWalk map plan).map.set (plan.doorA.1 + plan.doorA.2.toInt2) Tile.TILE_FLOOR).set
    (plan.doorB.1 + plan.doorB.2.toInt2) Tile.TILE_FLOOR

/-- The function `CarveTunnel(map, engine, roomA, roomB)`. -/
def CarveTunnel (map : Map) (e : Engine) (roomA roomB : Rect) : Option (Map × Engine) :=
  match planTunnel e roomA roomB with
  | none => none
  | some (plan, e) => some (carvePlan map plan, e)

/-- The tunnel loop `for(int i=1; i<rooms.size(); ++i)` of `GenerateRandomMap`, with `n` iterations
left and the loop variable at `i`. -/
def carveTunnelsFrom (rooms : List Rect) : Nat → Nat → Map → Engine → Option (Map × Engine)
  | 0, _, map, e => some (map, e)
  | n + 1, i, map, e =>
    match uniformInt 0 ((i : Int) - 1) e with
    | none => none
    | some (j, e) =>
      match rooms[i]?, rooms[j.toNat]? with
      | some roomA, some roomB =>
        match CarveTunnel map e roomA roomB with
        | none => none
        | some (map, e) => carveTunnelsFrom rooms n (i + 1) map e
      | _, _ => none

/-- The whole tunnel loop of `GenerateRandomMap`. -/
def carveTunnels (rooms : List Rect) (map : Map) (e : Engine) : Option (Map × Engine) :=
  carveTunnelsFrom rooms (rooms.length - 1) 1 map e

/-! ## Intersections, secret doors and room doors -/

/-- The test of one scanned cell in `EnumerateIntersections`. -/
def isIntersection (map : Map) (c : int2) : Bool :=
  (map.GetTile c).IsWalkable &&
  !(map.GetTile (c + ⟨-1, -1⟩)).IsWalkable &&
  !(map.GetTile (c + ⟨1, -1⟩)).IsWalkable &&
  !(map.GetTile (c + ⟨1, 1⟩)).IsWalkable &&
  !(map.GetTile (c + ⟨-1, 1⟩)).IsWalkable &&
  decide (3 ≤
    (if (map.GetTile (c + ⟨-1, 0⟩)).IsWalkable then 1 else 0) +
    (if (map.GetTile (c + ⟨1, 0⟩)).IsWalkable then 1 else 0) +
    (if (map.GetTile (c + ⟨0, -1⟩)).IsWalkable then 1 else 0) +
    (if (map.GetTile (c + ⟨0, 1⟩)).IsWalkable then 1 else 0))

/-- The cells scanned by `EnumerateIntersections`, row by row. -/
def scannedCells (W H : Int) : List int2 :=
  (stepsByTwo 1 H).flatMap (fun y => (stepsByTwo 1 W).map (fun x => (⟨x, y⟩ : int2)))

/-- The function `EnumerateIntersections(map)`. -/
def EnumerateIntersections (W H : Int) (map : Map) : List int2 :=
  (scannedCells W H).filter (isIntersection map)

/-- The array `directions` of the secret-door phase. -/
def directions : List Direction :=
  [Direction.North, Direction.East, Direction.South, Direction.West]

/-- The condition both inner `for` loops of the secret-passage walk test for a direction. -/
def onward (map : Map) (curPoint lastPoint : int2) (d : Direction) : Bool :=
  (map.GetTile (curPoint + d.toInt2)).IsWalkable && decide (curPoint + d.toInt2 ≠ lastPoint)

/-- The inner `while(true)` of the secret-door phase; returns `lastPoint` as it stands at the
`break`. -/
def secretWalk (map : Map) : Nat → int2 → int2 → Option int2
  | fuel, lastPoint, curPoint =>
    if 2 ≤ (directions.filter (onward map curPoint lastPoint)).length then some lastPoint
    else
      match fuel with
      | 0 => none
      | fuel + 1 =>
        match directions.find? (onward map curPoint lastPoint) with
        | some d => secretWalk map fuel curPoint (curPoint + d.toInt2)
        | none => secretWalk map fuel lastPoint curPoint

/-- The outer `while(true)` of the secret-door phase for one selected intersection; `n` bounds the
number of direction draws and `fuel` the walk. -/
def placeSecretDoor (fuel : Nat) (point : int2) : Nat → Map → Engine → Option (Map × Engine)
  | 0, _, _ => none
  | n + 1, map, e =>
    match uniformInt 0 3 e with
    | none => none
    | some (k, e) =>
      let dir := (directions.getD k.toNat Direction.North).toInt2
      if map.GetTile (point + dir) ≠ Tile.TILE_WALL then
        let map := map.set (point + dir) Tile.TILE_HIDDEN_DOOR
        match secretWalk map fuel (point + dir) (point + dir + dir) with
        | none => none
        | some lastPoint => some (map.set lastPoint Tile.TILE_HIDDEN_DOOR, e)
      else placeSecretDoor fuel point n map e

/-- The loop over the intersections found before the secret-door phase started. -/
def placeSecretDoors (fuel : Nat) : List int2 → Map → Engine → Option (Map × Engine)
  | [], map, e => some (map, e)
  | point :: rest, map, e =>
    if (chanceOneInFive e).1 then
      match placeSecretDoor fuel point fuel map (chanceOneInFive e).2 with
      | none => none
      | some (map, e) => placeSecretDoors fuel rest map e
    else placeSecretDoors fuel rest map (chanceOneInFive e).2

/-- The statement `if(map.GetTile(p).IsWalkable()) map[p] = TILE_CLOSED_DOOR`. -/
def doorIfWalkable (map : Map) (p : int2) : Map :=
  if (map.GetTile p).IsWalkable then map.set p Tile.TILE_CLOSED_DOOR else map

/-- The body of the loop `Place doors on rooms` for one room. -/
def placeRoomDoors (map : Map) (room : Rect) : Map :=
  let map := (stepsByTwo room.a.x room.b.x).foldl
    (fun m x => doorIfWalkable (doorIfWalkable m ⟨x, room.a.y - 1⟩) ⟨x, room.b.y⟩) map
  (stepsByTwo room.a.y room.b.y).foldl
    (fun m y => doorIfWalkable (doorIfWalkable m ⟨room.a.x - 1, y⟩) ⟨room.b.x, y⟩) map

/-- The map after the phases `Fill with solid wall` and `Carve rooms`. -/
def carveRooms (W H : Int) (rooms : List Rect) : Map :=
  rooms.foldl (fun m room => m.Fill room Tile.TILE_FLOOR)
    (Map.empty.Fill ⟨⟨0, 0⟩, ⟨W, H⟩⟩ Tile.TILE_WALL)

/-- The function `GenerateRandomMap(engine)` for a `W` by `H` map. -/
def GenerateRandomMap (W H : Int) (fuel : Nat) (e : Engine) : Option Map :=
  match placeRooms W H e with
  | none => none
  | some (rooms, e) =>
    match carveTunnels rooms (carveRooms W H rooms) e with
    | none => none
    | some (map, e) =>
      match placeSecretDoors fuel (EnumerateIntersections W H map) map e with
      | none => none
      | some (map, _) => some (rooms.foldl placeRoomDoors map)

/-! ## Predicates used to state the generator's properties -/

/-- A rectangle the placement loop can produce on a `W` by `H` map: `roomRect place size` for a size
and a placement cell within the ranges of their draws. -/
def PlacedRoom (W H : Int) (room : Rect) : Prop :=
  ∃ place size : int2,
    3 ≤ size.x ∧ size.x ≤ 5 ∧ 2 ≤ size.y ∧ size.y ≤ 4 ∧
    0 ≤ place.x ∧ place.x ≤ Int.tdiv (W - 2) 2 - size.x ∧
    0 ≤ place.y ∧ place.y ≤ Int.tdiv (H - 2) 2 - size.y ∧
    room = roomRect place size

/-- The invariant of the placement loop. -/
def PlacementInv (W H : Int) (rooms : List Rect) : Prop :=
  rooms.length ≤ 8 ∧ (∀ r ∈ rooms, PlacedRoom W H r) ∧
  rooms.Pairwise (fun earlier later => later.expand2.Intersects earlier = false)

/-- A stream of draws that makes the placement loop accept eight rooms in a row in its first eight
attempts and then joins every room to its left neighbour. -/
def rowEngine : Engine :=
  ⟨fun i => if i % 4 = 2 ∧ i < 32 then i - 2 else if i % 4 = 0 ∧ 32 ≤ i then i / 4 - 8 else 0, 0⟩

/-- Two cells are orthogonally adjacent. -/
def Adjacent4 (p q : int2) : Prop := |q.x - p.x| + |q.y - p.y| = 1

instance (p q : int2) : Decidable (Adjacent4 p q) := by
  unfold Adjacent4; infer_instance

/-- A rectangle on the lattice the generator works on: odd minimum corner, even exclusive maximum
corner, and at least one cell. -/
def LatticeRoom (r : Rect) : Prop :=
  r.a.x % 2 = 1 ∧ r.a.y % 2 = 1 ∧ r.b.x % 2 = 0 ∧ r.b.y % 2 = 0 ∧ r.a.x < r.b.x ∧ r.a.y < r.b.y

/-- Connection of `p` to `q` by a path of orthogonally adjacent cells that all satisfy `ok`. -/
def GridConnected (ok : int2 → Prop) (p q : int2) : Prop :=
  ok p ∧ Relation.ReflTransGen (fun u v => ok u ∧ ok v ∧ Adjacent4 u v) p q

/-- Connection through walkable cells of a map. -/
def WalkConnected (map : Map) (p q : int2) : Prop :=
  GridConnected (fun c => (map.GetTile c).IsWalkable = true) p q

/-- A tile that is part of the carved level: floor or any kind of door. -/
def Tile.IsPassage (t : Tile) : Bool :=
  decide (t = Tile.TILE_FLOOR ∨ t = Tile.TILE_HIDDEN_DOOR ∨ t = Tile.TILE_CLOSED_DOOR ∨
    t = Tile.TILE_OPEN_DOOR)

/-- Connection through floor and door cells of a map. -/
def PassageConnected (map : Map) (p q : int2) : Prop :=
  GridConnected (fun c => (map.GetTile c).IsPassage = true) p q

/-- The cells `CarveTunnel` leaves as floor between the two rooms, in order: the door cell of
`roomA`, the cell in front of it, the cells of the carving walk, the cell in front of the door cell of
`roomB`, and that door cell. -/
def tunnelChain (map : Map) (plan : TunnelPlan) : List int2 :=
  plan.doorA.1 :: (plan.doorA.1 + plan.doorA.2.toInt2) :: (carveWalk map plan).visited ++
    [plan.doorB.1 + plan.doorB.2.toInt2, plan.doorB.1]

/-- What holds of the carver throughout `CarveTunnel`, relative to the map `base` it started from and
the cell `start` it carved first: floor cells of `base` are still floor, every visited cell is floor,
the visited cells form a chain of orthogonally adjacent cells from `start` to the cursor. -/
def CarverInv (base : Map) (start : int2) (c : Carver) : Prop :=
  (∀ q, base.GetTile q = Tile.TILE_FLOOR → c.map.GetTile q = Tile.TILE_FLOOR) ∧
  (∀ q ∈ c.visited, c.map.GetTile q = Tile.TILE_FLOOR) ∧
  List.Chain' Adjacent4 c.visited ∧
  c.visited.getLast? = some c.point ∧ c.visited.head? = some start

/-- A step of one cell along one axis. -/
def UnitStep (s : int2) : Prop := |s.x| + |s.y| = 1

/-- Connection through floor cells of a map. -/
def FloorConnected (map : Map) (p q : int2) : Prop :=
  GridConnected (fun c => map.GetTile c = Tile.TILE_FLOOR) p q

/-- The cells of the first `k` rooms are pairwise connected through floor. -/
def JoinedUpTo (map : Map) (rooms : List Rect) (k : Nat) : Prop :=
  ∀ (a b : Nat) (r s : Rect), a < k → b < k → rooms[a]? = some r → rooms[b]? = some s →
    ∀ p q : int2, r.Contains p = true → s.Contains q = true → FloorConnected map p q

/-- Every cell of every room is floor. -/
def RoomsAreFloor (map : Map) (rooms : List Rect) : Prop :=
  ∀ r ∈ rooms, ∀ p : int2, r.Contains p = true → map.GetTile p = Tile.TILE_FLOOR

/-- The only difference between `map` and `map'` is that some cells have become doors. -/
def DoorsOnly (map map' : Map) : Prop :=
  ∀ c : int2, map'.GetTile c = map.GetTile c ∨ map'.GetTile c = Tile.TILE_HIDDEN_DOOR ∨
    map'.GetTile c = Tile.TILE_CLOSED_DOOR

/-- The tiles found at the given cells after the tunnel loop of `GenerateRandomMap`, before any door is
placed. -/
def tunnelPhaseTiles (W H : Int) (e : Engine) (cells : List int2) : Option (List Tile) :=
  match placeRooms W H e with
  | none => none
  | some (rooms, e) =>
    match carveTunnels rooms (carveRooms W H rooms) e with
    | none => none
    | some (map, _) => some (cells.map map.GetTile)

/-- The cells around the room `[1,6)×[1,4)` other than `(6,1)`. -/
def firstRoomRing : List int2 :=
  [⟨0, 1⟩, ⟨0, 2⟩, ⟨0, 3⟩, ⟨6, 2⟩, ⟨6, 3⟩,
   ⟨1, 0⟩, ⟨2, 0⟩, ⟨3, 0⟩, ⟨4, 0⟩, ⟨5, 0⟩, ⟨1, 4⟩, ⟨2, 4⟩, ⟨3, 4⟩, ⟨4, 4⟩, ⟨5, 4⟩]

/-- Row-major scan order: `p` is scanned before `q`. -/
def ScannedBefore (p q : int2) : Prop := p.y < q.y ∨ (p.y = q.y ∧ p.x < q.x)

/-- The four orthogonal neighbours of a cell. -/
def orthogonalNeighbors (c : int2) : List int2 :=
  [c + ⟨-1, 0⟩, c + ⟨1, 0⟩, c + ⟨0, -1⟩, c + ⟨0, 1⟩]

/-- The four diagonal neighbours of a cell. -/
def diagonalNeighbors (c : int2) : List int2 :=
  [c + ⟨-1, -1⟩, c + ⟨1, -1⟩, c + ⟨1, 1⟩, c + ⟨-1, 1⟩]

/-- The cells the loop `Place doors on rooms` checks for one room, in the order it checks them. -/
def roomDoorPositions (room : Rect) : List int2 :=
  (stepsByTwo room.a.x room.b.x).flatMap
      (fun x => [(⟨x, room.a.y - 1⟩ : int2), ⟨x, room.b.y⟩]) ++
  (stepsByTwo room.a.y room.b.y).flatMap
      (fun y => [(⟨room.a.x - 1, y⟩ : int2), ⟨room.b.x, y⟩])

/-- A cell immediately outside an edge of a room at a checked position: `x = a.x, a.x+2, ... < b.x` on
the rows `a.y-1` and `b.y`, or `y = a.y, a.y+2, ... < b.y` on the columns `a.x-1` and `b.x`. -/
def DoorPosition (room : Rect) (c : int2) : Prop :=
  (∃ k : Nat, c.x = room.a.x + 2 * (k : Int) ∧ c.x < room.b.x ∧
      (c.y = room.a.y - 1 ∨ c.y = room.b.y)) ∨
  (∃ k : Nat, c.y = room.a.y + 2 * (k : Int) ∧ c.y < room.b.y ∧
      (c.x = room.a.x - 1 ∨ c.x = room.b.x))

/-- The cells `CarveTunnel` assigns, in order: the landing point `pointA`, the cells of the three
carving loops, and the two cells in front of the chosen doors. -/
def tunnelWrites (map : Map) (plan : TunnelPlan) : List int2 :=
  (carveWalk map plan).visited ++
    [plan.doorA.1 + plan.doorA.2.toInt2, plan.doorB.1 + plan.doorB.2.toInt2]

/-- A finite prefix of draws, followed by zeros.  On an 80 by 24 map it places the rooms
`[1,6)×[13,16)`, `[33,38)×[13,16)`, `[11,16)×[3,6)`, `[17,22)×[19,22)` and four more to the east,
joins the second room to the first by a corridor along the row `y = 13`, joins the third and the
fourth room to that corridor at `(13,13)` and `(17,13)`, selects both intersections for a secret
passage, and draws the direction east for the first and west for the second. -/
def deadEndDraws : List Nat :=
  [0, 0, 0, 6,   0, 0, 16, 6,   0, 0, 5, 1,   0, 0, 8, 9,
   0, 0, 20, 6,  0, 0, 24, 6,   0, 0, 28, 6,  0, 0, 32, 6,
   0, 0, 0, 0,   0, 3, 0, 0,    0, 2, 0, 0,   1, 0, 0, 0,
   4, 0, 0, 0,   5, 0, 0, 0,    6, 0, 0, 0,
   0, 1,   0, 3]

/-- The engine that produces `deadEndDraws`. -/
def deadEndEngine : Engine := ⟨fun i => deadEndDraws.getD i 0, 0⟩

/-- A check that the secret-passage walk started in the state `(lastPoint, curPoint)` reaches, within
`n` moves, a cell that is not a branch point and has no onward walkable neighbour: from there the
walk repeats the same state forever. -/
def walkGetsStuck (map : Map) : Nat → int2 → int2 → Bool
  | n, lastPoint, curPoint =>
    if 2 ≤ (directions.filter (onward map curPoint lastPoint)).length then false
    else
      match directions.find? (onward map curPoint lastPoint) with
      | none => true
      | some d =>
        match n with
        | 0 => false
        | n + 1 => walkGetsStuck map n curPoint (curPoint + d.toInt2)

/-- A check that, for one selected intersection, the direction loop accepts a direction within `n`
draws and the walk that follows gets stuck within `bound` moves. -/
def secretDoorHangs (bound : Nat) (map : Map) (point : int2) : Nat → Engine → Bool
  | 0, _ => false
  | n + 1, e =>
    match uniformInt 0 3 e with
    | none => false
    | some (k, e) =>
      let dir := (directions.getD k.toNat Direction.North).toInt2
      if map.GetTile (point + dir) ≠ Tile.TILE_WALL then
        walkGetsStuck (map.set (point + dir) Tile.TILE_HIDDEN_DOOR) bound (point + dir)
          (point + dir + dir)
      else secretDoorHangs bound map point n e

/-- A check that the secret-door phase reaches a selected intersection whose walk gets stuck, after
the intersections before it were handled with fuel `bound`. -/
def secretPhaseHangs (bound : Nat) : List int2 → Map → Engine → Bool
  | [], _, _ => false
  | point :: rest, map, e =>
    if (chanceOneInFive e).1 then
      secretDoorHangs bound map point bound (chanceOneInFive e).2 ||
        (match placeSecretDoor bound point bound map (chanceOneInFive e).2 with
          | none => false
          | some (map, e) => secretPhaseHangs bound rest map e)
    else secretPhaseHangs bound rest map (chanceOneInFive e).2

/-- A check that a run of `GenerateRandomMap` gets through room placement and tunnel carving and then
reaches a secret-passage walk that gets stuck. -/
def generatorHangs (W H : Int) (bound : Nat) (e : Engine) : Bool :=
  match placeRooms W H e with
  | none => false
  | some (rooms, e) =>
    match carveTunnels rooms (carveRooms W H rooms) e with
    | none => false
    | some (map, e) => secretPhaseHangs bound (EnumerateIntersections W H map) map e

/-! ## Grid lemmas -/

namespace int2

@[simp] theorem add_x (p q : int2) : (p + q).x = p.x + q.x := rfl
@[simp] theorem add_y (p q : int2) : (p + q).y = p.y + q.y := rfl
@[simp] theorem sub_x (p q : int2) : (p - q).x = p.x - q.x := rfl
@[simp] theorem sub_y (p q : int2) : (p - q).y = p.y - q.y := rfl

theorem ext_iff' (p q : int2) : p = q ↔ p.x = q.x ∧ p.y = q.y := by
  cases p; cases q; simp

end int2

/-! ## Stepping lemmas -/

namespace const_iterator

theorem next_neg (it : const_iterator) (h : it.error - it.sideDelta < 0) :
    it.next = { it with point := it.point + it.mainStep.toInt2 + it.sideStep.toInt2,
                        error := it.error - it.sideDelta + it.mainDelta } := by
  simp only [next, h, if_true]

theorem next_nonneg (it : const_iterator) (h : ¬ it.error - it.sideDelta < 0) :
    it.next = { it with point := it.point + it.mainStep.toInt2,
                        error := it.error - it.sideDelta } := by
  simp only [next, h, if_false]

@[simp] theorem next_mainStep (it : const_iterator) : it.next.mainStep = it.mainStep := by
  by_cases h : it.error - it.sideDelta < 0
  · rw [next_neg it h]
  · rw [next_nonneg it h]

@[simp] theorem next_sideStep (it : const_iterator) : it.next.sideStep = it.sideStep := by
  by_cases h : it.error - it.sideDelta < 0
  · rw [next_neg it h]
  · rw [next_nonneg it h]

@[simp] theorem next_mainDelta (it : const_iterator) : it.next.mainDelta = it.mainDelta := by
  by_cases h : it.error - it.sideDelta < 0
  · rw [next_neg it h]
  · rw [next_nonneg it h]

@[simp] theorem next_sideDelta (it : const_iterator) : it.next.sideDelta = it.sideDelta := by
  by_cases h : it.error - it.sideDelta < 0
  · rw [next_neg it h]
  · rw [next_nonneg it h]

theorem iterate_fields (k : Nat) (it : const_iterator) :
    (next^[k] it).mainStep = it.mainStep ∧ (next^[k] it).sideStep = it.sideStep ∧
    (next^[k] it).mainDelta = it.mainDelta ∧ (next^[k] it).sideDelta = it.sideDelta := by
  induction k with
  | zero => simp
  | succ k ih =>
    rw [Function.iterate_succ_apply']
    simp [ih]

theorem iterate_perp (k : Nat) (it : const_iterator) (h : it.Perp) : (next^[k] it).Perp := by
  obtain ⟨h1, h2, _, _⟩ := iterate_fields k it
  unfold Perp at *
  rw [h1, h2]; exact h

/-- Each `++` advances the cursor by exactly one along the main axis. -/
theorem next_progress (it : const_iterator) (h : it.Perp) :
    dot it.next.point it.mainStep.toInt2 = dot it.point it.mainStep.toInt2 + 1 := by
  obtain ⟨h1, h2⟩ := h
  unfold dot at *
  by_cases hneg : it.error - it.sideDelta < 0
  · rw [next_neg it hneg]; simp only [int2.add_x, int2.add_y]; nlinarith
  · rw [next_nonneg it hneg]; simp only [int2.add_x, int2.add_y]; nlinarith

theorem iterate_progress (k : Nat) (it : const_iterator) (h : it.Perp) :
    dot (next^[k] it).point it.mainStep.toInt2 = dot it.point it.mainStep.toInt2 + k := by
  induction k with
  | zero => simp
  | succ k ih =>
    rw [Function.iterate_succ_apply']
    have hp := next_progress _ (iterate_perp k it h)
    rw [(iterate_fields k it).1] at hp
    rw [hp, ih]; push_cast; ring

/-- Cursors reached after different numbers of steps stand on different cells. -/
theorem iterate_point_ne (i j : Nat) (it : const_iterator) (h : it.Perp) (hij : i ≠ j) :
    (next^[i] it).point ≠ (next^[j] it).point := by
  intro heq
  have hi := iterate_progress i it h
  have hj := iterate_progress j it h
  rw [heq] at hi
  have : (i : Int) = j := by linarith
  exact hij (by exact_mod_cast this)

/-- State of the cursor after `k` steps: `k` main steps, some number `c` of side steps, and the error
back in its range. -/
theorem iterate_state (k : Nat) (it : const_iterator) (h : it.Ranged) :
    ∃ c : Int, 0 ≤ c ∧ c ≤ k ∧
      (next^[k] it).point = it.point + it.mainStep.toInt2.scale k + it.sideStep.toInt2.scale c ∧
      (next^[k] it).error = it.error - k * it.sideDelta + c * it.mainDelta ∧
      0 ≤ (next^[k] it).error ∧ (next^[k] it).error < it.mainDelta := by
  obtain ⟨hm, hs0, hsm, he0, he1⟩ := h
  induction k with
  | zero =>
    refine ⟨0, le_refl _, by simp, ?_, by simp, by simpa using he0, by simpa using he1⟩
    simp [int2.ext_iff', int2.scale]
  | succ k ih =>
    obtain ⟨c, hc0, hck, hp, he, hlo, hhi⟩ := ih
    obtain ⟨f1, f2, f3, f4⟩ := iterate_fields k it
    rw [Function.iterate_succ_apply']
    by_cases hneg : (next^[k] it).error - (next^[k] it).sideDelta < 0
    · rw [next_neg _ hneg]
      rw [f4] at hneg
      refine ⟨c + 1, by omega, by push_cast; omega, ?_, ?_, ?_, ?_⟩
      · simp only [f1, f2, hp]
        simp [int2.ext_iff', int2.scale]; constructor <;> ring
      · simp only [f3, f4, he]; push_cast; ring
      · simp only [f3, f4]; omega
      · simp only [f3, f4]; omega
    · rw [next_nonneg _ hneg]
      rw [f4] at hneg
      refine ⟨c, hc0, by push_cast; omega, ?_, ?_, ?_, ?_⟩
      · simp only [f1, f2, hp]
        simp [int2.ext_iff', int2.scale]; constructor <;> ring
      · simp only [f3, f4, he]; push_cast; ring
      · simp only [f3, f4]; omega
      · simp only [f3, f4]; omega

end const_iterator

/-! ## The constructor -/

theorem int2_ne_cases (a b : int2) (hab : a ≠ b) : a.x ≠ b.x ∨ a.y ≠ b.y := by
  by_contra h
  push_neg at h
  exact hab ((int2.ext_iff' a b).2 h)

/-- The cursor the constructor starts from: error in range, perpendicular unit steps, main delta equal
to the Chebyshev distance, and `b` lying `mainDelta` main steps and `sideDelta` side steps away. -/
theorem lineStart_spec (a b : int2) (hab : a ≠ b) :
    (lineStart a b).Ranged ∧ (lineStart a b).Perp ∧ (lineStart a b).point = a ∧
    (lineStart a b).mainDelta = chebyshev a b ∧
    (lineStart a b).error = (lineStart a b).mainDelta / 2 ∧
    b = a + (lineStart a b).mainStep.toInt2.scale (lineStart a b).mainDelta
          + (lineStart a b).sideStep.toInt2.scale (lineStart a b).sideDelta := by
  have hne := int2_ne_cases a b hab
  have hx0 := abs_nonneg (b.x - a.x)
  have hy0 := abs_nonneg (b.y - a.y)
  simp only [lineStart, BresenhamLine.BresenhamLine, const_iterator.Ranged, const_iterator.Perp,
    chebyshev, dot, Bool.not_true, Bool.false_and, Bool.false_eq_true, if_false, decide_eq_true_eq]
  by_cases hswap : |b.y - a.y| > |b.x - a.x|
  · simp only [hswap, if_true]
    rw [Int.tdiv_eq_ediv hy0 (by norm_num), max_eq_right (le_of_lt hswap)]
    rcases abs_cases (b.x - a.x) with ⟨hx, hx'⟩ | ⟨hx, hx'⟩ <;>
    rcases abs_cases (b.y - a.y) with ⟨hy, hy'⟩ | ⟨hy, hy'⟩ <;>
    by_cases h1 : a.x < b.x <;> by_cases h2 : a.y < b.y <;>
    simp only [h1, h2, if_true, if_false, Direction.toInt2, int2.scale, int2.ext_iff',
      int2.add_x, int2.add_y] <;>
    refine ⟨by omega, by norm_num, trivial, trivial, trivial, by omega⟩
  · simp only [hswap, if_false]
    rw [Int.tdiv_eq_ediv hx0 (by norm_num), max_eq_left (not_lt.1 hswap)]
    rcases abs_cases (b.x - a.x) with ⟨hx, hx'⟩ | ⟨hx, hx'⟩ <;>
    rcases abs_cases (b.y - a.y) with ⟨hy, hy'⟩ | ⟨hy, hy'⟩ <;>
    by_cases h1 : a.x < b.x <;> by_cases h2 : a.y < b.y <;>
    simp only [h1, h2, if_true, if_false, Direction.toInt2, int2.scale, int2.ext_iff',
      int2.add_x, int2.add_y] <;>
    refine ⟨by omega, by norm_num, trivial, trivial, trivial, by omega⟩

theorem lineEnd_eq (a b : int2) : lineEnd a b = { lineStart a b with point := b } := rfl

theorem BresenhamLine_eq (a b : int2) (includeA includeB : Bool) :
    BresenhamLine.BresenhamLine a includeA b includeB =
      ⟨if !includeA && (lineStart a b).ne (if includeB then (lineEnd a b).next else lineEnd a b)
          then (lineStart a b).next else lineStart a b,
        if includeB then (lineEnd a b).next else lineEnd a b⟩ := by
  cases includeA <;> cases includeB <;> rfl

/-- Walking `mainDelta` steps from `a` arrives at `b` with the error back at its initial value, so the
cursor equals the constructor's initial `last` in every field. -/
theorem iterate_lineStart_reach (a b : int2) (hab : a ≠ b) :
    const_iterator.next^[(chebyshev a b).toNat] (lineStart a b) = lineEnd a b := by
  obtain ⟨hr, hp, hpt, hm, he, hb⟩ := lineStart_spec a b hab
  obtain ⟨c, hc0, hck, hpc, hec, hlo, hhi⟩ :=
    const_iterator.iterate_state (chebyshev a b).toNat (lineStart a b) hr
  obtain ⟨f1, f2, f3, f4⟩ := const_iterator.iterate_fields (chebyshev a b).toNat (lineStart a b)
  obtain ⟨hm0, hs0, hsm, he0, he1⟩ := hr
  have hcast : (((chebyshev a b).toNat : Nat) : Int) = (lineStart a b).mainDelta := by
    rw [← hm]; exact Int.toNat_of_nonneg (le_of_lt hm0)
  rw [hcast] at hpc hec
  have hcs : c = (lineStart a b).sideDelta := by
    rw [hec] at hlo hhi
    by_contra hne
    rcases lt_or_gt_of_ne hne with hlt | hgt
    · have : (c + 1) * (lineStart a b).mainDelta ≤ (lineStart a b).sideDelta * (lineStart a b).mainDelta :=
        mul_le_mul_of_nonneg_right (by omega) (le_of_lt hm0)
      nlinarith
    · have : ((lineStart a b).sideDelta + 1) * (lineStart a b).mainDelta ≤ c * (lineStart a b).mainDelta :=
        mul_le_mul_of_nonneg_right (by omega) (le_of_lt hm0)
      nlinarith
  rw [lineEnd_eq]
  have hpoint : (const_iterator.next^[(chebyshev a b).toNat] (lineStart a b)).point = b := by
    rw [hpc, hcs, hpt]; exact hb.symm
  have herr : (const_iterator.next^[(chebyshev a b).toNat] (lineStart a b)).error
      = (lineStart a b).error := by
    rw [hec, hcs]; ring
  cases hit : const_iterator.next^[(chebyshev a b).toNat] (lineStart a b)
  rw [hit] at f1 f2 f3 f4 hpoint herr
  simp only at f1 f2 f3 f4 hpoint herr
  simp [f1, f2, f3, f4, hpoint, herr]

/-- The range-for loop produces the cells under the cursor for the `n` steps before it reaches `last`. -/
theorem lineCellsFrom_eq (n : Nat) : ∀ (it last : const_iterator) (k : Nat),
    (∀ i, i < n → (const_iterator.next^[i] it).point ≠ last.point) →
    (const_iterator.next^[n] it).point = last.point →
    lineCellsFrom (n + k) it last
      = some ((List.range n).map (fun i => (const_iterator.next^[i] it).point)) := by
  induction n with
  | zero =>
    intro it last k _ hn
    unfold lineCellsFrom
    simp only [Function.iterate_zero, id_eq] at hn
    simp [const_iterator.ne, hn]
  | succ n ih =>
    intro it last k hlt hn
    have h0 : it.point ≠ last.point := by simpa using hlt 0 (Nat.succ_pos n)
    have hfuel : n + 1 + k = (n + k) + 1 := by omega
    rw [hfuel]
    unfold lineCellsFrom
    simp only [const_iterator.ne, h0, ne_eq, not_false_eq_true, decide_True, if_true]
    rw [ih it.next last k (fun i hi => by simpa using hlt (i + 1) (Nat.succ_lt_succ hi))
      (by simpa using hn)]
    simp [List.range_succ_eq_map, List.map_map, Function.comp_def]

theorem chebyshev_pos (a b : int2) (hab : a ≠ b) : 0 < chebyshev a b := by
  obtain ⟨hr, _, _, hm, _, _⟩ := lineStart_spec a b hab
  rw [← hm]; exact hr.1

/-- For distinct endpoints the loop yields the cells at walk indices `lineLo .. lineHi - 1`. -/
theorem lineCells_distinct (a b : int2) (hab : a ≠ b) (includeA includeB : Bool) (k : Nat) :
    lineCells (lineFuel a b + k) (BresenhamLine.BresenhamLine a includeA b includeB)
      = some ((List.range (lineHi a b includeB - lineLo includeA)).map
          (fun i => linePoint a b (i + lineLo includeA))) := by
  obtain ⟨hr, hp, hpt, hm, he, hb⟩ := lineStart_spec a b hab
  have hpos := chebyshev_pos a b hab
  have hmpos : 0 < (chebyshev a b).toNat := by omega
  have hreach := iterate_lineStart_reach a b hab
  -- the end cursor is the start cursor advanced `lineHi` times
  have hlast : (if includeB then (lineEnd a b).next else lineEnd a b)
      = const_iterator.next^[lineHi a b includeB] (lineStart a b) := by
    cases includeB
    · simp [lineHi, hreach]
    · simp only [lineHi, if_true]
      rw [Function.iterate_succ_apply', hreach]
  have hhi : 1 ≤ lineHi a b includeB := by
    unfold lineHi; split <;> omega
  -- the first cursor is the start cursor advanced `lineLo` times
  have hfirst : (if !includeA && (lineStart a b).ne
        (if includeB then (lineEnd a b).next else lineEnd a b)
        then (lineStart a b).next else lineStart a b)
      = const_iterator.next^[lineLo includeA] (lineStart a b) := by
    cases includeA
    · have hne : (lineStart a b).ne (const_iterator.next^[lineHi a b includeB] (lineStart a b))
          = true := by
        have := const_iterator.iterate_point_ne 0 (lineHi a b includeB) (lineStart a b) hp
          (by omega)
        simpa [const_iterator.ne] using this
      rw [hlast, hne]
      simp [lineLo]
    · simp [lineLo]
  have hlo : lineLo includeA ≤ lineHi a b includeB := by
    unfold lineLo; split <;> omega
  have hfuel : lineFuel a b + k = (lineHi a b includeB - lineLo includeA)
      + (lineFuel a b + k - (lineHi a b includeB - lineLo includeA)) := by
    have : lineHi a b includeB ≤ lineFuel a b := by
      unfold lineHi lineFuel; split <;> omega
    omega
  rw [BresenhamLine_eq, lineCells, hfirst, hlast, hfuel]
  rw [lineCellsFrom_eq]
  · congr 1
    apply List.map_congr_left
    intro i _
    rw [← Function.iterate_add_apply]; rfl
  · intro i hi
    rw [← Function.iterate_add_apply]
    exact const_iterator.iterate_point_ne _ _ _ hp (by omega)
  · rw [← Function.iterate_add_apply]
    congr 2
    omega

theorem lineCellsFrom_done (fuel : Nat) (it last : const_iterator) (h : it.point = last.point) :
    lineCellsFrom fuel it last = some [] := by
  unfold lineCellsFrom
  simp [const_iterator.ne, h]

/-- For coinciding endpoints the loop yields the single cell `a` when both ends are included and
nothing otherwise. -/
theorem lineCells_degenerate (a : int2) (includeA includeB : Bool) (k : Nat) :
    lineCells (lineFuel a a + k) (BresenhamLine.BresenhamLine a includeA a includeB)
      = some (if includeA && includeB then [a] else []) := by
  have hfuel : lineFuel a a + k = k + 1 := by
    simp [lineFuel, chebyshev]; omega
  rw [hfuel]
  cases includeA <;> cases includeB <;>
    simp [lineCells, BresenhamLine.BresenhamLine, lineCellsFrom, const_iterator.ne,
      const_iterator.next, Direction.toInt2, int2.ext_iff', lineCellsFrom_done]

/-- With fuel `lineFuel a b` or more the walk over a line always finishes, and yields `rayCells`. -/
theorem lineCells_enough_fuel (a b : int2) (includeA includeB : Bool) (k : Nat) :
    lineCells (lineFuel a b + k) (BresenhamLine.BresenhamLine a includeA b includeB)
      = some (rayCells a includeA b includeB) := by
  unfold rayCells
  by_cases hab : a = b
  · subst hab
    have h0 := lineCells_degenerate a includeA includeB 0
    rw [Nat.add_zero] at h0
    rw [lineCells_degenerate, h0]; rfl
  · have h0 := lineCells_distinct a b hab includeA includeB 0
    rw [Nat.add_zero] at h0
    rw [lineCells_distinct a b hab, h0]; rfl

theorem rayCells_distinct (a b : int2) (hab : a ≠ b) (includeA includeB : Bool) :
    rayCells a includeA b includeB = (List.range (lineHi a b includeB - lineLo includeA)).map
          (fun i => linePoint a b (i + lineLo includeA)) := by
  have h1 := lineCells_enough_fuel a b includeA includeB 0
  rw [lineCells_distinct a b hab] at h1
  exact (Option.some.inj h1).symm

theorem rayCells_degenerate (a : int2) (includeA includeB : Bool) :
    rayCells a includeA a includeB = if includeA && includeB then [a] else [] := by
  have h1 := lineCells_enough_fuel a a includeA includeB 0
  rw [lineCells_degenerate] at h1
  exact (Option.some.inj h1).symm

/-- One `++` moves the cursor to an 8-neighbour of the cell it stood on. -/
theorem chebyshev_next (it : const_iterator) (h : it.Perp) :
    chebyshev it.point it.next.point = 1 := by
  obtain ⟨p, M, S, m, s, e⟩ := it
  unfold const_iterator.Perp at h
  by_cases hneg : e - s < 0
  · rw [const_iterator.next_neg _ hneg]
    cases M <;> cases S <;>
      simp [chebyshev, Direction.toInt2, dot] at h ⊢
  · rw [const_iterator.next_nonneg _ hneg]
    cases M <;> cases S <;>
      simp [chebyshev, Direction.toInt2, dot] at h ⊢

theorem linePoint_zero (a b : int2) : linePoint a b 0 = a := rfl

theorem linePoint_last (a b : int2) (hab : a ≠ b) :
    linePoint a b (chebyshev a b).toNat = b := by
  unfold linePoint
  rw [iterate_lineStart_reach a b hab]; rfl

theorem linePoint_step (a b : int2) (hab : a ≠ b) (i : Nat) :
    chebyshev (linePoint a b i) (linePoint a b (i + 1)) = 1 := by
  obtain ⟨_, hp, _⟩ := lineStart_spec a b hab
  unfold linePoint
  rw [Function.iterate_succ_apply']
  exact chebyshev_next _ (const_iterator.iterate_perp i _ hp)

theorem linePoint_injective (a b : int2) (hab : a ≠ b) : Function.Injective (linePoint a b) := by
  obtain ⟨_, hp, _⟩ := lineStart_spec a b hab
  intro i j hij
  by_contra hne
  exact const_iterator.iterate_point_ne i j _ hp hne hij

/-! ## Claims C1 and C2 -/

/-- C1: for all endpoints `a`, `b` and both inclusion flags the range-for loop over
`BresenhamLine(a, includeA, b, includeB)` finishes (any fuel of at least `lineFuel a b` yields a list of
cells); for `a ≠ b` the list has exactly `max(|b.x-a.x|, |b.y-a.y|) + 1` cells minus the number of
excluded endpoints, and for `a = b` with both endpoints excluded it is empty. -/
theorem bresenham_cells_length (a b : int2) (includeA includeB : Bool) (k : Nat) :
    ∃ cs : List int2,
      lineCells (lineFuel a b + k) (BresenhamLine.BresenhamLine a includeA b includeB) = some cs ∧
      (a ≠ b → (cs.length : Int)
          = max |b.x - a.x| |b.y - a.y| + 1 - excludedEndpoints includeA includeB) ∧
      (a = b → includeA = false → includeB = false → cs = []) := by
  refine ⟨rayCells a includeA b includeB, lineCells_enough_fuel a b includeA includeB k, ?_, ?_⟩
  · intro hab
    have hpos := chebyshev_pos a b hab
    rw [rayCells_distinct a b hab, List.length_map, List.length_range]
    have hc : ((chebyshev a b).toNat : Int) = chebyshev a b := Int.toNat_of_nonneg (le_of_lt hpos)
    have hc1 : 1 ≤ (chebyshev a b).toNat := by omega
    unfold chebyshev at hc hc1
    cases includeA <;> cases includeB <;>
      simp only [lineHi, lineLo, excludedEndpoints, chebyshev, if_true, if_false,
        Bool.false_eq_true] <;> omega
  · intro hab hA hB
    subst hab hA hB
    rw [rayCells_degenerate]; rfl

/-- C2: for `a ≠ b` the loop over `BresenhamLine(a, true, b, true)` finishes with a list of cells that
starts at `a`, ends at `b`, has every two consecutive cells at Chebyshev distance exactly 1, and
contains no cell twice. -/
theorem bresenham_path_connected (a b : int2) (hab : a ≠ b) (k : Nat) :
    ∃ cs : List int2,
      lineCells (lineFuel a b + k) (BresenhamLine.BresenhamLine a true b true) = some cs ∧
      cs.head? = some a ∧ cs.getLast? = some b ∧
      List.Chain' (fun p q => chebyshev p q = 1) cs ∧ cs.Nodup := by
  refine ⟨rayCells a true b true, lineCells_enough_fuel a b true true k, ?_⟩
  rw [rayCells_distinct a b hab]
  simp only [lineHi, lineLo, if_true, Nat.sub_zero, Nat.add_zero]
  refine ⟨?_, ?_, ?_, ?_⟩
  · simp [List.range_succ_eq_map, linePoint_zero]
  · rw [List.range_succ, List.map_append]
    simp [linePoint_last a b hab]
  · rw [List.chain'_map, List.chain'_range_succ]
    intro i _
    exact linePoint_step a b hab i
  · exact List.Nodup.map (linePoint_injective a b hab) (List.nodup_range _)

/-- Witness for C2 on the line from `(0,0)` to `(3,1)`. -/
theorem bresenham_path_connected_witness :
    (⟨0, 0⟩ : int2) ≠ ⟨3, 1⟩ ∧
    ∃ cs : List int2,
      lineCells (lineFuel ⟨0, 0⟩ ⟨3, 1⟩ + 0) (BresenhamLine.BresenhamLine ⟨0, 0⟩ true ⟨3, 1⟩ true)
        = some cs ∧
      cs.head? = some ⟨0, 0⟩ ∧ cs.getLast? = some ⟨3, 1⟩ ∧
      List.Chain' (fun p q => chebyshev p q = 1) cs ∧ cs.Nodup :=
  ⟨by decide, bresenham_path_connected ⟨0, 0⟩ ⟨3, 1⟩ (by decide) 0⟩

/-! ## Line of sight -/

theorem orElseCheck_some (a b : Bool) : orElseCheck (some a) (some b) = some (a || b) := by
  cases a <;> rfl

/-- When the walk over a line finishes, the loop of `CheckLineOfSight` finishes too and reports
whether all its cells are walkable. -/
theorem losLoop_of_cells (map : Map) (fuel : Nat) : ∀ (it last : const_iterator) (cs : List int2),
    lineCellsFrom fuel it last = some cs →
    losLoop map fuel it last = some (cs.all (fun p => (map.GetTile p).IsWalkable)) := by
  induction fuel with
  | zero =>
    intro it last cs h
    unfold lineCellsFrom at h
    unfold losLoop
    by_cases hne : it.ne last = true
    · simp [hne] at h
    · simp only [hne, if_false, Bool.false_eq_true] at h ⊢
      cases h; rfl
  | succ fuel ih =>
    intro it last cs h
    unfold lineCellsFrom at h
    unfold losLoop
    by_cases hne : it.ne last = true
    · simp only [hne, if_true] at h ⊢
      cases hrest : lineCellsFrom fuel it.next last with
      | none => rw [hrest] at h; simp at h
      | some rest =>
        rw [hrest] at h
        simp only [Option.map_some', Option.some.injEq] at h
        subst h
        rw [ih _ _ _ hrest]
        cases hw : (map.GetTile it.point).IsWalkable <;> simp [hw]
    · simp only [hne, if_false, Bool.false_eq_true] at h ⊢
      cases h; rfl

theorem lineFuel_shift (v t d : int2) (hx0 : -1 ≤ d.x) (hx1 : d.x ≤ 1) (hy0 : -1 ≤ d.y)
    (hy1 : d.y ≤ 1) : lineFuel v (t + d) ≤ lineFuel v t + 1 := by
  unfold lineFuel chebyshev
  simp only [int2.add_x, int2.add_y]
  rcases abs_cases (t.x + d.x - v.x) with ⟨h1, h1'⟩ | ⟨h1, h1'⟩ <;>
  rcases abs_cases (t.y + d.y - v.y) with ⟨h2, h2'⟩ | ⟨h2, h2'⟩ <;>
  rcases abs_cases (t.x - v.x) with ⟨h3, h3'⟩ | ⟨h3, h3'⟩ <;>
  rcases abs_cases (t.y - v.y) with ⟨h4, h4'⟩ | ⟨h4, h4'⟩ <;>
  rw [h1, h2, h3, h4] <;> simp only [max_def] <;> split_ifs <;> omega

/-- With enough fuel `CheckLineOfSight` finishes: it fails at once for an unwalkable neighbour target,
and otherwise reports whether every cell of the ray (viewer excluded, target included exactly for
neighbour checks) is walkable. -/
theorem CheckLineOfSight_eq (fuel : Nat) (map : Map) (viewer target : int2) (isNeighbor : Bool)
    (hfuel : lineFuel viewer target ≤ fuel) :
    CheckLineOfSight fuel map viewer target isNeighbor
      = some ((!isNeighbor || (map.GetTile target).IsWalkable) &&
          (rayCells viewer false target isNeighbor).all (fun p => (map.GetTile p).IsWalkable)) := by
  have hcells := lineCells_enough_fuel viewer target false isNeighbor (fuel - lineFuel viewer target)
  rw [Nat.add_sub_cancel' hfuel] at hcells
  unfold CheckLineOfSight
  by_cases hblock : (isNeighbor && !(map.GetTile target).IsWalkable) = true
  · rw [if_pos hblock]
    simp only [Bool.and_eq_true, Bool.not_eq_true'] at hblock
    simp [hblock.1, hblock.2]
  · rw [if_neg hblock]
    simp only [Bool.and_eq_true, Bool.not_eq_true', not_and, Bool.not_eq_false] at hblock
    rw [losLoop_of_cells map fuel _ _ _ hcells]
    cases isNeighbor
    · simp
    · simp [hblock rfl]

/-- The ray that includes the target is the ray that excludes it followed by the target. -/
theorem mem_rayCells_excluding_target (v t p : int2) :
    p ∈ rayCells v false t false ↔ (p ∈ rayCells v false t true ∧ p ≠ t) := by
  by_cases hvt : v = t
  · subst hvt
    simp [rayCells_degenerate]
  · have hpos := chebyshev_pos v t hvt
    have hinj := linePoint_injective v t hvt
    have hlast := linePoint_last v t hvt
    rw [rayCells_distinct v t hvt, rayCells_distinct v t hvt]
    simp only [lineHi, lineLo, List.mem_map, List.mem_range, if_true, if_false,
      Bool.false_eq_true]
    constructor
    · rintro ⟨i, hi, rfl⟩
      refine ⟨⟨i, by omega, rfl⟩, ?_⟩
      intro h
      have := hinj (h.trans hlast.symm)
      omega
    · rintro ⟨⟨i, hi, rfl⟩, hne⟩
      refine ⟨i, ?_, rfl⟩
      by_contra hlt
      have him : i + 1 = (chebyshev v t).toNat := by omega
      exact hne (by rw [him]; exact hlast)

/-! ## Claims C3 and C4 -/

/-- C3, as stated, fails: with the viewer at `(0,0)` and a wall at the target `(3,0)` on an otherwise
open floor, the direct check succeeds although the target cell of the ray is not walkable. -/
theorem direct_check_ignores_target :
    ¬ (CheckLineOfSight 8 (floorWithWallAt ⟨3, 0⟩) ⟨0, 0⟩ ⟨3, 0⟩ false = some true ↔
        ∀ p ∈ rayCells ⟨0, 0⟩ false ⟨3, 0⟩ true,
          ((floorWithWallAt ⟨3, 0⟩).GetTile p).IsWalkable = true) := by
  decide

/-- C3, amended: the direct check of `HasLineOfSight` (`CheckLineOfSight` with `isNeighbor = false`)
finishes, and succeeds if and only if every cell on the ray from viewer to target other than the
viewer's own cell and the target cell is walkable. -/
theorem direct_check_iff (map : Map) (viewer target : int2) (k : Nat) :
    ∃ r : Bool,
      CheckLineOfSight (lineFuel viewer target + k) map viewer target false = some r ∧
      (r = true ↔ ∀ p ∈ rayCells viewer false target true, p ≠ target →
          (map.GetTile p).IsWalkable = true) := by
  refine ⟨_, CheckLineOfSight_eq _ map viewer target false (Nat.le_add_right _ _), ?_⟩
  simp only [Bool.not_false, Bool.true_or, Bool.true_and, List.all_eq_true]
  constructor
  · intro h p hp hne
    exact h p ((mem_rayCells_excluding_target viewer target p).2 ⟨hp, hne⟩)
  · intro h p hp
    obtain ⟨hp1, hp2⟩ := (mem_rayCells_excluding_target viewer target p).1 hp
    exact h p hp1 hp2

/-- C4: `HasLineOfSight(viewer, target)` finishes, and is true if and only if the direct check
succeeds or, for at least one of the 8 neighbour offsets `d`, the cell `target + d` is walkable and
every cell on the ray from viewer (excluded) to `target + d` (included) is walkable. -/
theorem has_line_of_sight_iff (map : Map) (viewer target : int2) (k : Nat) :
    ∃ r : Bool,
      map.HasLineOfSight (losFuel viewer target + k) viewer target = some r ∧
      (r = true ↔
        (CheckLineOfSight (losFuel viewer target + k) map viewer target false = some true ∨
          ∃ d ∈ neighborOffsets, (map.GetTile (target + d)).IsWalkable = true ∧
            ∀ p ∈ rayCells viewer false (target + d) true, (map.GetTile p).IsWalkable = true)) := by
  have h0 : lineFuel viewer target ≤ losFuel viewer target + k := by unfold losFuel; omega
  have hd : ∀ d : int2, -1 ≤ d.x → d.x ≤ 1 → -1 ≤ d.y → d.y ≤ 1 →
      lineFuel viewer (target + d) ≤ losFuel viewer target + k := by
    intro d a1 a2 a3 a4
    have := lineFuel_shift viewer target d a1 a2 a3 a4
    unfold losFuel; omega
  have hs1 : target - (⟨1, 0⟩ : int2) = target + ⟨-1, 0⟩ := by
    simp [int2.ext_iff']; omega
  have hs2 : target - (⟨0, 1⟩ : int2) = target + ⟨0, -1⟩ := by
    simp [int2.ext_iff']; omega
  unfold Map.HasLineOfSight
  rw [hs1, hs2]
  rw [CheckLineOfSight_eq _ map viewer target false h0,
    CheckLineOfSight_eq _ map viewer (target + ⟨1, 0⟩) true (hd _ (by simp) (by simp) (by simp) (by simp)),
    CheckLineOfSight_eq _ map viewer (target + ⟨0, 1⟩) true (hd _ (by simp) (by simp) (by simp) (by simp)),
    CheckLineOfSight_eq _ map viewer (target + ⟨-1, 0⟩) true (hd _ (by simp) (by simp) (by simp) (by simp)),
    CheckLineOfSight_eq _ map viewer (target + ⟨0, -1⟩) true (hd _ (by simp) (by simp) (by simp) (by simp)),
    CheckLineOfSight_eq _ map viewer (target + ⟨-1, -1⟩) true (hd _ (by simp) (by simp) (by simp) (by simp)),
    CheckLineOfSight_eq _ map viewer (target + ⟨1, -1⟩) true (hd _ (by simp) (by simp) (by simp) (by simp)),
    CheckLineOfSight_eq _ map viewer (target + ⟨1, 1⟩) true (hd _ (by simp) (by simp) (by simp) (by simp)),
    CheckLineOfSight_eq _ map viewer (target + ⟨-1, 1⟩) true (hd _ (by simp) (by simp) (by simp) (by simp))]
  simp only [orElseCheck_some]
  refine ⟨_, rfl, ?_⟩
  simp only [neighborOffsets, List.mem_cons, List.mem_singleton, exists_eq_or_imp, exists_eq_left,
    List.not_mem_nil, false_and, exists_false, or_false, Bool.not_false, Bool.not_true,
    Bool.true_or, Bool.false_or, Bool.true_and, Bool.or_eq_true, Bool.and_eq_true,
    List.all_eq_true, Option.some.injEq]
/-! ## Room placement -/

theorem uniformInt_spec (lo hi : Int) (e e' : Engine) (v : Int)
    (h : uniformInt lo hi e = some (v, e')) :
    lo ≤ hi ∧ lo ≤ v ∧ v ≤ hi ∧ e' = e.advance := by
  unfold uniformInt at h
  by_cases hle : lo ≤ hi
  · rw [if_pos hle] at h
    simp only [Option.some.injEq, Prod.mk.injEq] at h
    obtain ⟨hv, he⟩ := h
    have h1 := Int.emod_nonneg (e.peek : Int) (show hi - lo + 1 ≠ 0 by omega)
    have h2 := Int.emod_lt_of_pos (e.peek : Int) (show 0 < hi - lo + 1 by omega)
    exact ⟨hle, by omega, by omega, he.symm⟩
  · rw [if_neg hle] at h; cases h

theorem uniformInt_isSome (lo hi : Int) (e : Engine) (h : lo ≤ hi) :
    ∃ v e', uniformInt lo hi e = some (v, e') := by
  unfold uniformInt
  rw [if_pos h]
  exact ⟨_, _, rfl⟩

theorem roomIsGood_foldl (x : Rect) (rooms : List Rect) (init : Bool) :
    rooms.foldl (fun good other => if x.Intersects other then false else good) init
      = (init && rooms.all (fun other => !x.Intersects other)) := by
  induction rooms generalizing init with
  | nil => simp
  | cons r rs ih =>
    rw [List.foldl_cons, ih]
    cases hx : x.Intersects r <;> cases init <;> simp [hx]

theorem roomIsGood_iff (x : Rect) (rooms : List Rect) :
    roomIsGood x rooms = true ↔ ∀ other ∈ rooms, x.Intersects other = false := by
  unfold roomIsGood
  rw [roomIsGood_foldl]
  simp

/-- One attempt either leaves the room list alone or appends a room that the draws can produce and
whose expanded rectangle misses every earlier room. -/
theorem placeAttempt_spec (W H : Int) (rooms rooms' : List Rect) (e e' : Engine)
    (h : placeAttempt W H rooms e = some (rooms', e')) :
    rooms' = rooms ∨ ∃ room, rooms' = rooms ++ [room] ∧ PlacedRoom W H room ∧
      ∀ other ∈ rooms, room.expand2.Intersects other = false := by
  unfold placeAttempt at h
  simp only [int2.quot] at h
  cases h1 : uniformInt 3 5 e with
  | none => rw [h1] at h; cases h
  | some r1 =>
    obtain ⟨w, e1⟩ := r1
    rw [h1] at h
    simp only at h
    cases h2 : uniformInt 2 4 e1 with
    | none => rw [h2] at h; cases h
    | some r2 =>
      obtain ⟨ht, e2⟩ := r2
      rw [h2] at h
      simp only at h
      cases h3 : uniformInt 0 (Int.tdiv (W - 2) 2 - w) e2 with
      | none => rw [h3] at h; cases h
      | some r3 =>
        obtain ⟨px, e3⟩ := r3
        rw [h3] at h
        simp only at h
        cases h4 : uniformInt 0 (Int.tdiv (H - 2) 2 - ht) e3 with
        | none => rw [h4] at h; cases h
        | some r4 =>
          obtain ⟨py, e4⟩ := r4
          rw [h4] at h
          simp only at h
          obtain ⟨_, w0, w1, _⟩ := uniformInt_spec _ _ _ _ _ h1
          obtain ⟨_, t0, t1, _⟩ := uniformInt_spec _ _ _ _ _ h2
          obtain ⟨_, x0, x1, _⟩ := uniformInt_spec _ _ _ _ _ h3
          obtain ⟨_, y0, y1, _⟩ := uniformInt_spec _ _ _ _ _ h4
          by_cases hgood : roomIsGood (roomRect ⟨px, py⟩ ⟨w, ht⟩).expand2 rooms = true
          · rw [if_pos hgood] at h
            simp only [Option.some.injEq, Prod.mk.injEq] at h
            right
            refine ⟨_, h.1.symm, ⟨⟨px, py⟩, ⟨w, ht⟩, w0, w1, t0, t1, x0, x1, y0, y1, rfl⟩, ?_⟩
            exact (roomIsGood_iff _ _).1 hgood
          · rw [if_neg hgood] at h
            simp only [Option.some.injEq, Prod.mk.injEq] at h
            left; exact h.1.symm

theorem placeAttempt_isSome (W H : Int) (hW : 12 ≤ W) (hH : 10 ≤ H) (rooms : List Rect)
    (e : Engine) : ∃ r, placeAttempt W H rooms e = some r := by
  unfold placeAttempt
  simp only [int2.quot]
  obtain ⟨w, e1, h1⟩ := uniformInt_isSome 3 5 e (by norm_num)
  obtain ⟨_, w0, w1, _⟩ := uniformInt_spec _ _ _ _ _ h1
  rw [h1]; simp only
  obtain ⟨ht, e2, h2⟩ := uniformInt_isSome 2 4 e1 (by norm_num)
  obtain ⟨_, t0, t1, _⟩ := uniformInt_spec _ _ _ _ _ h2
  rw [h2]; simp only
  have hWd : Int.tdiv (W - 2) 2 = (W - 2) / 2 := Int.tdiv_eq_ediv (by omega) (by norm_num)
  have hHd : Int.tdiv (H - 2) 2 = (H - 2) / 2 := Int.tdiv_eq_ediv (by omega) (by norm_num)
  obtain ⟨px, e3, h3⟩ := uniformInt_isSome 0 (Int.tdiv (W - 2) 2 - w) e2 (by rw [hWd]; omega)
  rw [h3]; simp only
  obtain ⟨py, e4, h4⟩ := uniformInt_isSome 0 (Int.tdiv (H - 2) 2 - ht) e3 (by rw [hHd]; omega)
  rw [h4]; simp only
  split <;> exact ⟨_, rfl⟩

theorem placementInv_step (W H : Int) (rooms rooms' : List Rect) (e e' : Engine)
    (hlen : rooms.length < 8) (hinv : PlacementInv W H rooms)
    (h : placeAttempt W H rooms e = some (rooms', e')) : PlacementInv W H rooms' := by
  rcases placeAttempt_spec W H rooms rooms' e e' h with rfl | ⟨room, rfl, hplaced, hsep⟩
  · exact hinv
  · obtain ⟨_, hall, hpair⟩ := hinv
    refine ⟨by rw [List.length_append]; simp; omega, ?_, ?_⟩
    · intro r hr
      rcases List.mem_append.1 hr with hr | hr
      · exact hall r hr
      · rw [List.mem_singleton.1 hr]; exact hplaced
    · rw [List.pairwise_append]
      refine ⟨hpair, List.pairwise_singleton _ _, ?_⟩
      intro a ha b hb
      rw [List.mem_singleton.1 hb]
      exact hsep a ha

theorem placeRoomsLoop_inv (W H : Int) (n : Nat) : ∀ (rooms rooms' : List Rect) (e e' : Engine),
    PlacementInv W H rooms → placeRoomsLoop W H n rooms e = some (rooms', e') →
    PlacementInv W H rooms' := by
  induction n with
  | zero =>
    intro rooms rooms' e e' hinv h
    simp only [placeRoomsLoop, Option.some.injEq, Prod.mk.injEq] at h
    rw [← h.1]; exact hinv
  | succ n ih =>
    intro rooms rooms' e e' hinv h
    unfold placeRoomsLoop at h
    by_cases hlen : rooms.length < 8
    · rw [if_pos hlen] at h
      cases ha : placeAttempt W H rooms e with
      | none => rw [ha] at h; cases h
      | some r =>
        obtain ⟨rooms1, e1⟩ := r
        rw [ha] at h
        exact ih rooms1 rooms' e1 e' (placementInv_step W H rooms rooms1 e e1 hlen hinv ha) h
    · rw [if_neg hlen] at h
      simp only [Option.some.injEq, Prod.mk.injEq] at h
      rw [← h.1]; exact hinv

theorem placeRoomsLoop_isSome (W H : Int) (hW : 12 ≤ W) (hH : 10 ≤ H) (n : Nat) :
    ∀ (rooms : List Rect) (e : Engine), ∃ r, placeRoomsLoop W H n rooms e = some r := by
  induction n with
  | zero => intro rooms e; exact ⟨_, rfl⟩
  | succ n ih =>
    intro rooms e
    unfold placeRoomsLoop
    by_cases hlen : rooms.length < 8
    · rw [if_pos hlen]
      obtain ⟨⟨rooms1, e1⟩, ha⟩ := placeAttempt_isSome W H hW hH rooms e
      rw [ha]
      exact ih rooms1 e1
    · rw [if_neg hlen]; exact ⟨_, rfl⟩

/-- The room list of the placement loop satisfies the placement invariant. -/
theorem placeRooms_inv (W H : Int) (e e' : Engine) (rooms : List Rect)
    (h : placeRooms W H e = some (rooms, e')) : PlacementInv W H rooms :=
  placeRoomsLoop_inv W H 1000 [] rooms e e'
    ⟨by simp, by simp, List.Pairwise.nil⟩ h

theorem placeRooms_isSome (W H : Int) (hW : 12 ≤ W) (hH : 10 ≤ H) (e : Engine) :
    (placeRooms W H e).isSome = true := by
  obtain ⟨r, hr⟩ := placeRoomsLoop_isSome W H hW hH 1000 [] e
  unfold placeRooms
  rw [hr]; rfl
theorem tdiv_two_le (a : Int) : 2 * Int.tdiv a 2 ≤ a ∨ a < 0 ∧ Int.tdiv a 2 ≤ 0 := by
  by_cases h : 0 ≤ a
  · left
    rw [Int.tdiv_eq_ediv h (by norm_num)]; omega
  · right
    refine ⟨by omega, ?_⟩
    have h1 : a = -(-a) := by ring
    rw [h1, Int.neg_tdiv]
    have := Int.tdiv_nonneg (show 0 ≤ -a by omega) (show (0 : Int) ≤ 2 by norm_num)
    omega

/-- Corner coordinates and extent of a rectangle the placement loop can produce. -/
theorem placedRoom_bounds (W H : Int) (r : Rect) (h : PlacedRoom W H r) :
    r.a.x % 2 = 1 ∧ r.a.y % 2 = 1 ∧ r.b.x % 2 = 0 ∧ r.b.y % 2 = 0 ∧
    1 ≤ r.a.x ∧ 1 ≤ r.a.y ∧ r.a.x + 5 ≤ r.b.x ∧ r.a.y + 3 ≤ r.b.y ∧
    r.b.x ≤ W - 2 ∧ r.b.y ≤ H - 2 := by
  obtain ⟨place, size, w0, w1, t0, t1, x0, x1, y0, y1, rfl⟩ := h
  have hW := tdiv_two_le (W - 2)
  have hH := tdiv_two_le (H - 2)
  simp only [roomRect, int2.scale, int2.add_x, int2.add_y]
  refine ⟨by omega, by omega, by omega, by omega, by omega, by omega, by omega, by omega,
    by omega, by omega⟩

theorem intersects_eq_false (r s : Rect) :
    r.Intersects s = false ↔ ¬ (r.a.x < s.b.x ∧ s.a.x < r.b.x ∧ r.a.y < s.b.y ∧ s.a.y < r.b.y) := by
  unfold Rect.Intersects
  simp only [decide_eq_false_iff_not]

theorem pairwise_index {α : Type} (R : α → α → Prop) (l : List α) (h : l.Pairwise R)
    (i j : Nat) (a b : α) (hij : i < j) (ha : l[i]? = some a) (hb : l[j]? = some b) : R a b := by
  obtain ⟨hi, rfl⟩ := List.getElem?_eq_some.1 ha
  obtain ⟨hj, rfl⟩ := List.getElem?_eq_some.1 hb
  exact List.pairwise_iff_getElem.1 h i j hi hj hij

/-! ## Claims C7 to C10 -/

/-- C7: for every stream of draws, whenever the placement loop of `GenerateRandomMap` yields its room
list, the list has at most 8 rooms, the rectangle of every room expanded by 2 cells on all sides does
not intersect the unexpanded rectangle of any room accepted before it, and no two accepted rooms
overlap; for `MAP_WIDTH ≥ 12` and `MAP_HEIGHT ≥ 10` the loop does yield a room list. -/
theorem placement_rooms_separated (W H : Int) (e : Engine) :
    (∀ (rooms : List Rect) (e' : Engine), placeRooms W H e = some (rooms, e') →
      rooms.length ≤ 8 ∧
      (∀ (i j : Nat) (earlier later : Rect), i < j → rooms[i]? = some earlier →
        rooms[j]? = some later → later.expand2.Intersects earlier = false) ∧
      (∀ (i j : Nat) (r s : Rect), i ≠ j → rooms[i]? = some r → rooms[j]? = some s →
        r.Intersects s = false)) ∧
    (12 ≤ W → 10 ≤ H → (placeRooms W H e).isSome = true) := by
  refine ⟨?_, fun hW hH => placeRooms_isSome W H hW hH e⟩
  intro rooms e' h
  obtain ⟨hlen, _, hpair⟩ := placeRooms_inv W H e e' rooms h
  have hsep : ∀ (i j : Nat) (earlier later : Rect), i < j → rooms[i]? = some earlier →
      rooms[j]? = some later → later.expand2.Intersects earlier = false :=
    fun i j a b hij ha hb => pairwise_index _ rooms hpair i j a b hij ha hb
  refine ⟨hlen, hsep, ?_⟩
  intro i j r s hij hr hs
  rcases Nat.lt_or_gt_of_ne hij with hlt | hgt
  · have := (intersects_eq_false _ _).1 (hsep i j r s hlt hr hs)
    rw [intersects_eq_false]
    simp only [Rect.expand2, int2.sub_x, int2.sub_y, int2.add_x, int2.add_y] at this
    omega
  · have := (intersects_eq_false _ _).1 (hsep j i s r hgt hs hr)
    rw [intersects_eq_false]
    simp only [Rect.expand2, int2.sub_x, int2.sub_y, int2.add_x, int2.add_y] at this
    omega

/-- The first two rooms the placement loop accepts on an 80 by 24 map under `rowEngine`. -/
theorem placeRooms_rowEngine :
    ∃ (rooms : List Rect) (e' : Engine), placeRooms 80 24 rowEngine = some (rooms, e') ∧
      rooms[0]? = some ⟨⟨1, 1⟩, ⟨6, 4⟩⟩ ∧ rooms[1]? = some ⟨⟨9, 1⟩, ⟨14, 4⟩⟩ := by
  have h : (placeRooms 80 24 rowEngine).map (fun r => (r.1[0]?, r.1[1]?))
      = some (some ⟨⟨1, 1⟩, ⟨6, 4⟩⟩, some ⟨⟨9, 1⟩, ⟨14, 4⟩⟩) := by decide!
  cases hp : placeRooms 80 24 rowEngine with
  | none => rw [hp] at h; cases h
  | some r =>
    obtain ⟨rooms, e'⟩ := r
    rw [hp] at h
    simp only [Option.map_some', Option.some.injEq, Prod.mk.injEq] at h
    exact ⟨rooms, e', rfl, h.1, h.2⟩

/-- C8, as stated, fails: on an 80 by 24 map the draws of `rowEngine` make the placement loop accept
the rooms `[1,6)×[1,4)` and `[9,14)×[1,4)`, whose rectangles expanded by 2 cells intersect each other. -/
theorem expanded_rooms_can_intersect :
    ∃ (rooms : List Rect) (e' : Engine), placeRooms 80 24 rowEngine = some (rooms, e') ∧
      ∃ (i j : Nat) (r s : Rect), i ≠ j ∧ rooms[i]? = some r ∧ rooms[j]? = some s ∧
        r.expand2.Intersects s.expand2 = true := by
  obtain ⟨rooms, e', h, h0, h1⟩ := placeRooms_rowEngine
  exact ⟨rooms, e', h, 0, 1, _, _, by decide, h0, h1, by decide⟩

/-- C8, amended: for every stream of draws, whenever the placement loop yields its room list, for any
two distinct accepted rooms the rectangle of either one expanded by 2 cells on all sides does not
intersect the unexpanded rectangle of the other, and the two rectangles each expanded by 1 cell on all
sides do not intersect each other; for `MAP_WIDTH ≥ 12` and `MAP_HEIGHT ≥ 10` the loop does yield a
room list. -/
theorem placement_rooms_gap (W H : Int) (e : Engine) :
    (∀ (rooms : List Rect) (e' : Engine), placeRooms W H e = some (rooms, e') →
      ∀ (i j : Nat) (r s : Rect), i ≠ j → rooms[i]? = some r → rooms[j]? = some s →
        r.expand2.Intersects s = false ∧ r.expand1.Intersects s.expand1 = false) ∧
    (12 ≤ W → 10 ≤ H → (placeRooms W H e).isSome = true) := by
  refine ⟨?_, fun hW hH => placeRooms_isSome W H hW hH e⟩
  intro rooms e' h i j r s hij hr hs
  obtain ⟨_, hall, hpair⟩ := placeRooms_inv W H e e' rooms h
  have hr' := placedRoom_bounds W H r (hall r (List.getElem?_mem hr))
  have hs' := placedRoom_bounds W H s (hall s (List.getElem?_mem hs))
  have hsep : r.expand2.Intersects s = false ∨ s.expand2.Intersects r = false := by
    rcases Nat.lt_or_gt_of_ne hij with hlt | hgt
    · right; exact pairwise_index _ rooms hpair i j r s hlt hr hs
    · left; exact pairwise_index _ rooms hpair j i s r hgt hs hr
  simp only [intersects_eq_false, Rect.expand2, Rect.expand1, int2.sub_x, int2.sub_y, int2.add_x,
    int2.add_y] at hsep ⊢
  omega

/-- C9, as stated, fails: on an 80 by 24 map the draws of `rowEngine` make the placement loop accept
the room `[1,6)×[1,4)`, whose minimum corner `(1,1)` has odd coordinates. -/
theorem room_min_corner_can_be_odd :
    ∃ (rooms : List Rect) (e' : Engine), placeRooms 80 24 rowEngine = some (rooms, e') ∧
      ∃ r ∈ rooms, ¬ (r.a.x % 2 = 0 ∧ r.a.y % 2 = 0 ∧ r.b.x % 2 = 0 ∧ r.b.y % 2 = 0) := by
  obtain ⟨rooms, e', h, h0, _⟩ := placeRooms_rowEngine
  exact ⟨rooms, e', h, ⟨⟨1, 1⟩, ⟨6, 4⟩⟩, List.getElem?_mem h0, by decide⟩

/-- C9, amended: for every stream of draws, whenever the placement loop yields its room list, every
accepted room has an inclusive minimum corner `a` with odd `x` and odd `y` and an exclusive maximum
corner `b` with even `x` and even `y`; for `MAP_WIDTH ≥ 12` and `MAP_HEIGHT ≥ 10` the loop does yield
a room list. -/
theorem placement_room_corner_parity (W H : Int) (e : Engine) :
    (∀ (rooms : List Rect) (e' : Engine), placeRooms W H e = some (rooms, e') →
      ∀ r ∈ rooms, r.a.x % 2 = 1 ∧ r.a.y % 2 = 1 ∧ r.b.x % 2 = 0 ∧ r.b.y % 2 = 0) ∧
    (12 ≤ W → 10 ≤ H → (placeRooms W H e).isSome = true) := by
  refine ⟨?_, fun hW hH => placeRooms_isSome W H hW hH e⟩
  intro rooms e' h r hr
  obtain ⟨_, hall, _⟩ := placeRooms_inv W H e e' rooms h
  obtain ⟨h1, h2, h3, h4, _⟩ := placedRoom_bounds W H r (hall r hr)
  exact ⟨h1, h2, h3, h4⟩

/-- C10: for `MAP_WIDTH ≥ 12` and `MAP_HEIGHT ≥ 10` the placement loop yields its room list for every
stream of draws, and every interior cell `(x, y)` of every accepted room (`a.x ≤ x < b.x`,
`a.y ≤ y < b.y`) satisfies `1 ≤ x ≤ MAP_WIDTH-2` and `1 ≤ y ≤ MAP_HEIGHT-2`. -/
theorem placement_rooms_inside_inset (W H : Int) (hW : 12 ≤ W) (hH : 10 ≤ H) (e : Engine) :
    ∃ (rooms : List Rect) (e' : Engine), placeRooms W H e = some (rooms, e') ∧
      ∀ r ∈ rooms, ∀ p : int2, r.Contains p = true →
        1 ≤ p.x ∧ p.x ≤ W - 2 ∧ 1 ≤ p.y ∧ p.y ≤ H - 2 := by
  have hsome := placeRooms_isSome W H hW hH e
  cases hp : placeRooms W H e with
  | none => rw [hp] at hsome; cases hsome
  | some res =>
    obtain ⟨rooms, e'⟩ := res
    refine ⟨rooms, e', rfl, ?_⟩
    intro r hr p hcont
    obtain ⟨_, hall, _⟩ := placeRooms_inv W H e e' rooms hp
    have hb := placedRoom_bounds W H r (hall r hr)
    simp only [Rect.Contains, decide_eq_true_eq] at hcont
    omega

/-- Witness for C10 on an 80 by 24 map with the draws of `rowEngine`. -/
theorem placement_rooms_inside_inset_witness :
    (12 : Int) ≤ 80 ∧ (10 : Int) ≤ 24 ∧
    ∃ (rooms : List Rect) (e' : Engine), placeRooms 80 24 rowEngine = some (rooms, e') ∧
      ∀ r ∈ rooms, ∀ p : int2, r.Contains p = true →
        1 ≤ p.x ∧ p.x ≤ 80 - 2 ∧ 1 ≤ p.y ∧ p.y ≤ 24 - 2 :=
  ⟨by decide, by decide, placement_rooms_inside_inset 80 24 (by decide) (by decide) rowEngine⟩
/-! ## Door candidates -/

theorem mem_stepsByTwo (lo hi v : Int) :
    v ∈ stepsByTwo lo hi ↔ ∃ k : Nat, v = lo + 2 * (k : Int) ∧ v < hi := by
  unfold stepsByTwo
  simp only [List.mem_map, List.mem_range]
  constructor
  · rintro ⟨k, hk, rfl⟩
    exact ⟨k, rfl, by omega⟩
  · rintro ⟨k, rfl, hlt⟩
    exact ⟨k, by omega, rfl⟩

theorem stepsByTwo_ne_nil (lo hi : Int) (h : lo < hi) : stepsByTwo lo hi ≠ [] := by
  intro hnil
  have : lo ∈ stepsByTwo lo hi := (mem_stepsByTwo lo hi lo).2 ⟨0, by simp, h⟩
  rw [hnil] at this
  cases this

/-- Every door candidate is a cell of the room on the wall facing the other room, with the same
parity as the room's minimum corner along the wall. -/
theorem mem_EnumerateDoorCandidates (room other : Rect) (d : int2 × Direction)
    (h : d ∈ EnumerateDoorCandidates room other) :
    (d.2 = Direction.East ∧ other.a.x > room.b.x ∧ d.1.x = room.b.x - 1 ∧
        ∃ k : Nat, d.1.y = room.a.y + 2 * (k : Int) ∧ d.1.y < room.b.y) ∨
    (d.2 = Direction.West ∧ other.b.x < room.a.x ∧ d.1.x = room.a.x ∧
        ∃ k : Nat, d.1.y = room.a.y + 2 * (k : Int) ∧ d.1.y < room.b.y) ∨
    (d.2 = Direction.South ∧ other.a.y > room.b.y ∧ d.1.y = room.b.y - 1 ∧
        ∃ k : Nat, d.1.x = room.a.x + 2 * (k : Int) ∧ d.1.x < room.b.x) ∨
    (d.2 = Direction.North ∧ other.b.y < room.a.y ∧ d.1.y = room.a.y ∧
        ∃ k : Nat, d.1.x = room.a.x + 2 * (k : Int) ∧ d.1.x < room.b.x) := by
  unfold EnumerateDoorCandidates at h
  simp only [List.mem_append] at h
  rcases h with ((h | h) | h) | h
  · left
    split at h
    · rename_i hc
      obtain ⟨y, hy, rfl⟩ := List.mem_map.1 h
      exact ⟨rfl, hc, rfl, (mem_stepsByTwo _ _ _).1 hy⟩
    · cases h
  · right; left
    split at h
    · rename_i hc
      obtain ⟨y, hy, rfl⟩ := List.mem_map.1 h
      exact ⟨rfl, hc, rfl, (mem_stepsByTwo _ _ _).1 hy⟩
    · cases h
  · right; right; left
    split at h
    · rename_i hc
      obtain ⟨x, hx, rfl⟩ := List.mem_map.1 h
      exact ⟨rfl, hc, rfl, (mem_stepsByTwo _ _ _).1 hx⟩
    · cases h
  · right; right; right
    split at h
    · rename_i hc
      obtain ⟨x, hx, rfl⟩ := List.mem_map.1 h
      exact ⟨rfl, hc, rfl, (mem_stepsByTwo _ _ _).1 hx⟩
    · cases h

/-- A non-empty room has door candidates facing any rectangle that it misses after either of the two
is expanded by 2 cells. -/
theorem EnumerateDoorCandidates_ne_nil (room other : Rect)
    (hr : room.a.x < room.b.x ∧ room.a.y < room.b.y)
    (hsep : room.expand2.Intersects other = false ∨ other.expand2.Intersects room = false) :
    EnumerateDoorCandidates room other ≠ [] := by
  have hx := stepsByTwo_ne_nil room.a.x room.b.x hr.1
  have hy := stepsByTwo_ne_nil room.a.y room.b.y hr.2
  simp only [intersects_eq_false, Rect.expand2, int2.sub_x, int2.sub_y, int2.add_x,
    int2.add_y] at hsep
  unfold EnumerateDoorCandidates
  by_cases h1 : other.a.x > room.b.x
  · simp [h1, hy]
  · by_cases h2 : other.b.x < room.a.x
    · simp [h2, hy]
    · by_cases h3 : other.a.y > room.b.y
      · simp [h3, hx]
      · by_cases h4 : other.b.y < room.a.y
        · simp [h4, hx]
        · exfalso; omega
/-! ## The tunnel plan -/

theorem uniformIndex_spec (n : Nat) (e e' : Engine) (i : Nat)
    (h : uniformIndex n e = some (i, e')) : i < n ∧ e' = e.advance := by
  unfold uniformIndex at h
  by_cases hn : 0 < n
  · rw [if_pos hn] at h
    simp only [Option.some.injEq, Prod.mk.injEq] at h
    exact ⟨by rw [← h.1]; exact Nat.mod_lt _ hn, h.2.symm⟩
  · rw [if_neg hn] at h; cases h

theorem uniformIndex_isSome (n : Nat) (e : Engine) (hn : 0 < n) :
    ∃ i e', uniformIndex n e = some (i, e') := by
  unfold uniformIndex
  rw [if_pos hn]
  exact ⟨_, _, rfl⟩

theorem tunnelGeometry_absDelta_nonneg (doorA doorB : int2 × Direction) (turn : Int) :
    0 ≤ (tunnelGeometry doorA doorB turn).absDelta.x ∧
    0 ≤ (tunnelGeometry doorA doorB turn).absDelta.y := by
  simp only [tunnelGeometry, int2.Abs, int2.quot]
  have h1 : ∀ z : Int, 0 ≤ Int.tdiv |z| 2 := fun z =>
    Int.tdiv_nonneg (abs_nonneg z) (by norm_num)
  split <;> exact ⟨h1 _, h1 _⟩

/-- A plan that `planTunnel` returns is the geometry of two door candidates and a turn index within
the main distance. -/
theorem planTunnel_spec (e e' : Engine) (roomA roomB : Rect) (plan : TunnelPlan)
    (h : planTunnel e roomA roomB = some (plan, e')) :
    ∃ doorA doorB turn, doorA ∈ EnumerateDoorCandidates roomA roomB ∧
      doorB ∈ EnumerateDoorCandidates roomB roomA ∧
      0 ≤ turn ∧ turn ≤ (tunnelGeometry doorA doorB 0).absDelta.x ∧
      plan = tunnelGeometry doorA doorB turn := by
  unfold planTunnel at h
  simp only at h
  cases h1 : uniformIndex (EnumerateDoorCandidates roomA roomB).length e with
  | none => rw [h1] at h; cases h
  | some r1 =>
    obtain ⟨ia, e1⟩ := r1
    rw [h1] at h
    simp only at h
    cases h2 : uniformIndex (EnumerateDoorCandidates roomB roomA).length e1 with
    | none => rw [h2] at h; cases h
    | some r2 =>
      obtain ⟨ib, e2⟩ := r2
      rw [h2] at h
      simp only at h
      cases hA : (EnumerateDoorCandidates roomA roomB)[ia]? with
      | none => rw [hA] at h; cases h
      | some doorA =>
        cases hB : (EnumerateDoorCandidates roomB roomA)[ib]? with
        | none => rw [hA, hB] at h; cases h
        | some doorB =>
          rw [hA, hB] at h
          simp only at h
          cases h3 : uniformInt 0 (tunnelGeometry doorA doorB 0).absDelta.x e2 with
          | none => rw [h3] at h; cases h
          | some r3 =>
            obtain ⟨turn, e3⟩ := r3
            rw [h3] at h
            simp only [Option.some.injEq, Prod.mk.injEq] at h
            obtain ⟨_, t0, t1, _⟩ := uniformInt_spec _ _ _ _ _ h3
            exact ⟨doorA, doorB, turn, List.getElem?_mem hA, List.getElem?_mem hB, t0, t1,
              h.1.symm⟩

theorem planTunnel_isSome (e : Engine) (roomA roomB : Rect)
    (hA : EnumerateDoorCandidates roomA roomB ≠ [])
    (hB : EnumerateDoorCandidates roomB roomA ≠ []) :
    ∃ r, planTunnel e roomA roomB = some r := by
  unfold planTunnel
  simp only
  obtain ⟨ia, e1, h1⟩ := uniformIndex_isSome (EnumerateDoorCandidates roomA roomB).length e
    (List.length_pos.2 hA)
  rw [h1]; simp only
  obtain ⟨ib, e2, h2⟩ := uniformIndex_isSome (EnumerateDoorCandidates roomB roomA).length e1
    (List.length_pos.2 hB)
  rw [h2]; simp only
  obtain ⟨hia, _⟩ := uniformIndex_spec _ _ _ _ h1
  obtain ⟨hib, _⟩ := uniformIndex_spec _ _ _ _ h2
  rw [List.getElem?_eq_getElem hia, List.getElem?_eq_getElem hib]
  simp only
  obtain ⟨turn, e3, h3⟩ := uniformInt_isSome 0
    (tunnelGeometry (EnumerateDoorCandidates roomA roomB)[ia]
      (EnumerateDoorCandidates roomB roomA)[ib] 0).absDelta.x e2
    (tunnelGeometry_absDelta_nonneg _ _ _).1
  rw [h3]
  exact ⟨_, rfl⟩
/-! ## The carving walk -/

theorem Map.getTile_set (map : Map) (p q : int2) (t : Tile) :
    (map.set p t).GetTile q = if q = p then t else map.GetTile q := rfl

theorem Map.getTile_set_self (map : Map) (p : int2) (t : Tile) :
    (map.set p t).GetTile p = t := by
  rw [Map.getTile_set, if_pos rfl]

theorem Map.getTile_set_floor (map : Map) (p q : int2)
    (h : map.GetTile q = Tile.TILE_FLOOR) : (map.set p Tile.TILE_FLOOR).GetTile q = Tile.TILE_FLOOR := by
  rw [Map.getTile_set]
  split
  · rfl
  · exact h

theorem adjacent4_add (p s : int2) (hs : UnitStep s) : Adjacent4 p (p + s) := by
  unfold Adjacent4 UnitStep at *
  simp only [int2.add_x, int2.add_y]
  rw [show p.x + s.x - p.x = s.x by ring, show p.y + s.y - p.y = s.y by ring]
  exact hs

theorem adjacent4_symm (p q : int2) (h : Adjacent4 p q) : Adjacent4 q p := by
  unfold Adjacent4 at *
  rw [abs_sub_comm, abs_sub_comm p.y]
  exact h

theorem carverInv_init (base : Map) (start : int2) :
    CarverInv base start (⟨base, start, []⟩ : Carver).carve := by
  refine ⟨?_, ?_, ?_, ?_, ?_⟩
  · intro q hq
    exact Map.getTile_set_floor _ _ _ hq
  · intro q hq
    simp only [Carver.carve, List.nil_append, List.mem_singleton] at hq
    subst hq
    exact Map.getTile_set_self _ _ _
  · simp [Carver.carve]
  · simp [Carver.carve]
  · simp [Carver.carve]

theorem carverInv_step (base : Map) (start : int2) (c : Carver) (step : int2)
    (hs : UnitStep step) (h : CarverInv base start c) :
    CarverInv base start (c.move step).carve := by
  obtain ⟨h1, h2, h3, h4, h5⟩ := h
  refine ⟨?_, ?_, ?_, ?_, ?_⟩
  · intro q hq
    exact Map.getTile_set_floor _ _ _ (h1 q hq)
  · intro q hq
    simp only [Carver.carve, Carver.move, List.mem_append, List.mem_singleton] at hq ⊢
    rcases hq with hq | hq
    · exact Map.getTile_set_floor _ _ _ (h2 q hq)
    · subst hq
      exact Map.getTile_set_self _ _ _
  · simp only [Carver.carve, Carver.move]
    rw [List.chain'_append]
    refine ⟨h3, List.chain'_singleton _, ?_⟩
    intro x hx y hy
    rw [h4] at hx
    simp only [Option.mem_def, Option.some.injEq, List.head?_cons] at hx hy
    subst hx hy
    exact adjacent4_add _ _ hs
  · simp [Carver.carve, Carver.move]
  · simp only [Carver.carve, Carver.move]
    rw [List.head?_append, h5]
    rfl

theorem carveSteps_inv (base : Map) (start : int2) (step : int2) (hs : UnitStep step) (n : Nat) :
    ∀ c : Carver, CarverInv base start c → CarverInv base start (carveSteps step n c) := by
  induction n with
  | zero => intro c h; exact h
  | succ n ih =>
    intro c h
    unfold carveSteps
    exact ih _ (carverInv_step base start _ step hs (carverInv_step base start c step hs h))

theorem carveSteps_point (step : int2) (n : Nat) :
    ∀ c : Carver, (carveSteps step n c).point = c.point + step.scale (2 * (n : Int)) := by
  induction n with
  | zero =>
    intro c
    simp [carveSteps, int2.ext_iff', int2.scale]
  | succ n ih =>
    intro c
    unfold carveSteps
    rw [ih]
    simp only [Carver.carve, Carver.move, int2.ext_iff', int2.scale, int2.add_x, int2.add_y]
    push_cast
    constructor <;> ring
theorem unitStep_direction (d : Direction) : UnitStep d.toInt2 := by
  cases d <;> simp [UnitStep, Direction.toInt2]

/-- A door candidate of a lattice room is a cell of the room with odd coordinates. -/
theorem door_candidate_lattice (room other : Rect) (d : int2 × Direction) (hr : LatticeRoom room)
    (hd : d ∈ EnumerateDoorCandidates room other) :
    d.1.x % 2 = 1 ∧ d.1.y % 2 = 1 ∧ room.Contains d.1 = true := by
  obtain ⟨h1, h2, h3, h4, h5, h6⟩ := hr
  simp only [Rect.Contains, decide_eq_true_eq]
  rcases mem_EnumerateDoorCandidates room other d hd with
    ⟨_, _, hx, k, hy, hlt⟩ | ⟨_, _, hx, k, hy, hlt⟩ | ⟨_, _, hy, k, hx, hlt⟩ | ⟨_, _, hy, k, hx, hlt⟩ <;>
  omega

theorem tunnelGeometry_steps (doorA doorB : int2 × Direction) (turn : Int) :
    UnitStep (tunnelGeometry doorA doorB turn).stepMain ∧
    UnitStep (tunnelGeometry doorA doorB turn).stepSide := by
  simp only [tunnelGeometry, UnitStep]
  split <;> split <;> split <;> simp

theorem tunnelGeometry_turn (doorA doorB : int2 × Direction) (turn : Int) :
    (tunnelGeometry doorA doorB turn).absDelta = (tunnelGeometry doorA doorB 0).absDelta ∧
    (tunnelGeometry doorA doorB turn).turn = turn ∧
    (tunnelGeometry doorA doorB turn).doorA = doorA ∧
    (tunnelGeometry doorA doorB turn).doorB = doorB ∧
    (tunnelGeometry doorA doorB turn).pointA = doorA.1 + doorA.2.toInt2.scale 2 ∧
    (tunnelGeometry doorA doorB turn).pointB = doorB.1 + doorB.2.toInt2.scale 2 :=
  ⟨rfl, rfl, rfl, rfl, rfl, rfl⟩

/-- The three carving loops end at the landing point of the second room when the two landing points
have coordinates of equal parity. -/
theorem carveWalk_point (map : Map) (doorA doorB : int2 × Direction) (turn : Int)
    (hx : ((tunnelGeometry doorA doorB turn).pointB.x
      - (tunnelGeometry doorA doorB turn).pointA.x) % 2 = 0)
    (hy : ((tunnelGeometry doorA doorB turn).pointB.y
      - (tunnelGeometry doorA doorB turn).pointA.y) % 2 = 0)
    (ht0 : 0 ≤ turn) (ht1 : turn ≤ (tunnelGeometry doorA doorB 0).absDelta.x) :
    (carveWalk map (tunnelGeometry doorA doorB turn)).point
      = (tunnelGeometry doorA doorB turn).pointB := by
  unfold carveWalk
  simp only [carveSteps_point]
  simp only [tunnelGeometry, Carver.carve, int2.Abs, int2.quot, int2.sub_x, int2.sub_y] at *
  generalize doorA.1 + doorA.2.toInt2.scale 2 = pA at *
  generalize doorB.1 + doorB.2.toInt2.scale 2 = pB at *
  have hU : 2 * Int.tdiv |pB.x - pA.x| 2 = |pB.x - pA.x| := by
    rw [Int.tdiv_eq_ediv (abs_nonneg _) (by norm_num)]
    rcases abs_cases (pB.x - pA.x) with ⟨ex, _⟩ | ⟨ex, _⟩ <;> rw [ex] <;> omega
  have hV : 2 * Int.tdiv |pB.y - pA.y| 2 = |pB.y - pA.y| := by
    rw [Int.tdiv_eq_ediv (abs_nonneg _) (by norm_num)]
    rcases abs_cases (pB.y - pA.y) with ⟨ey, _⟩ | ⟨ey, _⟩ <;> rw [ey] <;> omega
  rcases abs_cases (pB.x - pA.x) with ⟨ex, sx⟩ | ⟨ex, sx⟩ <;>
  rcases abs_cases (pB.y - pA.y) with ⟨ey, sy⟩ | ⟨ey, sy⟩ <;>
  by_cases hswap : Int.tdiv |pB.y - pA.y| 2 > Int.tdiv |pB.x - pA.x| 2 <;>
  by_cases hdx : pB.x - pA.x > 0 <;> by_cases hdy : pB.y - pA.y > 0 <;>
  simp only [hswap, hdx, hdy, decide_True, decide_False, if_true, if_false,
    int2.ext_iff', int2.scale, int2.add_x, int2.add_y, Bool.false_eq_true] at ht1 ⊢ <;>
  omega
/-! ## Connection through cells of a kind -/

theorem gridConnected_refl (ok : int2 → Prop) (p : int2) (h : ok p) : GridConnected ok p p :=
  ⟨h, Relation.ReflTransGen.refl⟩

theorem gridConnected_trans (ok : int2 → Prop) (p q r : int2) (h1 : GridConnected ok p q)
    (h2 : GridConnected ok q r) : GridConnected ok p r :=
  ⟨h1.1, Relation.ReflTransGen.trans h1.2 h2.2⟩

theorem gridConnected_step (ok : int2 → Prop) (p q : int2) (hp : ok p) (hq : ok q)
    (h : Adjacent4 p q) : GridConnected ok p q :=
  ⟨hp, Relation.ReflTransGen.single ⟨hp, hq, h⟩⟩

theorem gridConnected_right_ok (ok : int2 → Prop) (p q : int2) (h : GridConnected ok p q) :
    ok q := by
  obtain ⟨hp, hpath⟩ := h
  induction hpath with
  | refl => exact hp
  | tail _ hstep _ => exact hstep.2.1

theorem gridConnected_symm (ok : int2 → Prop) (p q : int2) (h : GridConnected ok p q) :
    GridConnected ok q p := by
  have hq := gridConnected_right_ok ok p q h
  obtain ⟨hp, hpath⟩ := h
  refine ⟨hq, ?_⟩
  clear hq
  induction hpath with
  | refl => exact Relation.ReflTransGen.refl
  | tail _ hstep ih =>
    exact Relation.ReflTransGen.head ⟨hstep.2.1, hstep.1, adjacent4_symm _ _ hstep.2.2⟩ ih

theorem gridConnected_mono (ok ok' : int2 → Prop) (himp : ∀ c, ok c → ok' c) (p q : int2)
    (h : GridConnected ok p q) : GridConnected ok' p q := by
  obtain ⟨hp, hpath⟩ := h
  refine ⟨himp p hp, ?_⟩
  exact Relation.ReflTransGen.mono (fun u v huv => ⟨himp u huv.1, himp v huv.2.1, huv.2.2⟩) hpath

/-- The ends of a chain of orthogonally adjacent cells of a kind are connected. -/
theorem gridConnected_of_chain (ok : int2 → Prop) (l : List int2) :
    ∀ p q : int2, List.Chain' Adjacent4 l → (∀ c ∈ l, ok c) → l.head? = some p →
      l.getLast? = some q → GridConnected ok p q := by
  induction l with
  | nil => intro p q _ _ hh _; cases hh
  | cons a rest ih =>
    intro p q hchain hall hh hl
    simp only [List.head?_cons, Option.some.injEq] at hh
    subst hh
    cases rest with
    | nil =>
      simp only [List.getLast?_singleton, Option.some.injEq] at hl
      subst hl
      exact gridConnected_refl ok _ (hall _ (List.mem_singleton.2 rfl))
    | cons b rest' =>
      have hab : Adjacent4 a b := by
        rw [List.chain'_cons] at hchain
        exact hchain.1
      have hrest : List.Chain' Adjacent4 (b :: rest') := by
        rw [List.chain'_cons] at hchain
        exact hchain.2
      have hl' : (b :: rest').getLast? = some q := by
        rw [List.getLast?_cons_cons] at hl
        exact hl
      have h1 := gridConnected_step ok a b (hall a (List.mem_cons_self _ _))
        (hall b (List.mem_cons_of_mem _ (List.mem_cons_self _ _))) hab
      have h2 := ih b q hrest (fun c hc => hall c (List.mem_cons_of_mem _ hc)) rfl hl'
      exact gridConnected_trans ok a b q h1 h2

theorem gridConnected_row (ok : int2 → Prop) (y : Int) (n : Nat) : ∀ x : Int,
    (∀ i : Int, x ≤ i → i ≤ x + n → ok ⟨i, y⟩) → GridConnected ok ⟨x, y⟩ ⟨x + n, y⟩ := by
  induction n with
  | zero =>
    intro x h
    simp only [Nat.cast_zero, add_zero]
    exact gridConnected_refl ok _ (h x (le_refl _) (by simp))
  | succ n ih =>
    intro x h
    have h1 : GridConnected ok ⟨x, y⟩ ⟨x + 1, y⟩ :=
      gridConnected_step ok _ _ (h x (le_refl _) (by push_cast; omega))
        (h (x + 1) (by omega) (by push_cast; omega)) (by simp [Adjacent4])
    have h2 := ih (x + 1) (fun i hi1 hi2 => h i (by omega) (by push_cast; omega))
    have heq : x + 1 + (n : Int) = x + ((n + 1 : Nat) : Int) := by push_cast; ring
    rw [heq] at h2
    exact gridConnected_trans ok _ _ _ h1 h2

theorem gridConnected_column (ok : int2 → Prop) (x : Int) (n : Nat) : ∀ y : Int,
    (∀ i : Int, y ≤ i → i ≤ y + n → ok ⟨x, i⟩) → GridConnected ok ⟨x, y⟩ ⟨x, y + n⟩ := by
  induction n with
  | zero =>
    intro y h
    simp only [Nat.cast_zero, add_zero]
    exact gridConnected_refl ok _ (h y (le_refl _) (by simp))
  | succ n ih =>
    intro y h
    have h1 : GridConnected ok ⟨x, y⟩ ⟨x, y + 1⟩ :=
      gridConnected_step ok _ _ (h y (le_refl _) (by push_cast; omega))
        (h (y + 1) (by omega) (by push_cast; omega)) (by simp [Adjacent4])
    have h2 := ih (y + 1) (fun i hi1 hi2 => h i (by omega) (by push_cast; omega))
    have heq : y + 1 + (n : Int) = y + ((n + 1 : Nat) : Int) := by push_cast; ring
    rw [heq] at h2
    exact gridConnected_trans ok _ _ _ h1 h2

/-- Any two cells of a rectangle whose cells are all of a kind are connected. -/
theorem gridConnected_rect (ok : int2 → Prop) (r : Rect)
    (hall : ∀ c, r.Contains c = true → ok c) (p q : int2) (hp : r.Contains p = true)
    (hq : r.Contains q = true) : GridConnected ok p q := by
  simp only [Rect.Contains, decide_eq_true_eq] at hall hp hq
  -- first to the origin corner along the row, then along the column
  have to_corner : ∀ c : int2, (r.a.x ≤ c.x ∧ c.x < r.b.x ∧ r.a.y ≤ c.y ∧ c.y < r.b.y) →
      GridConnected ok r.a c := by
    intro c hc
    have h1 := gridConnected_row ok r.a.y (c.x - r.a.x).toNat r.a.x
      (fun i hi1 hi2 => hall ⟨i, r.a.y⟩ ⟨hi1, by simp only; omega, le_refl _, by simp only; omega⟩)
    have h2 := gridConnected_column ok c.x (c.y - r.a.y).toNat r.a.y
      (fun i hi1 hi2 => hall ⟨c.x, i⟩ ⟨hc.1, hc.2.1, hi1, by simp only; omega⟩)
    have e1 : r.a.x + ((c.x - r.a.x).toNat : Int) = c.x := by omega
    have e2 : r.a.y + ((c.y - r.a.y).toNat : Int) = c.y := by omega
    rw [e1] at h1
    rw [e2] at h2
    exact gridConnected_trans ok _ _ _ h1 h2
  exact gridConnected_trans ok _ _ _ (gridConnected_symm ok _ _ (to_corner p hp)) (to_corner q hq)
/-! ## CarveTunnel -/

theorem carveWalk_inv (map : Map) (doorA doorB : int2 × Direction) (turn : Int) :
    CarverInv map (tunnelGeometry doorA doorB turn).pointA
      (carveWalk map (tunnelGeometry doorA doorB turn)) := by
  obtain ⟨hm, hs⟩ := tunnelGeometry_steps doorA doorB turn
  unfold carveWalk
  exact carveSteps_inv _ _ _ hm _ _ (carveSteps_inv _ _ _ hs _ _
    (carveSteps_inv _ _ _ hm _ _ (carverInv_init _ _)))

theorem carvePlan_floor_mono (map : Map) (doorA doorB : int2 × Direction) (turn : Int) (q : int2)
    (h : map.GetTile q = Tile.TILE_FLOOR) :
    (carvePlan map (tunnelGeometry doorA doorB turn)).GetTile q = Tile.TILE_FLOOR := by
  unfold carvePlan
  exact Map.getTile_set_floor _ _ _ (Map.getTile_set_floor _ _ _
    ((carveWalk_inv map doorA doorB turn).1 q h))

/-- What `CarveTunnel` achieves for two door candidates with odd coordinates that lie on floor: the
walk ends at the second landing point, and the chain from the first door cell through the walk to the
second door cell consists of orthogonally adjacent floor cells. -/
theorem carvePlan_chain (map : Map) (doorA doorB : int2 × Direction) (turn : Int)
    (hAx : doorA.1.x % 2 = 1) (hAy : doorA.1.y % 2 = 1)
    (hBx : doorB.1.x % 2 = 1) (hBy : doorB.1.y % 2 = 1)
    (hfA : map.GetTile doorA.1 = Tile.TILE_FLOOR) (hfB : map.GetTile doorB.1 = Tile.TILE_FLOOR)
    (ht0 : 0 ≤ turn) (ht1 : turn ≤ (tunnelGeometry doorA doorB 0).absDelta.x) :
    (carveWalk map (tunnelGeometry doorA doorB turn)).point
        = (tunnelGeometry doorA doorB turn).pointB ∧
    (carveWalk map (tunnelGeometry doorA doorB turn)).visited.head?
        = some (tunnelGeometry doorA doorB turn).pointA ∧
    (carveWalk map (tunnelGeometry doorA doorB turn)).visited.getLast?
        = some (tunnelGeometry doorA doorB turn).pointB ∧
    List.Chain' Adjacent4 (tunnelChain map (tunnelGeometry doorA doorB turn)) ∧
    ∀ c ∈ tunnelChain map (tunnelGeometry doorA doorB turn),
      (carvePlan map (tunnelGeometry doorA doorB turn)).GetTile c = Tile.TILE_FLOOR := by
  obtain ⟨_, _, hdA, hdB, hpA, hpB⟩ := tunnelGeometry_turn doorA doorB turn
  have hpoint : (carveWalk map (tunnelGeometry doorA doorB turn)).point
      = (tunnelGeometry doorA doorB turn).pointB := by
    apply carveWalk_point map doorA doorB turn _ _ ht0 ht1
    · rw [hpA, hpB]
      simp only [int2.add_x, int2.scale]
      omega
    · rw [hpA, hpB]
      simp only [int2.add_y, int2.scale]
      omega
  obtain ⟨_, hvis, hchain, hlast, hhead⟩ := carveWalk_inv map doorA doorB turn
  rw [hpoint] at hlast
  refine ⟨hpoint, hhead, hlast, ?_, ?_⟩
  · -- adjacency along the whole chain
    have e : tunnelChain map (tunnelGeometry doorA doorB turn)
        = [doorA.1, doorA.1 + doorA.2.toInt2]
          ++ ((carveWalk map (tunnelGeometry doorA doorB turn)).visited
          ++ [doorB.1 + doorB.2.toInt2, doorB.1]) := by
      simp [tunnelChain, hdA, hdB]
    rw [e, List.chain'_append, List.chain'_append]
    have hstepA := unitStep_direction doorA.2
    have hstepB := unitStep_direction doorB.2
    refine ⟨?_, ⟨hchain, ?_, ?_⟩, ?_⟩
    · simp only [List.chain'_cons, List.chain'_singleton, and_true]
      exact adjacent4_add _ _ hstepA
    · simp only [List.chain'_cons, List.chain'_singleton, and_true]
      exact adjacent4_symm _ _ (adjacent4_add _ _ hstepB)
    · intro x hx y hy
      rw [hlast] at hx
      simp only [Option.mem_def, Option.some.injEq, List.head?_cons] at hx hy
      subst hx hy
      rw [hpB]
      apply adjacent4_symm
      have : doorB.1 + doorB.2.toInt2.scale 2 = doorB.1 + doorB.2.toInt2 + doorB.2.toInt2 := by
        simp only [int2.ext_iff', int2.scale, int2.add_x, int2.add_y]
        constructor <;> ring
      rw [this]
      exact adjacent4_add _ _ hstepB
    · intro x hx y hy
      have hy' : y = (tunnelGeometry doorA doorB turn).pointA := by
        rw [List.head?_append, hhead] at hy
        simpa using hy.symm
      simp only [List.getLast?_cons_cons, List.getLast?_singleton, Option.mem_def,
        Option.some.injEq] at hx
      subst hx hy'
      rw [hpA]
      have : doorA.1 + doorA.2.toInt2.scale 2 = doorA.1 + doorA.2.toInt2 + doorA.2.toInt2 := by
        simp only [int2.ext_iff', int2.scale, int2.add_x, int2.add_y]
        constructor <;> ring
      rw [this]
      exact adjacent4_add _ _ hstepA
  · -- every cell of the chain is floor at the end
    intro c hc
    simp only [tunnelChain, hdA, hdB, List.cons_append, List.mem_cons, List.mem_append,
      List.mem_singleton, List.not_mem_nil, or_false] at hc
    unfold carvePlan
    rw [hdA, hdB]
    rcases hc with rfl | rfl | hc | rfl | rfl
    · exact Map.getTile_set_floor _ _ _ (Map.getTile_set_floor _ _ _
        ((carveWalk_inv map doorA doorB turn).1 _ hfA))
    · exact Map.getTile_set_floor _ _ _ (Map.getTile_set_self _ _ _)
    · exact Map.getTile_set_floor _ _ _ (Map.getTile_set_floor _ _ _ (hvis c hc))
    · exact Map.getTile_set_self _ _ _
    · exact Map.getTile_set_floor _ _ _ (Map.getTile_set_floor _ _ _
        ((carveWalk_inv map doorA doorB turn).1 _ hfB))
theorem Map.getTile_fill (map : Map) (r : Rect) (t : Tile) (q : int2) :
    (map.Fill r t).GetTile q = if r.Contains q then t else map.GetTile q := rfl

theorem carveRooms_foldl_floor (rooms : List Rect) : ∀ (m : Map) (q : int2),
    (m.GetTile q = Tile.TILE_FLOOR ∨ ∃ r ∈ rooms, r.Contains q = true) →
    (rooms.foldl (fun m room => m.Fill room Tile.TILE_FLOOR) m).GetTile q = Tile.TILE_FLOOR := by
  induction rooms with
  | nil =>
    intro m q h
    rcases h with h | ⟨r, hr, _⟩
    · exact h
    · cases hr
  | cons r rest ih =>
    intro m q h
    rw [List.foldl_cons]
    apply ih
    by_cases hc : r.Contains q = true
    · left; rw [Map.getTile_fill, if_pos hc]
    · rcases h with h | ⟨r', hr', hc'⟩
      · left; rw [Map.getTile_fill, if_neg hc]; exact h
      · rcases List.mem_cons.1 hr' with rfl | hmem
        · exact absurd hc' hc
        · right; exact ⟨r', hmem, hc'⟩

/-- After the phase `Carve rooms` every cell of every room is floor. -/
theorem carveRooms_floor (W H : Int) (rooms : List Rect) (r : Rect) (hr : r ∈ rooms) (q : int2)
    (hq : r.Contains q = true) : (carveRooms W H rooms).GetTile q = Tile.TILE_FLOOR :=
  carveRooms_foldl_floor rooms _ q (Or.inr ⟨r, hr, hq⟩)

theorem walkable_of_floor (t : Tile) (h : t = Tile.TILE_FLOOR) : t.IsWalkable = true := by
  subst h; rfl

theorem tunnelChain_ends (map : Map) (plan : TunnelPlan) :
    (tunnelChain map plan).head? = some plan.doorA.1 ∧
    (tunnelChain map plan).getLast? = some plan.doorB.1 := by
  constructor
  · simp [tunnelChain]
  · have e : tunnelChain map plan
        = (plan.doorA.1 :: (plan.doorA.1 + plan.doorA.2.toInt2) ::
            ((carveWalk map plan).visited ++ [plan.doorB.1 + plan.doorB.2.toInt2]))
          ++ [plan.doorB.1] := by
      simp [tunnelChain]
    rw [e, List.getLast?_concat]

/-! ## Claim C5 -/

/-- C5: for two lattice rooms (odd minimum corner, even exclusive maximum corner, as the placement
loop produces them) of which the first, expanded by 2 cells, misses the second, and whose cells are
floor, `CarveTunnel(map, roomA, roomB)` succeeds for every stream of draws; the carving walk starts at
the landing point `pointA` and ends exactly at the landing point `pointB`; the cells `doorA`,
`doorA+dirA`, the cells of the walk, `doorB+dirB`, `doorB` form a chain of orthogonally adjacent cells
that are all floor afterwards; and every cell of `roomA` is joined to every cell of `roomB` by a path
of orthogonally adjacent walkable cells. -/
theorem carve_tunnel_joins_rooms (map : Map) (e : Engine) (roomA roomB : Rect)
    (hA : LatticeRoom roomA) (hB : LatticeRoom roomB)
    (hsep : roomA.expand2.Intersects roomB = false)
    (hfA : ∀ p, roomA.Contains p = true → map.GetTile p = Tile.TILE_FLOOR)
    (hfB : ∀ p, roomB.Contains p = true → map.GetTile p = Tile.TILE_FLOOR) :
    ∃ (plan : TunnelPlan) (e' : Engine),
      planTunnel e roomA roomB = some (plan, e') ∧
      CarveTunnel map e roomA roomB = some (carvePlan map plan, e') ∧
      (carveWalk map plan).visited.head? = some plan.pointA ∧
      (carveWalk map plan).visited.getLast? = some plan.pointB ∧
      (carveWalk map plan).point = plan.pointB ∧
      roomA.Contains plan.doorA.1 = true ∧ roomB.Contains plan.doorB.1 = true ∧
      List.Chain' Adjacent4 (tunnelChain map plan) ∧
      (∀ c ∈ tunnelChain map plan, (carvePlan map plan).GetTile c = Tile.TILE_FLOOR) ∧
      ∀ p q : int2, roomA.Contains p = true → roomB.Contains q = true →
        WalkConnected (carvePlan map plan) p q := by
  have hneA := EnumerateDoorCandidates_ne_nil roomA roomB ⟨hA.2.2.2.2.1, hA.2.2.2.2.2⟩
    (Or.inl hsep)
  have hneB := EnumerateDoorCandidates_ne_nil roomB roomA ⟨hB.2.2.2.2.1, hB.2.2.2.2.2⟩
    (Or.inr hsep)
  obtain ⟨⟨plan, e'⟩, hplan⟩ := planTunnel_isSome e roomA roomB hneA hneB
  obtain ⟨doorA, doorB, turn, hdA, hdB, ht0, ht1, rfl⟩ := planTunnel_spec e e' roomA roomB plan hplan
  obtain ⟨hAx, hAy, hAc⟩ := door_candidate_lattice roomA roomB doorA hA hdA
  obtain ⟨hBx, hBy, hBc⟩ := door_candidate_lattice roomB roomA doorB hB hdB
  obtain ⟨hpoint, hhead, hlast, hchain, hfloor⟩ := carvePlan_chain map doorA doorB turn hAx hAy
    hBx hBy (hfA _ hAc) (hfB _ hBc) ht0 ht1
  refine ⟨tunnelGeometry doorA doorB turn, e', hplan, ?_, hhead, hlast, hpoint, hAc, hBc, hchain,
    hfloor, ?_⟩
  · unfold CarveTunnel
    rw [hplan]
  · intro p q hp hq
    have hwalk : ∀ c, (carvePlan map (tunnelGeometry doorA doorB turn)).GetTile c
        = Tile.TILE_FLOOR →
        ((carvePlan map (tunnelGeometry doorA doorB turn)).GetTile c).IsWalkable = true :=
      fun c hc => walkable_of_floor _ hc
    have h1 : WalkConnected (carvePlan map (tunnelGeometry doorA doorB turn)) p doorA.1 :=
      gridConnected_rect _ roomA
        (fun c hc => hwalk c (carvePlan_floor_mono map doorA doorB turn c (hfA c hc))) p _ hp hAc
    have h2 : WalkConnected (carvePlan map (tunnelGeometry doorA doorB turn)) doorA.1 doorB.1 :=
      gridConnected_of_chain _ (tunnelChain map (tunnelGeometry doorA doorB turn)) _ _ hchain
        (fun c hc => hwalk c (hfloor c hc)) (tunnelChain_ends _ _).1 (tunnelChain_ends _ _).2
    have h3 : WalkConnected (carvePlan map (tunnelGeometry doorA doorB turn)) doorB.1 q :=
      gridConnected_rect _ roomB
        (fun c hc => hwalk c (carvePlan_floor_mono map doorA doorB turn c (hfB c hc))) _ q hBc hq
    exact gridConnected_trans _ _ _ _ (gridConnected_trans _ _ _ _ h1 h2) h3

/-- Witness for C5: the second and the first room of the row of rooms `rowEngine` places on an 80 by
24 map, carved as floor. -/
theorem carve_tunnel_joins_rooms_witness :
    LatticeRoom ⟨⟨9, 1⟩, ⟨14, 4⟩⟩ ∧ LatticeRoom ⟨⟨1, 1⟩, ⟨6, 4⟩⟩ ∧
    (⟨⟨9, 1⟩, ⟨14, 4⟩⟩ : Rect).expand2.Intersects ⟨⟨1, 1⟩, ⟨6, 4⟩⟩ = false ∧
    ∃ (plan : TunnelPlan) (e' : Engine),
      planTunnel rowEngine ⟨⟨9, 1⟩, ⟨14, 4⟩⟩ ⟨⟨1, 1⟩, ⟨6, 4⟩⟩ = some (plan, e') ∧
      CarveTunnel (carveRooms 80 24 [⟨⟨1, 1⟩, ⟨6, 4⟩⟩, ⟨⟨9, 1⟩, ⟨14, 4⟩⟩]) rowEngine
        ⟨⟨9, 1⟩, ⟨14, 4⟩⟩ ⟨⟨1, 1⟩, ⟨6, 4⟩⟩
        = some (carvePlan (carveRooms 80 24 [⟨⟨1, 1⟩, ⟨6, 4⟩⟩, ⟨⟨9, 1⟩, ⟨14, 4⟩⟩]) plan, e') ∧
      (carveWalk (carveRooms 80 24 [⟨⟨1, 1⟩, ⟨6, 4⟩⟩, ⟨⟨9, 1⟩, ⟨14, 4⟩⟩]) plan).visited.head?
        = some plan.pointA ∧
      (carveWalk (carveRooms 80 24 [⟨⟨1, 1⟩, ⟨6, 4⟩⟩, ⟨⟨9, 1⟩, ⟨14, 4⟩⟩]) plan).visited.getLast?
        = some plan.pointB ∧
      (carveWalk (carveRooms 80 24 [⟨⟨1, 1⟩, ⟨6, 4⟩⟩, ⟨⟨9, 1⟩, ⟨14, 4⟩⟩]) plan).point
        = plan.pointB ∧
      (⟨⟨9, 1⟩, ⟨14, 4⟩⟩ : Rect).Contains plan.doorA.1 = true ∧
      (⟨⟨1, 1⟩, ⟨6, 4⟩⟩ : Rect).Contains plan.doorB.1 = true ∧
      List.Chain' Adjacent4
        (tunnelChain (carveRooms 80 24 [⟨⟨1, 1⟩, ⟨6, 4⟩⟩, ⟨⟨9, 1⟩, ⟨14, 4⟩⟩]) plan) ∧
      (∀ c ∈ tunnelChain (carveRooms 80 24 [⟨⟨1, 1⟩, ⟨6, 4⟩⟩, ⟨⟨9, 1⟩, ⟨14, 4⟩⟩]) plan,
        (carvePlan (carveRooms 80 24 [⟨⟨1, 1⟩, ⟨6, 4⟩⟩, ⟨⟨9, 1⟩, ⟨14, 4⟩⟩]) plan).GetTile c
          = Tile.TILE_FLOOR) ∧
      ∀ p q : int2, (⟨⟨9, 1⟩, ⟨14, 4⟩⟩ : Rect).Contains p = true →
        (⟨⟨1, 1⟩, ⟨6, 4⟩⟩ : Rect).Contains q = true →
        WalkConnected
          (carvePlan (carveRooms 80 24 [⟨⟨1, 1⟩, ⟨6, 4⟩⟩, ⟨⟨9, 1⟩, ⟨14, 4⟩⟩]) plan) p q :=
  ⟨by unfold LatticeRoom; decide, by unfold LatticeRoom; decide, by decide,
    carve_tunnel_joins_rooms _ rowEngine ⟨⟨9, 1⟩, ⟨14, 4⟩⟩ ⟨⟨1, 1⟩, ⟨6, 4⟩⟩
      (by unfold LatticeRoom; decide) (by unfold LatticeRoom; decide) (by decide)
      (fun p hp => carveRooms_floor 80 24 _ _ (by simp) p hp)
      (fun p hp => carveRooms_floor 80 24 _ _ (by simp) p hp)⟩
/-! ## The tunnel loop -/

/-- A successful `CarveTunnel` between two lattice rooms whose cells are floor keeps every floor cell
and joins the two rooms through floor. -/
theorem carveTunnel_floor_connected (map map' : Map) (e e' : Engine) (roomA roomB : Rect)
    (hA : LatticeRoom roomA) (hB : LatticeRoom roomB)
    (hfA : ∀ p, roomA.Contains p = true → map.GetTile p = Tile.TILE_FLOOR)
    (hfB : ∀ p, roomB.Contains p = true → map.GetTile p = Tile.TILE_FLOOR)
    (h : CarveTunnel map e roomA roomB = some (map', e')) :
    (∀ c, map.GetTile c = Tile.TILE_FLOOR → map'.GetTile c = Tile.TILE_FLOOR) ∧
    ∀ p q : int2, roomA.Contains p = true → roomB.Contains q = true → FloorConnected map' p q := by
  unfold CarveTunnel at h
  cases hplan : planTunnel e roomA roomB with
  | none => rw [hplan] at h; cases h
  | some res =>
    obtain ⟨plan, e1⟩ := res
    rw [hplan] at h
    simp only [Option.some.injEq, Prod.mk.injEq] at h
    obtain ⟨hmap, _⟩ := h
    subst hmap
    obtain ⟨doorA, doorB, turn, hdA, hdB, ht0, ht1, rfl⟩ :=
      planTunnel_spec e e1 roomA roomB plan hplan
    obtain ⟨hAx, hAy, hAc⟩ := door_candidate_lattice roomA roomB doorA hA hdA
    obtain ⟨hBx, hBy, hBc⟩ := door_candidate_lattice roomB roomA doorB hB hdB
    obtain ⟨_, _, _, hchain, hfloor⟩ := carvePlan_chain map doorA doorB turn hAx hAy
      hBx hBy (hfA _ hAc) (hfB _ hBc) ht0 ht1
    have hmono := carvePlan_floor_mono map doorA doorB turn
    refine ⟨hmono, ?_⟩
    intro p q hp hq
    have h1 : FloorConnected (carvePlan map (tunnelGeometry doorA doorB turn)) p doorA.1 :=
      gridConnected_rect _ roomA (fun c hc => hmono c (hfA c hc)) p _ hp hAc
    have h2 : FloorConnected (carvePlan map (tunnelGeometry doorA doorB turn)) doorA.1 doorB.1 :=
      gridConnected_of_chain _ (tunnelChain map (tunnelGeometry doorA doorB turn)) _ _ hchain
        hfloor (tunnelChain_ends _ _).1 (tunnelChain_ends _ _).2
    have h3 : FloorConnected (carvePlan map (tunnelGeometry doorA doorB turn)) doorB.1 q :=
      gridConnected_rect _ roomB (fun c hc => hmono c (hfB c hc)) _ q hBc hq
    exact gridConnected_trans _ _ _ _ (gridConnected_trans _ _ _ _ h1 h2) h3

theorem floorConnected_mono (map map' : Map)
    (hmono : ∀ c, map.GetTile c = Tile.TILE_FLOOR → map'.GetTile c = Tile.TILE_FLOOR)
    (p q : int2) (h : FloorConnected map p q) : FloorConnected map' p q :=
  gridConnected_mono _ _ hmono p q h

/-- The tunnel loop keeps every floor cell and, having joined the first `i` rooms, leaves the first
`i + n` rooms joined after `n` more iterations. -/
theorem carveTunnelsFrom_joined (rooms : List Rect) (hlat : ∀ r ∈ rooms, LatticeRoom r) (n : Nat) :
    ∀ (i : Nat) (map map' : Map) (e e' : Engine),
      carveTunnelsFrom rooms n i map e = some (map', e') → 1 ≤ i →
      RoomsAreFloor map rooms → JoinedUpTo map rooms i →
      (∀ c, map.GetTile c = Tile.TILE_FLOOR → map'.GetTile c = Tile.TILE_FLOOR) ∧
      JoinedUpTo map' rooms (i + n) := by
  induction n with
  | zero =>
    intro i map map' e e' h _ _ hj
    simp only [carveTunnelsFrom, Option.some.injEq, Prod.mk.injEq] at h
    obtain ⟨rfl, _⟩ := h
    exact ⟨fun _ hc => hc, hj⟩
  | succ n ih =>
    intro i map map' e e' h hi hfloor hj
    unfold carveTunnelsFrom at h
    cases hdraw : uniformInt 0 ((i : Int) - 1) e with
    | none => rw [hdraw] at h; cases h
    | some res =>
      obtain ⟨j, e1⟩ := res
      rw [hdraw] at h
      simp only at h
      obtain ⟨_, hj0, hj1, _⟩ := uniformInt_spec _ _ _ _ _ hdraw
      cases hrA : rooms[i]? with
      | none => rw [hrA] at h; cases h
      | some roomA =>
        cases hrB : rooms[j.toNat]? with
        | none => rw [hrA, hrB] at h; cases h
        | some roomB =>
          rw [hrA, hrB] at h
          simp only at h
          cases hct : CarveTunnel map e1 roomA roomB with
          | none => rw [hct] at h; cases h
          | some res1 =>
            obtain ⟨map1, e2⟩ := res1
            rw [hct] at h
            simp only at h
            have hmemA := List.getElem?_mem hrA
            have hmemB := List.getElem?_mem hrB
            obtain ⟨hmono1, hconn⟩ := carveTunnel_floor_connected map map1 e1 e2 roomA roomB
              (hlat _ hmemA) (hlat _ hmemB) (hfloor _ hmemA) (hfloor _ hmemB) hct
            have hfloor1 : RoomsAreFloor map1 rooms :=
              fun r hr p hp => hmono1 p (hfloor r hr p hp)
            have hjt : j.toNat < i := by omega
            have hj1' : JoinedUpTo map1 rooms (i + 1) := by
              intro a b r s ha hb hra hrb p q hp hq
              -- every room of index at most `i` is joined to room `j`
              have tohub : ∀ (c : Nat) (t : Rect), c < i + 1 → rooms[c]? = some t →
                  ∀ u v : int2, t.Contains u = true → roomB.Contains v = true →
                    FloorConnected map1 u v := by
                intro c t hc hrc u v hu hv
                by_cases hci : c < i
                · exact floorConnected_mono map map1 hmono1 u v
                    (hj c j.toNat t roomB hci hjt hrc hrB u v hu hv)
                · have hceq : c = i := by omega
                  subst hceq
                  rw [hrA] at hrc
                  cases hrc
                  exact hconn u v hu hv
              obtain ⟨k, hk⟩ : ∃ v : int2, roomB.Contains v = true := by
                obtain ⟨_, _, _, _, hx, hy⟩ := hlat _ hmemB
                exact ⟨roomB.a, by simp only [Rect.Contains, decide_eq_true_eq]; omega⟩
              exact gridConnected_trans _ _ _ _ (tohub a r ha hra p k hp hk)
                (gridConnected_symm _ _ _ (tohub b s hb hrb q k hq hk))
            obtain ⟨hmono2, hfin⟩ := ih (i + 1) map1 map' e2 e' h (by omega) hfloor1 hj1'
            refine ⟨fun c hc => hmono2 c (hmono1 c hc), ?_⟩
            have heq : i + (n + 1) = i + 1 + n := by omega
            rw [heq]
            exact hfin
/-! ## The door phases only turn cells into doors -/

theorem doorsOnly_refl (map : Map) : DoorsOnly map map := fun _ => Or.inl rfl

theorem doorsOnly_trans (m1 m2 m3 : Map) (h12 : DoorsOnly m1 m2) (h23 : DoorsOnly m2 m3) :
    DoorsOnly m1 m3 := by
  intro c
  rcases h23 c with h | h | h
  · rw [h]; exact h12 c
  · exact Or.inr (Or.inl h)
  · exact Or.inr (Or.inr h)

theorem doorsOnly_set_hidden (map : Map) (p : int2) :
    DoorsOnly map (map.set p Tile.TILE_HIDDEN_DOOR) := by
  intro c
  rw [Map.getTile_set]
  split
  · exact Or.inr (Or.inl rfl)
  · exact Or.inl rfl

theorem doorsOnly_doorIfWalkable (map : Map) (p : int2) : DoorsOnly map (doorIfWalkable map p) := by
  intro c
  unfold doorIfWalkable
  split
  · rw [Map.getTile_set]
    split
    · exact Or.inr (Or.inr rfl)
    · exact Or.inl rfl
  · exact Or.inl rfl

theorem doorsOnly_foldl {α : Type} (f : Map → α → Map) (hf : ∀ m a, DoorsOnly m (f m a))
    (l : List α) : ∀ m : Map, DoorsOnly m (l.foldl f m) := by
  induction l with
  | nil => intro m; exact doorsOnly_refl m
  | cons a rest ih =>
    intro m
    rw [List.foldl_cons]
    exact doorsOnly_trans _ _ _ (hf m a) (ih (f m a))

theorem doorsOnly_placeRoomDoors (map : Map) (room : Rect) :
    DoorsOnly map (placeRoomDoors map room) := by
  unfold placeRoomDoors
  exact doorsOnly_trans _ _ _
    (doorsOnly_foldl _ (fun m x => doorsOnly_trans _ _ _ (doorsOnly_doorIfWalkable m _)
      (doorsOnly_doorIfWalkable _ _)) _ map)
    (doorsOnly_foldl _ (fun m y => doorsOnly_trans _ _ _ (doorsOnly_doorIfWalkable m _)
      (doorsOnly_doorIfWalkable _ _)) _ _)

theorem doorsOnly_roomDoors (rooms : List Rect) (map : Map) :
    DoorsOnly map (rooms.foldl placeRoomDoors map) :=
  doorsOnly_foldl _ doorsOnly_placeRoomDoors rooms map

theorem doorsOnly_placeSecretDoor (fuel : Nat) (point : int2) (n : Nat) :
    ∀ (map map' : Map) (e e' : Engine),
      placeSecretDoor fuel point n map e = some (map', e') → DoorsOnly map map' := by
  induction n with
  | zero => intro map map' e e' h; simp [placeSecretDoor] at h
  | succ n ih =>
    intro map map' e e' h
    unfold placeSecretDoor at h
    cases hdraw : uniformInt 0 3 e with
    | none => rw [hdraw] at h; cases h
    | some res =>
      obtain ⟨k, e1⟩ := res
      rw [hdraw] at h
      simp only at h
      split at h
      · cases hw : secretWalk
            (map.set (point + (directions.getD k.toNat Direction.North).toInt2)
              Tile.TILE_HIDDEN_DOOR) fuel
            (point + (directions.getD k.toNat Direction.North).toInt2)
            (point + (directions.getD k.toNat Direction.North).toInt2
              + (directions.getD k.toNat Direction.North).toInt2) with
        | none => rw [hw] at h; cases h
        | some lastPoint =>
          rw [hw] at h
          simp only [Option.some.injEq, Prod.mk.injEq] at h
          obtain ⟨rfl, _⟩ := h
          exact doorsOnly_trans _ _ _ (doorsOnly_set_hidden _ _) (doorsOnly_set_hidden _ _)
      · exact ih map map' e1 e' h

theorem doorsOnly_placeSecretDoors (fuel : Nat) (points : List int2) :
    ∀ (map map' : Map) (e e' : Engine),
      placeSecretDoors fuel points map e = some (map', e') → DoorsOnly map map' := by
  induction points with
  | nil =>
    intro map map' e e' h
    simp only [placeSecretDoors, Option.some.injEq, Prod.mk.injEq] at h
    obtain ⟨rfl, _⟩ := h
    exact doorsOnly_refl _
  | cons point rest ih =>
    intro map map' e e' h
    unfold placeSecretDoors at h
    split at h
    · cases hp : placeSecretDoor fuel point fuel map (chanceOneInFive e).2 with
      | none => rw [hp] at h; cases h
      | some res =>
        obtain ⟨map1, e1⟩ := res
        rw [hp] at h
        simp only at h
        exact doorsOnly_trans _ _ _ (doorsOnly_placeSecretDoor fuel point fuel _ _ _ _ hp)
          (ih map1 map' e1 e' h)
    · exact ih map map' _ e' h

theorem passage_of_doorsOnly (map map' : Map) (h : DoorsOnly map map') (c : int2)
    (hc : (map.GetTile c).IsPassage = true) : (map'.GetTile c).IsPassage = true := by
  rcases h c with h | h | h
  · rw [h]; exact hc
  · rw [h]; rfl
  · rw [h]; rfl

theorem walkable_of_doorsOnly (map map' : Map) (h : DoorsOnly map map') (c : int2)
    (hc : (map'.GetTile c).IsWalkable = true) : (map.GetTile c).IsWalkable = true := by
  rcases h c with h | h | h
  · rw [← h]; exact hc
  · rw [h] at hc; cases hc
  · rw [h] at hc; cases hc
/-! ## Room doors block the cells they are placed on -/

theorem doorIfWalkable_blocks (map : Map) (p : int2) :
    ((doorIfWalkable map p).GetTile p).IsWalkable = false := by
  unfold doorIfWalkable
  by_cases h : (map.GetTile p).IsWalkable = true
  · rw [if_pos h, Map.getTile_set_self]; rfl
  · rw [if_neg h]; simpa using h

theorem blocked_of_doorsOnly (map map' : Map) (h : DoorsOnly map map') (c : int2)
    (hc : (map.GetTile c).IsWalkable = false) : (map'.GetTile c).IsWalkable = false := by
  cases hw : (map'.GetTile c).IsWalkable with
  | false => rfl
  | true => rw [walkable_of_doorsOnly map map' h c hw] at hc; cases hc

theorem foldl_blocks {α : Type} (f : Map → α → Map) (hf : ∀ m a, DoorsOnly m (f m a)) (c : int2)
    (a : α) (hblock : ∀ m, ((f m a).GetTile c).IsWalkable = false) (l : List α) (ha : a ∈ l) :
    ∀ m : Map, ((l.foldl f m).GetTile c).IsWalkable = false := by
  induction l with
  | nil => cases ha
  | cons b rest ih =>
    intro m
    rw [List.foldl_cons]
    rcases List.mem_cons.1 ha with rfl | hmem
    · exact blocked_of_doorsOnly _ _ (doorsOnly_foldl f hf rest _) c (hblock m)
    · exact ih hmem _

/-- After the phase `Place doors on rooms`, the cell just east of a room on each of its lattice rows is
not walkable. -/
theorem roomDoors_block_east (rooms : List Rect) (map : Map) (room : Rect) (hr : room ∈ rooms)
    (y : Int) (hy : y ∈ stepsByTwo room.a.y room.b.y) :
    ((rooms.foldl placeRoomDoors map).GetTile ⟨room.b.x, y⟩).IsWalkable = false := by
  apply foldl_blocks placeRoomDoors doorsOnly_placeRoomDoors _ room _ rooms hr
  intro m
  unfold placeRoomDoors
  apply foldl_blocks _ _ _ y _ _ hy
  · intro m' y'
    exact doorsOnly_trans _ _ _ (doorsOnly_doorIfWalkable m' _) (doorsOnly_doorIfWalkable _ _)
  · intro m'
    exact doorIfWalkable_blocks _ _

/-! ## Claim C6 -/

theorem latticeRoom_of_placed (W H : Int) (r : Rect) (h : PlacedRoom W H r) : LatticeRoom r := by
  have hb := placedRoom_bounds W H r h
  unfold LatticeRoom
  omega

/-- What a successful run of `GenerateRandomMap` went through: the room list, the map after the tunnel
loop in which all rooms are joined through floor, and a final map that differs from it only by
doors. -/
theorem GenerateRandomMap_phases (W H : Int) (fuel : Nat) (e : Engine) (map : Map)
    (h : GenerateRandomMap W H fuel e = some map) :
    ∃ (rooms : List Rect) (e1 e2 : Engine) (mapT : Map),
      placeRooms W H e = some (rooms, e1) ∧
      carveTunnels rooms (carveRooms W H rooms) e1 = some (mapT, e2) ∧
      DoorsOnly mapT map ∧
      (∀ r ∈ rooms, ∀ s ∈ rooms, ∀ p q : int2, r.Contains p = true → s.Contains q = true →
        FloorConnected mapT p q) ∧
      ∃ mapS : Map, DoorsOnly mapT mapS ∧ map = rooms.foldl placeRoomDoors mapS := by
  unfold GenerateRandomMap at h
  cases hp : placeRooms W H e with
  | none => rw [hp] at h; cases h
  | some res =>
    obtain ⟨rooms, e1⟩ := res
    rw [hp] at h
    simp only at h
    cases ht : carveTunnels rooms (carveRooms W H rooms) e1 with
    | none => rw [ht] at h; cases h
    | some res1 =>
      obtain ⟨mapT, e2⟩ := res1
      rw [ht] at h
      simp only at h
      cases hs : placeSecretDoors fuel (EnumerateIntersections W H mapT) mapT e2 with
      | none => rw [hs] at h; cases h
      | some res2 =>
        obtain ⟨mapS, e3⟩ := res2
        rw [hs] at h
        simp only [Option.some.injEq] at h
        have hsecret := doorsOnly_placeSecretDoors fuel _ _ _ _ _ hs
        have hdoors := doorsOnly_roomDoors rooms mapS
        rw [h] at hdoors
        refine ⟨rooms, e1, e2, mapT, rfl, ht, doorsOnly_trans _ _ _ hsecret hdoors, ?_,
          mapS, hsecret, h.symm⟩
        obtain ⟨_, hplaced, _⟩ := placeRooms_inv W H e e1 rooms hp
        have hlat : ∀ r ∈ rooms, LatticeRoom r :=
          fun r hr => latticeRoom_of_placed W H r (hplaced r hr)
        have hfloor : RoomsAreFloor (carveRooms W H rooms) rooms :=
          fun r hr p hpc => carveRooms_floor W H rooms r hr p hpc
        have hj1 : JoinedUpTo (carveRooms W H rooms) rooms 1 := by
          intro a b r s ha hb hra hrb p q hpc hqc
          have ha0 : a = 0 := by omega
          have hb0 : b = 0 := by omega
          subst ha0 hb0
          rw [hra] at hrb
          cases hrb
          exact gridConnected_rect _ r (fun c hc => hfloor r (List.getElem?_mem hra) c hc) p q
            hpc hqc
        obtain ⟨_, hjoined⟩ := carveTunnelsFrom_joined rooms hlat (rooms.length - 1) 1
          (carveRooms W H rooms) mapT e1 e2 ht (le_refl _) hfloor hj1
        intro r hr s hs' p q hpc hqc
        obtain ⟨a, ha, hra⟩ := List.getElem_of_mem hr
        obtain ⟨b, hb, hrb⟩ := List.getElem_of_mem hs'
        exact hjoined a b r s (by omega) (by omega)
          (by rw [List.getElem?_eq_getElem ha, hra]) (by rw [List.getElem?_eq_getElem hb, hrb])
          p q hpc hqc

/-- C6, amended: for every stream of draws, in the map returned by `GenerateRandomMap` the interiors
of all placed rooms lie in one connected component of the graph whose vertices are the floor and door
cells (floor, secret door, closed door, open door) and whose edges join orthogonally adjacent such
cells. -/
theorem generated_rooms_passage_connected (W H : Int) (fuel : Nat) (e : Engine) (map : Map)
    (h : GenerateRandomMap W H fuel e = some map) :
    ∃ (rooms : List Rect) (e1 : Engine), placeRooms W H e = some (rooms, e1) ∧
      ∀ r ∈ rooms, ∀ s ∈ rooms, ∀ p q : int2, r.Contains p = true → s.Contains q = true →
        PassageConnected map p q := by
  obtain ⟨rooms, e1, e2, mapT, hp, _, hdoors, hconn, _⟩ := GenerateRandomMap_phases W H fuel e map h
  refine ⟨rooms, e1, hp, ?_⟩
  intro r hr s hs p q hpc hqc
  refine gridConnected_mono _ _ ?_ p q (hconn r hr s hs p q hpc hqc)
  intro c hc
  apply passage_of_doorsOnly mapT map hdoors c
  rw [hc]; rfl
set_option maxRecDepth 100000 in
/-- The run of `GenerateRandomMap` on an 80 by 24 map under `rowEngine` returns a map. -/
theorem generate_rowEngine_isSome : (GenerateRandomMap 80 24 8 rowEngine).isSome = true := by
  decide!

set_option maxRecDepth 100000 in
/-- After the tunnel loop of that run the cells around the first room other than `(6,1)` are wall. -/
theorem tunnelPhaseTiles_rowEngine :
    tunnelPhaseTiles 80 24 rowEngine firstRoomRing = some (List.replicate 15 Tile.TILE_WALL) := by
  decide!

/-- A walkable path that starts inside a rectangle whose surrounding cells are all unwalkable stays
inside it. -/
theorem walkConnected_stays (map : Map) (r : Rect)
    (hring : ∀ u v : int2, r.Contains u = true → Adjacent4 u v → r.Contains v = false →
      (map.GetTile v).IsWalkable = false)
    (p q : int2) (hp : r.Contains p = true) (h : WalkConnected map p q) : r.Contains q = true := by
  obtain ⟨_, hpath⟩ := h
  induction hpath with
  | refl => exact hp
  | @tail u v _ hstep ih =>
    obtain ⟨_, hv, hadj⟩ := hstep
    cases hc : r.Contains v with
    | true => rfl
    | false =>
      rw [hring u v ih hadj hc] at hv
      cases hv

/-- C6, as stated, fails: on an 80 by 24 map the draws of `rowEngine` produce a map in which the
tunnel between the rooms `[1,6)×[1,4)` and `[9,14)×[1,4)` is closed off by closed doors, which are not
walkable, so the cells `(1,1)` and `(9,1)` of the two rooms are not joined by any path of walkable
cells. -/
theorem closed_doors_disconnect_rooms :
    ∃ (map : Map) (rooms : List Rect) (e1 : Engine),
      GenerateRandomMap 80 24 8 rowEngine = some map ∧
      placeRooms 80 24 rowEngine = some (rooms, e1) ∧
      ∃ r ∈ rooms, ∃ s ∈ rooms, ∃ p q : int2, r.Contains p = true ∧ s.Contains q = true ∧
        ¬ WalkConnected map p q := by
  obtain ⟨map, hmap⟩ := Option.isSome_iff_exists.1 generate_rowEngine_isSome
  obtain ⟨rooms, e1, e2, mapT, hp, ht, hdoors, _, mapS, hsecret, hfinal⟩ :=
    GenerateRandomMap_phases 80 24 8 rowEngine map hmap
  obtain ⟨rooms', e1', hp', h0, h1⟩ := placeRooms_rowEngine
  rw [hp] at hp'
  simp only [Option.some.injEq, Prod.mk.injEq] at hp'
  obtain ⟨rfl, rfl⟩ := hp'
  have hm0 := List.getElem?_mem h0
  have hm1 := List.getElem?_mem h1
  refine ⟨map, rooms, e1, hmap, hp, _, hm0, _, hm1, ⟨1, 1⟩, ⟨9, 1⟩, by decide, by decide, ?_⟩
  -- the ring of cells around the first room is unwalkable in the final map
  have hwall : ∀ c ∈ firstRoomRing, (map.GetTile c).IsWalkable = false := by
    have htiles := tunnelPhaseTiles_rowEngine
    unfold tunnelPhaseTiles at htiles
    rw [hp] at htiles
    simp only at htiles
    rw [ht] at htiles
    simp only [Option.some.injEq] at htiles
    intro c hc
    have hcw : mapT.GetTile c = Tile.TILE_WALL := by
      have hmem : mapT.GetTile c ∈ firstRoomRing.map mapT.GetTile := List.mem_map_of_mem _ hc
      rw [htiles] at hmem
      exact List.eq_of_mem_replicate hmem
    apply blocked_of_doorsOnly mapT map hdoors c
    rw [hcw]; rfl
  have hdoor : (map.GetTile ⟨6, 1⟩).IsWalkable = false := by
    rw [hfinal]
    exact roomDoors_block_east rooms mapS ⟨⟨1, 1⟩, ⟨6, 4⟩⟩ hm0 1 (by decide)
  intro hconn
  have hstay := walkConnected_stays map ⟨⟨1, 1⟩, ⟨6, 4⟩⟩ ?_ ⟨1, 1⟩ ⟨9, 1⟩ (by decide) hconn
  · revert hstay; decide
  · intro u v hu hadj hv
    obtain ⟨ux, uy⟩ := u
    obtain ⟨vx, vy⟩ := v
    simp only [Rect.Contains, decide_eq_true_eq, decide_eq_false_iff_not] at hu hv
    simp only [Adjacent4] at hadj
    have hvx : 0 ≤ vx ∧ vx ≤ 6 := by
      rcases abs_cases (vx - ux) with ⟨h1, _⟩ | ⟨h1, _⟩ <;>
      rcases abs_cases (vy - uy) with ⟨h2, _⟩ | ⟨h2, _⟩ <;> omega
    have hvy : 0 ≤ vy ∧ vy ≤ 4 := by
      rcases abs_cases (vx - ux) with ⟨h1, _⟩ | ⟨h1, _⟩ <;>
      rcases abs_cases (vy - uy) with ⟨h2, _⟩ | ⟨h2, _⟩ <;> omega
    have hcorner : ¬ ((vx = 0 ∨ vx = 6) ∧ (vy = 0 ∨ vy = 4)) := by
      rcases abs_cases (vx - ux) with ⟨h1, _⟩ | ⟨h1, _⟩ <;>
      rcases abs_cases (vy - uy) with ⟨h2, _⟩ | ⟨h2, _⟩ <;> omega
    obtain ⟨hx0, hx1⟩ := hvx
    obtain ⟨hy0, hy1⟩ := hvy
    interval_cases vx <;> interval_cases vy <;>
      first
      | exact hdoor
      | exact hwall _ (by decide)
      | (exfalso; omega)

/-- Witness for the amended C6: the run on an 80 by 24 map under `rowEngine`. -/
theorem generated_rooms_passage_connected_witness :
    ∃ map : Map, GenerateRandomMap 80 24 8 rowEngine = some map ∧
      ∃ (rooms : List Rect) (e1 : Engine), placeRooms 80 24 rowEngine = some (rooms, e1) ∧
        ∀ r ∈ rooms, ∀ s ∈ rooms, ∀ p q : int2, r.Contains p = true → s.Contains q = true →
          PassageConnected map p q := by
  obtain ⟨map, hmap⟩ := Option.isSome_iff_exists.1 generate_rowEngine_isSome
  exact ⟨map, hmap, generated_rooms_passage_connected 80 24 8 rowEngine map hmap⟩
/-! ## Claim C17 -/

theorem lineStart_degenerate (a : int2) :
    lineStart a a = ⟨a, Direction.West, Direction.North, 0, 0, 0⟩ := by
  simp [lineStart, BresenhamLine.BresenhamLine]

theorem iterate_degenerate (a : int2) (k : Nat) :
    (const_iterator.next^[k] (lineStart a a)).error = 0 ∧
    (const_iterator.next^[k] (lineStart a a)).mainDelta = 0 ∧
    (const_iterator.next^[k] (lineStart a a)).sideDelta = 0 := by
  induction k with
  | zero => simp [lineStart_degenerate]
  | succ k ih =>
    rw [Function.iterate_succ_apply']
    obtain ⟨h1, h2, h3⟩ := ih
    refine ⟨?_, by simp [h2], by simp [h3]⟩
    rw [const_iterator.next_nonneg _ (by rw [h1, h3]; decide)]
    simp [h1, h3]

/-- C17, as stated, fails: for `a = b = (0,0)` the constructor builds a cursor with
`mainDelta = sideDelta = 0`, and after one `++` the error is `0`, which is not below `mainDelta`. -/
theorem error_not_below_mainDelta_when_degenerate :
    ¬ (-(lineStart ⟨0, 0⟩ ⟨0, 0⟩).next.sideDelta ≤ (lineStart ⟨0, 0⟩ ⟨0, 0⟩).next.error ∧
        (lineStart ⟨0, 0⟩ ⟨0, 0⟩).next.error < (lineStart ⟨0, 0⟩ ⟨0, 0⟩).next.mainDelta) := by
  decide

/-- C17, amended: starting from the cursor the `BresenhamLine` constructor builds
(`error = mainDelta/2`), after each application of `++` the error lies in `[-sideDelta, mainDelta)`
when the endpoints differ (it is in fact non-negative), and is `0 = mainDelta = sideDelta` when they
coincide. -/
theorem error_in_range (a b : int2) (k : Nat) :
    (a ≠ b →
      -(const_iterator.next^[k + 1] (lineStart a b)).sideDelta
          ≤ (const_iterator.next^[k + 1] (lineStart a b)).error ∧
      0 ≤ (const_iterator.next^[k + 1] (lineStart a b)).error ∧
      (const_iterator.next^[k + 1] (lineStart a b)).error
          < (const_iterator.next^[k + 1] (lineStart a b)).mainDelta) ∧
    (a = b →
      (const_iterator.next^[k + 1] (lineStart a b)).error = 0 ∧
      (const_iterator.next^[k + 1] (lineStart a b)).mainDelta = 0 ∧
      (const_iterator.next^[k + 1] (lineStart a b)).sideDelta = 0) := by
  constructor
  · intro hab
    obtain ⟨hr, _⟩ := lineStart_spec a b hab
    obtain ⟨c, _, _, _, _, hlo, hhi⟩ := const_iterator.iterate_state (k + 1) (lineStart a b) hr
    obtain ⟨_, _, f3, f4⟩ := const_iterator.iterate_fields (k + 1) (lineStart a b)
    rw [f3, f4]
    exact ⟨by have := hr.2.1; omega, hlo, hhi⟩
  · intro hab
    subst hab
    exact iterate_degenerate a (k + 1)
/-! ## The walk stays in the bounding box -/

/-- Within the first `mainDelta` steps the cursor has taken at most `sideDelta` side steps. -/
theorem linePoint_state (a b : int2) (hab : a ≠ b) (i : Nat) (hi : i ≤ (chebyshev a b).toNat) :
    ∃ c : Int, 0 ≤ c ∧ c ≤ (lineStart a b).sideDelta ∧
      linePoint a b i = a + (lineStart a b).mainStep.toInt2.scale i
        + (lineStart a b).sideStep.toInt2.scale c := by
  obtain ⟨hr, hp, hpt, hm, he, hb⟩ := lineStart_spec a b hab
  obtain ⟨c, hc0, hck, hpc, hec, hlo, hhi⟩ := const_iterator.iterate_state i (lineStart a b) hr
  obtain ⟨hm0, hs0, hsm, he0, he1⟩ := hr
  have hile : (i : Int) ≤ (lineStart a b).mainDelta := by
    rw [hm]; have := chebyshev_pos a b hab; omega
  refine ⟨c, hc0, ?_, by unfold linePoint; rw [hpc, hpt]⟩
  rw [hec] at hhi
  by_contra hcon
  have h1 : ((lineStart a b).sideDelta + 1) * (lineStart a b).mainDelta
      ≤ c * (lineStart a b).mainDelta :=
    mul_le_mul_of_nonneg_right (by omega) (le_of_lt hm0)
  have h2 : (i : Int) * (lineStart a b).sideDelta
      ≤ (lineStart a b).mainDelta * (lineStart a b).sideDelta :=
    mul_le_mul_of_nonneg_right hile hs0
  nlinarith

theorem perp_cases (it : const_iterator) (h : it.Perp) :
    ((it.mainStep = Direction.East ∨ it.mainStep = Direction.West) ∧
      (it.sideStep = Direction.North ∨ it.sideStep = Direction.South)) ∨
    ((it.mainStep = Direction.North ∨ it.mainStep = Direction.South) ∧
      (it.sideStep = Direction.East ∨ it.sideStep = Direction.West)) := by
  obtain ⟨p, M, S, m, s, e⟩ := it
  unfold const_iterator.Perp at h
  cases M <;> cases S <;> simp [Direction.toInt2, dot] at h ⊢

/-- Every cell of the walk from `a` to `b` lies in the axis-aligned rectangle spanned by `a` and
`b`. -/
theorem linePoint_in_box (a b : int2) (hab : a ≠ b) (i : Nat) (hi : i ≤ (chebyshev a b).toNat) :
    min a.x b.x ≤ (linePoint a b i).x ∧ (linePoint a b i).x ≤ max a.x b.x ∧
    min a.y b.y ≤ (linePoint a b i).y ∧ (linePoint a b i).y ≤ max a.y b.y := by
  obtain ⟨hr, hp, hpt, hm, he, hb⟩ := lineStart_spec a b hab
  obtain ⟨c, hc0, hcs, hpc⟩ := linePoint_state a b hab i hi
  obtain ⟨hm0, hs0, hsm, he0, he1⟩ := hr
  have hile : (i : Int) ≤ (lineStart a b).mainDelta := by
    rw [hm]; have := chebyshev_pos a b hab; omega
  have hbx := congrArg int2.x hb
  have hby := congrArg int2.y hb
  rw [hpc]
  generalize (lineStart a b).mainDelta = m at *
  generalize (lineStart a b).sideDelta = s at *
  rcases perp_cases _ hp with ⟨hM | hM, hS | hS⟩ | ⟨hM | hM, hS | hS⟩ <;>
    rw [hM, hS] at hbx hby ⊢ <;>
    simp only [Direction.toInt2, int2.scale, int2.add_x, int2.add_y] at hbx hby ⊢ <;>
    omega
/-! ## Claim C15 -/

/-- C15: for every map and every viewer and target such that all cells of the axis-aligned rectangle
spanned by viewer and target are walkable, `HasLineOfSight(viewer, target)` finishes and is true. -/
theorem line_of_sight_in_open_rectangle (map : Map) (viewer target : int2)
    (hopen : ∀ c : int2, min viewer.x target.x ≤ c.x → c.x ≤ max viewer.x target.x →
      min viewer.y target.y ≤ c.y → c.y ≤ max viewer.y target.y →
      (map.GetTile c).IsWalkable = true) (k : Nat) :
    map.HasLineOfSight (losFuel viewer target + k) viewer target = some true := by
  have hdirect : CheckLineOfSight (losFuel viewer target + k) map viewer target false
      = some true := by
    rw [CheckLineOfSight_eq _ map viewer target false (by unfold losFuel; omega)]
    simp only [Bool.not_false, Bool.true_or, Bool.true_and, Option.some.injEq, List.all_eq_true]
    intro p hp
    by_cases hvt : viewer = target
    · subst hvt
      rw [rayCells_degenerate] at hp
      simp at hp
    · rw [rayCells_distinct viewer target hvt] at hp
      simp only [lineHi, lineLo, List.mem_map, List.mem_range, if_false, Bool.false_eq_true] at hp
      obtain ⟨i, hi, rfl⟩ := hp
      obtain ⟨h1, h2, h3, h4⟩ := linePoint_in_box viewer target hvt (i + 1) (by omega)
      exact hopen _ h1 h2 h3 h4
  unfold Map.HasLineOfSight
  rw [hdirect]
  rfl

/-- Witness for C15: opposite corners of a 5 by 5 floor room surrounded by wall. -/
theorem line_of_sight_in_open_rectangle_witness :
    squareRoom.HasLineOfSight (losFuel ⟨1, 1⟩ ⟨5, 5⟩ + 0) ⟨1, 1⟩ ⟨5, 5⟩ = some true :=
  line_of_sight_in_open_rectangle squareRoom ⟨1, 1⟩ ⟨5, 5⟩
    (by
      intro c h1 h2 h3 h4
      have e1 : min (1 : Int) 5 = 1 := by decide
      have e2 : max (1 : Int) 5 = 5 := by decide
      simp only [e1, e2] at h1 h2 h3 h4
      have hc : (⟨⟨1, 1⟩, ⟨6, 6⟩⟩ : Rect).Contains c = true := by
        simp only [Rect.Contains, decide_eq_true_eq]; omega
      simp only [squareRoom, Map.getTile_fill, hc, if_true]
      rfl) 0
/-! ## A blocked row or column -/

/-- A sequence of integers that moves by at most one per step takes every value between its first and
a later term. -/
theorem steps_reach_up (f : Nat → Int) (hstep : ∀ i, |f (i + 1) - f i| ≤ 1) (k : Int) (n : Nat) :
    f 0 < k → k ≤ f n → ∃ i, 0 < i ∧ i ≤ n ∧ f i = k := by
  induction n with
  | zero => intro h0 hn; omega
  | succ n ih =>
    intro h0 hn
    by_cases hk : k ≤ f n
    · obtain ⟨i, hi0, hin, hfi⟩ := ih h0 hk
      exact ⟨i, hi0, by omega, hfi⟩
    · have := abs_le.1 (hstep n)
      exact ⟨n + 1, by omega, le_refl _, by omega⟩

theorem steps_reach (f : Nat → Int) (hstep : ∀ i, |f (i + 1) - f i| ≤ 1) (k : Int) (n : Nat)
    (h : (f 0 < k ∧ k ≤ f n) ∨ (f n ≤ k ∧ k < f 0)) : ∃ i, 0 < i ∧ i ≤ n ∧ f i = k := by
  rcases h with ⟨h0, hn⟩ | ⟨hn, h0⟩
  · exact steps_reach_up f hstep k n h0 hn
  · have hneg : ∀ i, |(-f (i + 1)) - (-f i)| ≤ 1 := by
      intro i
      have := hstep i
      rw [abs_le] at this ⊢
      constructor <;> omega
    obtain ⟨i, hi0, hin, hfi⟩ := steps_reach_up (fun i => -f i) hneg (-k) n
      (show -f 0 < -k by omega) (show -k ≤ -f n by omega)
    have hfi' : -f i = -k := hfi
    exact ⟨i, hi0, hin, by omega⟩

/-- A ray from `v` to `w` whose endpoints lie on opposite sides of the level `g = k` of a coordinate
`g` contains a cell on that level. -/
theorem ray_crosses (g : int2 → Int) (hg : ∀ p q, chebyshev p q = 1 → |g q - g p| ≤ 1)
    (v w : int2) (k : Int) (includeB : Bool)
    (hbetween : (g v < k ∧ k ≤ g w) ∨ (g w ≤ k ∧ k < g v))
    (hB : includeB = true ∨ g w ≠ k) :
    ∃ p ∈ rayCells v false w includeB, g p = k := by
  have hvw : v ≠ w := by
    intro h; subst h; omega
  have hpos := chebyshev_pos v w hvw
  obtain ⟨i, hi0, hin, hfi⟩ := steps_reach (fun i => g (linePoint v w i))
    (fun i => hg _ _ (linePoint_step v w hvw i)) k (chebyshev v w).toNat
    (by
      show (g (linePoint v w 0) < k ∧ k ≤ g (linePoint v w (chebyshev v w).toNat)) ∨
        (g (linePoint v w (chebyshev v w).toNat) ≤ k ∧ k < g (linePoint v w 0))
      rw [linePoint_zero, linePoint_last v w hvw]; exact hbetween)
  have hfi' : g (linePoint v w i) = k := hfi
  refine ⟨linePoint v w i, ?_, hfi'⟩
  rw [rayCells_distinct v w hvw]
  simp only [lineHi, lineLo, List.mem_map, List.mem_range, if_false, Bool.false_eq_true]
  refine ⟨i - 1, ?_, by congr 1; omega⟩
  rcases hB with hB | hB
  · rw [hB]; simp only [if_true]; omega
  · have hne : i ≠ (chebyshev v w).toNat := by
      intro h; rw [h, linePoint_last v w hvw] at hfi'; exact hB hfi'
    split <;> omega

/-- A check whose ray has to cross a level of unwalkable cells fails. -/
theorem check_blocked (g : int2 → Int) (hg : ∀ p q, chebyshev p q = 1 → |g q - g p| ≤ 1)
    (map : Map) (k : Int) (hwall : ∀ p, g p = k → (map.GetTile p).IsWalkable = false)
    (fuel : Nat) (v w : int2) (isNeighbor : Bool) (hfuel : lineFuel v w ≤ fuel)
    (hbetween : (g v < k ∧ k ≤ g w) ∨ (g w ≤ k ∧ k < g v))
    (hB : isNeighbor = true ∨ g w ≠ k) :
    CheckLineOfSight fuel map v w isNeighbor = some false := by
  rw [CheckLineOfSight_eq fuel map v w isNeighbor hfuel]
  obtain ⟨p, hp, hpk⟩ := ray_crosses g hg v w k isNeighbor hbetween hB
  have hall : (rayCells v false w isNeighbor).all (fun p => (map.GetTile p).IsWalkable)
      = false := by
    rw [List.all_eq_false]
    exact ⟨p, hp, by rw [hwall p hpk]; simp⟩
  rw [hall, Bool.and_false]

theorem neighborOffsets_small (d : int2) (hd : d ∈ neighborOffsets) :
    -1 ≤ d.x ∧ d.x ≤ 1 ∧ -1 ≤ d.y ∧ d.y ≤ 1 := by
  simp only [neighborOffsets, List.mem_cons, List.mem_singleton, List.not_mem_nil, or_false] at hd
  rcases hd with rfl | rfl | rfl | rfl | rfl | rfl | rfl | rfl <;> simp

/-- When a level `g = k` of unwalkable cells lies strictly between viewer and target, the direct check
and all eight neighbour checks fail. -/
theorem sight_blocked (g : int2 → Int) (hg : ∀ p q, chebyshev p q = 1 → |g q - g p| ≤ 1)
    (hoff : ∀ t d : int2, d ∈ neighborOffsets → |g (t + d) - g t| ≤ 1)
    (map : Map) (k : Int) (hwall : ∀ p, g p = k → (map.GetTile p).IsWalkable = false)
    (v t : int2) (hbetween : (g v < k ∧ k < g t) ∨ (g t < k ∧ k < g v)) (j : Nat) :
    CheckLineOfSight (losFuel v t + j) map v t false = some false ∧
    ∀ d ∈ neighborOffsets, CheckLineOfSight (losFuel v t + j) map v (t + d) true = some false := by
  constructor
  · apply check_blocked g hg map k hwall _ v t false (by unfold losFuel; omega)
    · rcases hbetween with h | h
      · left; omega
      · right; omega
    · right; omega
  · intro d hd
    obtain ⟨d1, d2, d3, d4⟩ := neighborOffsets_small d hd
    have hfuel : lineFuel v (t + d) ≤ losFuel v t + j := by
      have := lineFuel_shift v t d d1 d2 d3 d4
      unfold losFuel; omega
    by_cases hk : g (t + d) = k
    · rw [CheckLineOfSight_eq _ map v (t + d) true hfuel, hwall _ hk]
      simp
    · apply check_blocked g hg map k hwall _ v (t + d) true hfuel _ (Or.inl rfl)
      have := abs_le.1 (hoff t d hd)
      rcases hbetween with h | h
      · left; omega
      · right; omega
/-! ## Claim C16 -/

theorem chebyshev_step_y (p q : int2) (h : chebyshev p q = 1) : |q.y - p.y| ≤ 1 := by
  unfold chebyshev at h
  rw [← h]; exact le_max_right _ _

theorem chebyshev_step_x (p q : int2) (h : chebyshev p q = 1) : |q.x - p.x| ≤ 1 := by
  unfold chebyshev at h
  rw [← h]; exact le_max_left _ _

theorem hasLineOfSight_all_false (fuel : Nat) (map : Map) (v t : int2)
    (h0 : CheckLineOfSight fuel map v t false = some false)
    (hn : ∀ d ∈ neighborOffsets, CheckLineOfSight fuel map v (t + d) true = some false) :
    map.HasLineOfSight fuel v t = some false := by
  have hs1 : t - (⟨1, 0⟩ : int2) = t + ⟨-1, 0⟩ := by
    simp [int2.ext_iff']; omega
  have hs2 : t - (⟨0, 1⟩ : int2) = t + ⟨0, -1⟩ := by
    simp [int2.ext_iff']; omega
  unfold Map.HasLineOfSight
  rw [hs1, hs2, h0, hn ⟨1, 0⟩ (by simp [neighborOffsets]), hn ⟨0, 1⟩ (by simp [neighborOffsets]),
    hn ⟨-1, 0⟩ (by simp [neighborOffsets]), hn ⟨0, -1⟩ (by simp [neighborOffsets]),
    hn ⟨-1, -1⟩ (by simp [neighborOffsets]), hn ⟨1, -1⟩ (by simp [neighborOffsets]),
    hn ⟨1, 1⟩ (by simp [neighborOffsets]), hn ⟨-1, 1⟩ (by simp [neighborOffsets])]
  rfl

/-- C16: for every map, viewer and target such that some complete row `y = k` (or, symmetrically, some
complete column `x = k`) consists only of unwalkable cells and lies strictly between viewer and
target, the direct check and all 8 neighbour-offset checks finish and fail, and
`HasLineOfSight(viewer, target)` is false. -/
theorem wall_line_blocks_sight (map : Map) (viewer target : int2) (k : Int)
    (h : ((∀ x : Int, (map.GetTile ⟨x, k⟩).IsWalkable = false) ∧
          ((viewer.y < k ∧ k < target.y) ∨ (target.y < k ∧ k < viewer.y))) ∨
         ((∀ y : Int, (map.GetTile ⟨k, y⟩).IsWalkable = false) ∧
          ((viewer.x < k ∧ k < target.x) ∨ (target.x < k ∧ k < viewer.x)))) (j : Nat) :
    CheckLineOfSight (losFuel viewer target + j) map viewer target false = some false ∧
    (∀ d ∈ neighborOffsets,
      CheckLineOfSight (losFuel viewer target + j) map viewer (target + d) true = some false) ∧
    map.HasLineOfSight (losFuel viewer target + j) viewer target = some false := by
  have hchecks : CheckLineOfSight (losFuel viewer target + j) map viewer target false = some false ∧
      ∀ d ∈ neighborOffsets,
        CheckLineOfSight (losFuel viewer target + j) map viewer (target + d) true = some false := by
    rcases h with ⟨hwall, hbetween⟩ | ⟨hwall, hbetween⟩
    · apply sight_blocked (fun p => p.y) chebyshev_step_y _ map k _ viewer target hbetween j
      · intro t d hd
        obtain ⟨_, _, d3, d4⟩ := neighborOffsets_small d hd
        simp only [int2.add_y]
        rw [abs_le]; constructor <;> omega
      · intro p hp
        simp only at hp
        have := hwall p.x
        rw [← hp] at this
        exact this
    · apply sight_blocked (fun p => p.x) chebyshev_step_x _ map k _ viewer target hbetween j
      · intro t d hd
        obtain ⟨d1, d2, _, _⟩ := neighborOffsets_small d hd
        simp only [int2.add_x]
        rw [abs_le]; constructor <;> omega
      · intro p hp
        simp only at hp
        have := hwall p.y
        rw [← hp] at this
        exact this
  exact ⟨hchecks.1, hchecks.2, hasLineOfSight_all_false _ map viewer target hchecks.1 hchecks.2⟩

theorem twoCorridors_wall_row (x : Int) : (twoCorridors.GetTile ⟨x, 1⟩).IsWalkable = false := by
  simp only [twoCorridors, Map.getTile_fill, Rect.Contains]
  by_cases hx : -8 ≤ x ∧ x < 8
  · simp [hx]
    rfl
  · simp [hx]
    rfl

/-- Witness for C16: two corridors separated by one row of wall, viewer and target facing each other
across it. -/
theorem wall_line_blocks_sight_witness :
    (((∀ x : Int, (twoCorridors.GetTile ⟨x, 1⟩).IsWalkable = false) ∧
          (((⟨0, 0⟩ : int2).y < 1 ∧ 1 < (⟨0, 2⟩ : int2).y) ∨
            ((⟨0, 2⟩ : int2).y < 1 ∧ 1 < (⟨0, 0⟩ : int2).y))) ∨
         ((∀ y : Int, (twoCorridors.GetTile ⟨1, y⟩).IsWalkable = false) ∧
          (((⟨0, 0⟩ : int2).x < 1 ∧ 1 < (⟨0, 2⟩ : int2).x) ∨
            ((⟨0, 2⟩ : int2).x < 1 ∧ 1 < (⟨0, 0⟩ : int2).x)))) ∧
    CheckLineOfSight (losFuel ⟨0, 0⟩ ⟨0, 2⟩ + 0) twoCorridors ⟨0, 0⟩ ⟨0, 2⟩ false = some false ∧
    (∀ d ∈ neighborOffsets,
      CheckLineOfSight (losFuel ⟨0, 0⟩ ⟨0, 2⟩ + 0) twoCorridors ⟨0, 0⟩ (⟨0, 2⟩ + d) true
        = some false) ∧
    twoCorridors.HasLineOfSight (losFuel ⟨0, 0⟩ ⟨0, 2⟩ + 0) ⟨0, 0⟩ ⟨0, 2⟩ = some false :=
  ⟨Or.inl ⟨twoCorridors_wall_row, Or.inl ⟨by decide, by decide⟩⟩,
    wall_line_blocks_sight twoCorridors ⟨0, 0⟩ ⟨0, 2⟩ 1
      (Or.inl ⟨twoCorridors_wall_row, Or.inl ⟨by decide, by decide⟩⟩) 0⟩
/-! ## Claims C11 and C18 -/

theorem mem_stepsByTwo_one (hi v : Int) :
    v ∈ stepsByTwo 1 hi ↔ v % 2 = 1 ∧ 1 ≤ v ∧ v < hi := by
  rw [mem_stepsByTwo]
  constructor
  · rintro ⟨k, rfl, hlt⟩
    exact ⟨by omega, by omega, hlt⟩
  · rintro ⟨h1, h2, h3⟩
    exact ⟨((v - 1) / 2).toNat, by omega, h3⟩

theorem stepsByTwo_increasing (lo hi : Int) : (stepsByTwo lo hi).Pairwise (· < ·) := by
  unfold stepsByTwo
  rw [List.pairwise_map]
  exact (List.pairwise_lt_range _).imp (fun h => by omega)

theorem mem_scannedCells (W H : Int) (c : int2) :
    c ∈ scannedCells W H ↔
      c.x % 2 = 1 ∧ 1 ≤ c.x ∧ c.x < W ∧ c.y % 2 = 1 ∧ 1 ≤ c.y ∧ c.y < H := by
  unfold scannedCells
  simp only [List.mem_flatMap, List.mem_map, mem_stepsByTwo_one]
  constructor
  · rintro ⟨y, hy, x, hx, rfl⟩
    exact ⟨hx.1, hx.2.1, hx.2.2, hy.1, hy.2.1, hy.2.2⟩
  · rintro ⟨h1, h2, h3, h4, h5, h6⟩
    exact ⟨c.y, ⟨h4, h5, h6⟩, c.x, ⟨h1, h2, h3⟩, rfl⟩

theorem scannedCells_ordered (W H : Int) : (scannedCells W H).Pairwise ScannedBefore := by
  unfold scannedCells
  rw [List.pairwise_flatMap]
  constructor
  · intro y _
    rw [List.pairwise_map]
    exact (stepsByTwo_increasing 1 W).imp (fun h => Or.inr ⟨rfl, h⟩)
  · refine (stepsByTwo_increasing 1 H).imp ?_
    intro y1 y2 hlt p hp q hq
    obtain ⟨x1, _, rfl⟩ := List.mem_map.1 hp
    obtain ⟨x2, _, rfl⟩ := List.mem_map.1 hq
    exact Or.inl hlt

theorem isIntersection_iff (map : Map) (c : int2) :
    isIntersection map c = true ↔
      (map.GetTile c).IsWalkable = true ∧
      (∀ d ∈ diagonalNeighbors c, (map.GetTile d).IsWalkable = false) ∧
      3 ≤ ((orthogonalNeighbors c).filter (fun n => (map.GetTile n).IsWalkable)).length := by
  unfold isIntersection diagonalNeighbors orthogonalNeighbors
  simp only [List.mem_cons, List.mem_singleton, List.not_mem_nil, or_false, forall_eq_or_imp,
    forall_eq, Bool.and_eq_true, Bool.not_eq_true', decide_eq_true_eq, List.filter_cons,
    List.filter_nil]
  cases (map.GetTile (c + ⟨-1, 0⟩)).IsWalkable <;>
  cases (map.GetTile (c + ⟨1, 0⟩)).IsWalkable <;>
  cases (map.GetTile (c + ⟨0, -1⟩)).IsWalkable <;>
  cases (map.GetTile (c + ⟨0, 1⟩)).IsWalkable <;>
  simp <;> tauto

/-- C11: for every map, a cell `c` is in the result of `EnumerateIntersections` exactly when `c` has
odd `x` and odd `y` within the scanned range (`1 ≤ x < MAP_WIDTH`, `1 ≤ y < MAP_HEIGHT`), `c` is
walkable, all four diagonal neighbours of `c` are unwalkable, and at least 3 of its 4 orthogonal
neighbours are walkable; the result lists these cells once each, in row-major scan order. -/
theorem enumerate_intersections_spec (W H : Int) (map : Map) :
    (∀ c : int2, c ∈ EnumerateIntersections W H map ↔
      (c.x % 2 = 1 ∧ 1 ≤ c.x ∧ c.x < W ∧ c.y % 2 = 1 ∧ 1 ≤ c.y ∧ c.y < H) ∧
      (map.GetTile c).IsWalkable = true ∧
      (∀ d ∈ diagonalNeighbors c, (map.GetTile d).IsWalkable = false) ∧
      3 ≤ ((orthogonalNeighbors c).filter (fun n => (map.GetTile n).IsWalkable)).length) ∧
    (EnumerateIntersections W H map).Nodup ∧
    (EnumerateIntersections W H map).Pairwise ScannedBefore := by
  have hord : (EnumerateIntersections W H map).Pairwise ScannedBefore :=
    (scannedCells_ordered W H).filter _
  refine ⟨?_, ?_, hord⟩
  · intro c
    unfold EnumerateIntersections
    rw [List.mem_filter, mem_scannedCells, isIntersection_iff]
  · refine hord.imp ?_
    intro p q h heq
    subst heq
    unfold ScannedBefore at h
    omega
/-- C18, as stated, fails: with `MAP_WIDTH = 80` and `MAP_HEIGHT = 24` the scan visits the cell
`(79, 1)`, which is on the last column of the map and not inside the 1-cell-inset interior. -/
theorem scan_reaches_last_column :
    ∃ c ∈ scannedCells 80 24, ¬ (1 ≤ c.x ∧ c.x ≤ 80 - 2 ∧ 1 ≤ c.y ∧ c.y ≤ 24 - 2) :=
  ⟨⟨79, 1⟩, (mem_scannedCells 80 24 ⟨79, 1⟩).2 (by decide), by decide⟩

/-- C18, amended: for all map dimensions, every cell `c` scanned by `EnumerateIntersections` has odd
coordinates with `1 ≤ c.x ≤ MAP_WIDTH-1` and `1 ≤ c.y ≤ MAP_HEIGHT-1`; when `MAP_WIDTH` and
`MAP_HEIGHT` are odd, `c` lies inside the 1-cell-inset interior (`c.x ≤ MAP_WIDTH-2`,
`c.y ≤ MAP_HEIGHT-2`) and all eight neighbour lookups are inside the map. -/
theorem scanned_cells_bounds (W H : Int) (c : int2) :
    c ∈ scannedCells W H →
      c.x % 2 = 1 ∧ c.y % 2 = 1 ∧ 1 ≤ c.x ∧ c.x ≤ W - 1 ∧ 1 ≤ c.y ∧ c.y ≤ H - 1 ∧
      (W % 2 = 1 → H % 2 = 1 →
        c.x ≤ W - 2 ∧ c.y ≤ H - 2 ∧
        ∀ n ∈ orthogonalNeighbors c ++ diagonalNeighbors c,
          0 ≤ n.x ∧ n.x < W ∧ 0 ≤ n.y ∧ n.y < H) := by
  intro hc
  obtain ⟨h1, h2, h3, h4, h5, h6⟩ := (mem_scannedCells W H c).1 hc
  refine ⟨h1, h4, h2, by omega, h5, by omega, ?_⟩
  intro hW hH
  refine ⟨by omega, by omega, ?_⟩
  intro n hn
  simp only [orthogonalNeighbors, diagonalNeighbors, List.cons_append, List.nil_append,
    List.mem_cons, List.mem_singleton, List.not_mem_nil, or_false] at hn
  rcases hn with rfl | rfl | rfl | rfl | rfl | rfl | rfl | rfl <;>
    simp only [int2.add_x, int2.add_y] <;> omega

/-- Witness for the amended C18: the first scanned cell of a 79 by 23 map. -/
theorem scanned_cells_bounds_witness :
    (⟨1, 1⟩ : int2) ∈ scannedCells 79 23 ∧
      (⟨1, 1⟩ : int2).x % 2 = 1 ∧ (⟨1, 1⟩ : int2).y % 2 = 1 ∧ 1 ≤ (⟨1, 1⟩ : int2).x ∧
      (⟨1, 1⟩ : int2).x ≤ 79 - 1 ∧ 1 ≤ (⟨1, 1⟩ : int2).y ∧ (⟨1, 1⟩ : int2).y ≤ 23 - 1 ∧
      ((79 : Int) % 2 = 1 → (23 : Int) % 2 = 1 →
        (⟨1, 1⟩ : int2).x ≤ 79 - 2 ∧ (⟨1, 1⟩ : int2).y ≤ 23 - 2 ∧
        ∀ n ∈ orthogonalNeighbors ⟨1, 1⟩ ++ diagonalNeighbors ⟨1, 1⟩,
          0 ≤ n.x ∧ n.x < 79 ∧ 0 ≤ n.y ∧ n.y < 23) :=
  ⟨(mem_scannedCells 79 23 ⟨1, 1⟩).2 (by decide),
    scanned_cells_bounds 79 23 ⟨1, 1⟩ ((mem_scannedCells 79 23 ⟨1, 1⟩).2 (by decide))⟩

/-! ## Claim C12 -/

theorem getTile_doorIfWalkable (map : Map) (p c : int2) :
    (doorIfWalkable map p).GetTile c
      = if c = p ∧ (map.GetTile c).IsWalkable = true then Tile.TILE_CLOSED_DOOR
        else map.GetTile c := by
  unfold doorIfWalkable
  by_cases hw : (map.GetTile p).IsWalkable = true
  · rw [if_pos hw, Map.getTile_set]
    by_cases hcp : c = p
    · subst hcp; simp [hw]
    · simp [hcp]
  · rw [if_neg hw]
    by_cases hcp : c = p
    · subst hcp; simp [hw]
    · simp [hcp]

/-- Checking a list of positions in turn makes exactly the walkable ones closed doors. -/
theorem getTile_foldl_doorIfWalkable (ps : List int2) : ∀ (map : Map) (c : int2),
    (ps.foldl doorIfWalkable map).GetTile c
      = if c ∈ ps ∧ (map.GetTile c).IsWalkable = true then Tile.TILE_CLOSED_DOOR
        else map.GetTile c := by
  induction ps with
  | nil => intro map c; simp
  | cons p rest ih =>
    intro map c
    rw [List.foldl_cons, ih, getTile_doorIfWalkable]
    by_cases hcp : c = p
    · subst hcp
      by_cases hw : (map.GetTile c).IsWalkable = true
      · simp [hw]
      · simp [hw]
    · by_cases hw : (map.GetTile c).IsWalkable = true
      · simp [hcp, hw]
      · simp [hcp, hw]

theorem foldl_door_pairs {α : Type} (f g : α → int2) (xs : List α) : ∀ map : Map,
    xs.foldl (fun m x => doorIfWalkable (doorIfWalkable m (f x)) (g x)) map
      = (xs.flatMap (fun x => [f x, g x])).foldl doorIfWalkable map := by
  induction xs with
  | nil => intro map; rfl
  | cons x rest ih =>
    intro map
    rw [List.foldl_cons, ih, List.flatMap_cons, List.foldl_append]
    rfl

theorem placeRoomDoors_eq (map : Map) (room : Rect) :
    placeRoomDoors map room = (roomDoorPositions room).foldl doorIfWalkable map := by
  unfold placeRoomDoors roomDoorPositions
  rw [List.foldl_append, foldl_door_pairs, foldl_door_pairs]

theorem roomDoors_eq (rooms : List Rect) : ∀ map : Map,
    rooms.foldl placeRoomDoors map
      = (rooms.flatMap roomDoorPositions).foldl doorIfWalkable map := by
  induction rooms with
  | nil => intro map; rfl
  | cons r rest ih =>
    intro map
    rw [List.foldl_cons, ih, List.flatMap_cons, List.foldl_append, placeRoomDoors_eq]

theorem mem_roomDoorPositions (room : Rect) (c : int2) :
    c ∈ roomDoorPositions room ↔ DoorPosition room c := by
  unfold roomDoorPositions DoorPosition
  simp only [List.mem_append, List.mem_flatMap, mem_stepsByTwo, List.mem_cons, List.mem_singleton,
    List.not_mem_nil, or_false, int2.ext_iff']
  constructor
  · rintro (⟨x, ⟨k, rfl, hlt⟩, h | h⟩ | ⟨y, ⟨k, rfl, hlt⟩, h | h⟩)
    · exact Or.inl ⟨k, h.1, by omega, Or.inl h.2⟩
    · exact Or.inl ⟨k, h.1, by omega, Or.inr h.2⟩
    · exact Or.inr ⟨k, h.2, by omega, Or.inl h.1⟩
    · exact Or.inr ⟨k, h.2, by omega, Or.inr h.1⟩
  · rintro (⟨k, hx, hlt, h | h⟩ | ⟨k, hy, hlt, h | h⟩)
    · exact Or.inl ⟨c.x, ⟨k, hx, hlt⟩, Or.inl ⟨rfl, h⟩⟩
    · exact Or.inl ⟨c.x, ⟨k, hx, hlt⟩, Or.inr ⟨rfl, h⟩⟩
    · exact Or.inr ⟨c.y, ⟨k, hy, hlt⟩, Or.inl ⟨h, rfl⟩⟩
    · exact Or.inr ⟨c.y, ⟨k, hy, hlt⟩, Or.inr ⟨h, rfl⟩⟩

/-- C12: for every map and room list, after the room-perimeter door pass every cell immediately
outside a room edge at a checked position that was walkable before the pass is a closed door, and
every other cell of the map is unchanged. -/
theorem room_door_pass_frame (map : Map) (rooms : List Rect) (c : int2) :
    ((∃ room ∈ rooms, DoorPosition room c) ∧ (map.GetTile c).IsWalkable = true →
      (rooms.foldl placeRoomDoors map).GetTile c = Tile.TILE_CLOSED_DOOR) ∧
    (¬ ((∃ room ∈ rooms, DoorPosition room c) ∧ (map.GetTile c).IsWalkable = true) →
      (rooms.foldl placeRoomDoors map).GetTile c = map.GetTile c) := by
  have hmem : c ∈ rooms.flatMap roomDoorPositions ↔ ∃ room ∈ rooms, DoorPosition room c := by
    simp only [List.mem_flatMap, mem_roomDoorPositions]
  rw [roomDoors_eq, getTile_foldl_doorIfWalkable]
  constructor
  · intro h; rw [if_pos ⟨hmem.2 h.1, h.2⟩]
  · intro h; rw [if_neg (fun h' => h ⟨hmem.1 h'.1, h'.2⟩)]
/-! ## Claim C19 -/

/-- Two distinct rooms of a list that satisfies the placement invariant are lattice rooms of which
one, expanded by 2 cells, misses the other. -/
theorem placementInv_pair (W H : Int) (rooms : List Rect) (hinv : PlacementInv W H rooms)
    (i j : Nat) (r s : Rect) (hij : i ≠ j) (hr : rooms[i]? = some r) (hs : rooms[j]? = some s) :
    PlacedRoom W H r ∧ PlacedRoom W H s ∧
    (r.expand2.Intersects s = false ∨ s.expand2.Intersects r = false) := by
  obtain ⟨_, hall, hpair⟩ := hinv
  refine ⟨hall r (List.getElem?_mem hr), hall s (List.getElem?_mem hs), ?_⟩
  rcases Nat.lt_or_gt_of_ne hij with hlt | hgt
  · right; exact pairwise_index _ rooms hpair i j r s hlt hr hs
  · left; exact pairwise_index _ rooms hpair j i s r hgt hs hr

/-- C19: for every stream of draws, whenever the placement loop yields its room list, for any two
distinct accepted rooms `EnumerateDoorCandidates` is non-empty in both argument orders, so the first
part of `CarveTunnel`, which indexes `doorsA` and `doorsB`, succeeds for every stream of draws; for
`MAP_WIDTH ≥ 12` and `MAP_HEIGHT ≥ 10` the loop does yield a room list. -/
theorem door_candidates_nonempty (W H : Int) (e : Engine) :
    (∀ (rooms : List Rect) (e' : Engine), placeRooms W H e = some (rooms, e') →
      ∀ (i j : Nat) (r s : Rect), i ≠ j → rooms[i]? = some r → rooms[j]? = some s →
        EnumerateDoorCandidates r s ≠ [] ∧ EnumerateDoorCandidates s r ≠ [] ∧
        ∀ e2 : Engine, (planTunnel e2 r s).isSome = true) ∧
    (12 ≤ W → 10 ≤ H → (placeRooms W H e).isSome = true) := by
  refine ⟨?_, fun hW hH => placeRooms_isSome W H hW hH e⟩
  intro rooms e' h i j r s hij hr hs
  obtain ⟨hpr, hps, hsep⟩ := placementInv_pair W H rooms (placeRooms_inv W H e e' rooms h)
    i j r s hij hr hs
  have hlr := latticeRoom_of_placed W H r hpr
  have hls := latticeRoom_of_placed W H s hps
  have h1 := EnumerateDoorCandidates_ne_nil r s ⟨hlr.2.2.2.2.1, hlr.2.2.2.2.2⟩ hsep
  have h2 := EnumerateDoorCandidates_ne_nil s r ⟨hls.2.2.2.2.1, hls.2.2.2.2.2⟩ hsep.symm
  refine ⟨h1, h2, ?_⟩
  intro e2
  obtain ⟨res, hres⟩ := planTunnel_isSome e2 r s h1 h2
  rw [hres]; rfl
/-! ## Claim C20 -/

/-- The map of a carver is the map it started from with the visited cells made floor. -/
theorem carveSteps_frame (base : Map) (step : int2) (n : Nat) : ∀ c : Carver,
    (∀ q, c.map.GetTile q = if q ∈ c.visited then Tile.TILE_FLOOR else base.GetTile q) →
    ∀ q, (carveSteps step n c).map.GetTile q
      = if q ∈ (carveSteps step n c).visited then Tile.TILE_FLOOR else base.GetTile q := by
  have hcarve : ∀ c : Carver,
      (∀ q, c.map.GetTile q = if q ∈ c.visited then Tile.TILE_FLOOR else base.GetTile q) →
      ∀ q, c.carve.map.GetTile q
        = if q ∈ c.carve.visited then Tile.TILE_FLOOR else base.GetTile q := by
    intro c h q
    simp only [Carver.carve, Map.getTile_set, List.mem_append, List.mem_singleton, h q]
    by_cases h1 : q = c.point <;> by_cases h2 : q ∈ c.visited <;> simp [h1, h2]
  induction n with
  | zero => intro c h; exact h
  | succ n ih =>
    intro c h
    unfold carveSteps
    apply ih
    apply hcarve
    show ∀ q, ((c.move step).carve).map.GetTile q
      = if q ∈ ((c.move step).carve).visited then Tile.TILE_FLOOR else base.GetTile q
    apply hcarve
    exact h

theorem carveWalk_frame (map : Map) (plan : TunnelPlan) (q : int2) :
    (carveWalk map plan).map.GetTile q
      = if q ∈ (carveWalk map plan).visited then Tile.TILE_FLOOR else map.GetTile q := by
  unfold carveWalk
  apply carveSteps_frame map
  apply carveSteps_frame map
  apply carveSteps_frame map
  intro q'
  simp only [Carver.carve, Map.getTile_set, List.nil_append, List.mem_singleton]

/-- Every assignment of `CarveTunnel` writes floor: the resulting map is the old one with the written
cells made floor. -/
theorem carvePlan_frame (map : Map) (plan : TunnelPlan) (q : int2) :
    (carvePlan map plan).GetTile q
      = if q ∈ tunnelWrites map plan then Tile.TILE_FLOOR else map.GetTile q := by
  unfold carvePlan tunnelWrites
  simp only [Map.getTile_set, carveWalk_frame, List.mem_append, List.mem_cons, List.mem_singleton,
    List.not_mem_nil, or_false]
  by_cases h1 : q = plan.doorB.1 + plan.doorB.2.toInt2 <;>
  by_cases h2 : q = plan.doorA.1 + plan.doorA.2.toInt2 <;>
  by_cases h3 : q ∈ (carveWalk map plan).visited <;> simp [h1, h2, h3]

/-- The cells a carving loop adds lie on the line from the cursor along the step. -/
theorem carveSteps_visited (step : int2) (n : Nat) : ∀ (c : Carver) (q : int2),
    q ∈ (carveSteps step n c).visited →
      q ∈ c.visited ∨ ∃ j : Nat, 1 ≤ j ∧ j ≤ 2 * n ∧ q = c.point + step.scale j := by
  induction n with
  | zero => intro c q h; exact Or.inl h
  | succ n ih =>
    intro c q h
    unfold carveSteps at h
    rcases ih _ q h with h1 | ⟨j, hj1, hj2, hq⟩
    · simp only [Carver.carve, Carver.move, List.mem_append, List.mem_singleton] at h1
      rcases h1 with (h1 | h1) | h1
      · exact Or.inl h1
      · right
        refine ⟨1, le_refl _, by omega, ?_⟩
        rw [h1]; simp [int2.ext_iff', int2.scale]
      · right
        refine ⟨2, by omega, by omega, ?_⟩
        rw [h1]; simp only [int2.ext_iff', int2.scale, int2.add_x, int2.add_y]
        constructor <;> push_cast <;> ring
    · right
      refine ⟨j + 2, by omega, by omega, ?_⟩
      rw [hq]
      simp only [Carver.carve, Carver.move, int2.ext_iff', int2.scale, int2.add_x, int2.add_y]
      constructor <;> push_cast <;> ring
/-- Every cell of the carving walk is reached from `pointA` by some main steps, then some side steps,
then some more main steps, each count within the length of its loop. -/
theorem carveWalk_visited_form (map : Map) (plan : TunnelPlan) (q : int2)
    (hq : q ∈ (carveWalk map plan).visited) :
    ∃ j1 j2 j3 : Nat, j1 ≤ 2 * plan.turn.toNat ∧ j2 ≤ 2 * plan.absDelta.y.toNat ∧
      j3 ≤ 2 * (plan.absDelta.x - plan.turn).toNat ∧
      q = plan.pointA + plan.stepMain.scale j1 + plan.stepSide.scale j2
        + plan.stepMain.scale j3 := by
  unfold carveWalk at hq
  simp only at hq
  rcases carveSteps_visited _ _ _ q hq with h3 | ⟨j, _, hj, h3⟩
  · rcases carveSteps_visited _ _ _ q h3 with h2 | ⟨j, _, hj, h2⟩
    · rcases carveSteps_visited _ _ _ q h2 with h1 | ⟨j, _, hj, h1⟩
      · simp only [Carver.carve, List.nil_append, List.mem_singleton] at h1
        refine ⟨0, 0, 0, by omega, by omega, by omega, ?_⟩
        rw [h1]; simp [int2.ext_iff', int2.scale]
      · refine ⟨j, 0, 0, hj, by omega, by omega, ?_⟩
        rw [h1]; simp [Carver.carve, int2.ext_iff', int2.scale]
    · refine ⟨2 * plan.turn.toNat, j, 0, le_refl _, hj, by omega, ?_⟩
      rw [h2, carveSteps_point]
      simp [Carver.carve, int2.ext_iff', int2.scale]
  · refine ⟨2 * plan.turn.toNat, 2 * plan.absDelta.y.toNat, j, le_refl _, le_refl _, hj, ?_⟩
    rw [h3, carveSteps_point, carveSteps_point]
    simp [Carver.carve, int2.ext_iff', int2.scale]

/-- The carving walk stays in the axis-aligned rectangle spanned by the two landing points. -/
theorem carveWalk_visited_box (map : Map) (doorA doorB : int2 × Direction) (turn : Int)
    (hx : ((tunnelGeometry doorA doorB turn).pointB.x
      - (tunnelGeometry doorA doorB turn).pointA.x) % 2 = 0)
    (hy : ((tunnelGeometry doorA doorB turn).pointB.y
      - (tunnelGeometry doorA doorB turn).pointA.y) % 2 = 0)
    (ht0 : 0 ≤ turn) (ht1 : turn ≤ (tunnelGeometry doorA doorB 0).absDelta.x) (q : int2)
    (hq : q ∈ (carveWalk map (tunnelGeometry doorA doorB turn)).visited) :
    min (tunnelGeometry doorA doorB turn).pointA.x (tunnelGeometry doorA doorB turn).pointB.x ≤ q.x ∧
    q.x ≤ max (tunnelGeometry doorA doorB turn).pointA.x
      (tunnelGeometry doorA doorB turn).pointB.x ∧
    min (tunnelGeometry doorA doorB turn).pointA.y (tunnelGeometry doorA doorB turn).pointB.y ≤ q.y ∧
    q.y ≤ max (tunnelGeometry doorA doorB turn).pointA.y
      (tunnelGeometry doorA doorB turn).pointB.y := by
  obtain ⟨j1, j2, j3, h1, h2, h3, rfl⟩ := carveWalk_visited_form map _ q hq
  simp only [tunnelGeometry, int2.Abs, int2.quot, int2.sub_x, int2.sub_y] at *
  generalize doorA.1 + doorA.2.toInt2.scale 2 = pA at *
  generalize doorB.1 + doorB.2.toInt2.scale 2 = pB at *
  have hU : 2 * Int.tdiv |pB.x - pA.x| 2 = |pB.x - pA.x| := by
    rw [Int.tdiv_eq_ediv (abs_nonneg _) (by norm_num)]
    rcases abs_cases (pB.x - pA.x) with ⟨ex, _⟩ | ⟨ex, _⟩ <;> rw [ex] <;> omega
  have hV : 2 * Int.tdiv |pB.y - pA.y| 2 = |pB.y - pA.y| := by
    rw [Int.tdiv_eq_ediv (abs_nonneg _) (by norm_num)]
    rcases abs_cases (pB.y - pA.y) with ⟨ey, _⟩ | ⟨ey, _⟩ <;> rw [ey] <;> omega
  rcases abs_cases (pB.x - pA.x) with ⟨ex, sx⟩ | ⟨ex, sx⟩ <;>
  rcases abs_cases (pB.y - pA.y) with ⟨ey, sy⟩ | ⟨ey, sy⟩ <;>
  by_cases hswap : Int.tdiv |pB.y - pA.y| 2 > Int.tdiv |pB.x - pA.x| 2 <;>
  by_cases hdx : pB.x - pA.x > 0 <;> by_cases hdy : pB.y - pA.y > 0 <;>
  simp only [hswap, hdx, hdy, decide_True, decide_False, if_true, if_false,
    int2.scale, int2.add_x, int2.add_y, Bool.false_eq_true] at ht1 h1 h2 h3 ⊢ <;>
  omega
/-- The cell in front of a door candidate and its landing point lie inside the 1-cell-inset interior
of the map when both rooms come from the placement loop. -/
theorem door_candidate_inset (W H : Int) (room other : Rect) (d : int2 × Direction)
    (hr : PlacedRoom W H room) (ho : PlacedRoom W H other)
    (hd : d ∈ EnumerateDoorCandidates room other) :
    (1 ≤ (d.1 + d.2.toInt2).x ∧ (d.1 + d.2.toInt2).x ≤ W - 2 ∧
      1 ≤ (d.1 + d.2.toInt2).y ∧ (d.1 + d.2.toInt2).y ≤ H - 2) ∧
    (1 ≤ (d.1 + d.2.toInt2.scale 2).x ∧ (d.1 + d.2.toInt2.scale 2).x ≤ W - 2 ∧
      1 ≤ (d.1 + d.2.toInt2.scale 2).y ∧ (d.1 + d.2.toInt2.scale 2).y ≤ H - 2) := by
  have hbr := placedRoom_bounds W H room hr
  have hbo := placedRoom_bounds W H other ho
  rcases mem_EnumerateDoorCandidates room other d hd with
    ⟨hdir, hc, hx, k, hy, hlt⟩ | ⟨hdir, hc, hx, k, hy, hlt⟩ |
    ⟨hdir, hc, hy, k, hx, hlt⟩ | ⟨hdir, hc, hy, k, hx, hlt⟩ <;>
  rw [hdir] <;>
  simp only [Direction.toInt2, int2.scale, int2.add_x, int2.add_y] <;>
  omega

/-- C20: for every stream of draws, whenever the placement loop yields its room list, for any two
distinct accepted rooms, any map and any choice of door candidates and turn index, `CarveTunnel`
succeeds, every cell it writes (the landing point `pointA`, every cell of the three carving loops up
to the landing point `pointB`, and the two door cells) has `0 ≤ x < MAP_WIDTH` and
`0 ≤ y < MAP_HEIGHT`, and the resulting map is the old map with exactly the written cells set to
floor; for `MAP_WIDTH ≥ 12` and `MAP_HEIGHT ≥ 10` the loop does yield a room list. -/
theorem carve_tunnel_writes_in_bounds (W H : Int) (e : Engine) :
    (∀ (rooms : List Rect) (e' : Engine), placeRooms W H e = some (rooms, e') →
      ∀ (i j : Nat) (r s : Rect), i ≠ j → rooms[i]? = some r → rooms[j]? = some s →
        ∀ (map : Map) (e2 : Engine), ∃ (plan : TunnelPlan) (e3 : Engine),
          planTunnel e2 r s = some (plan, e3) ∧
          CarveTunnel map e2 r s = some (carvePlan map plan, e3) ∧
          (∀ c ∈ tunnelWrites map plan, 0 ≤ c.x ∧ c.x < W ∧ 0 ≤ c.y ∧ c.y < H) ∧
          ∀ c : int2, (carvePlan map plan).GetTile c
            = if c ∈ tunnelWrites map plan then Tile.TILE_FLOOR else map.GetTile c) ∧
    (12 ≤ W → 10 ≤ H → (placeRooms W H e).isSome = true) := by
  refine ⟨?_, fun hW hH => placeRooms_isSome W H hW hH e⟩
  intro rooms e' h i j r s hij hr hs map e2
  obtain ⟨hpr, hps, hsep⟩ := placementInv_pair W H rooms (placeRooms_inv W H e e' rooms h)
    i j r s hij hr hs
  have hlr := latticeRoom_of_placed W H r hpr
  have hls := latticeRoom_of_placed W H s hps
  have h1 := EnumerateDoorCandidates_ne_nil r s ⟨hlr.2.2.2.2.1, hlr.2.2.2.2.2⟩ hsep
  have h2 := EnumerateDoorCandidates_ne_nil s r ⟨hls.2.2.2.2.1, hls.2.2.2.2.2⟩ hsep.symm
  obtain ⟨⟨plan, e3⟩, hplan⟩ := planTunnel_isSome e2 r s h1 h2
  obtain ⟨doorA, doorB, turn, hdA, hdB, ht0, ht1, rfl⟩ := planTunnel_spec e2 e3 r s plan hplan
  refine ⟨tunnelGeometry doorA doorB turn, e3, hplan, by unfold CarveTunnel; rw [hplan], ?_,
    carvePlan_frame map _⟩
  obtain ⟨hAx, hAy, _⟩ := door_candidate_lattice r s doorA hlr hdA
  obtain ⟨hBx, hBy, _⟩ := door_candidate_lattice s r doorB hls hdB
  obtain ⟨hfA, hLA⟩ := door_candidate_inset W H r s doorA hpr hps hdA
  obtain ⟨hfB, hLB⟩ := door_candidate_inset W H s r doorB hps hpr hdB
  obtain ⟨_, _, hgA, hgB, hpA, hpB⟩ := tunnelGeometry_turn doorA doorB turn
  intro c hc
  simp only [tunnelWrites, hgA, hgB, List.mem_append, List.mem_cons, List.mem_singleton,
    List.not_mem_nil, or_false] at hc
  rcases hc with hc | rfl | rfl
  · have hbox := carveWalk_visited_box map doorA doorB turn
      (by rw [hpA, hpB]; simp only [int2.add_x, int2.scale]; omega)
      (by rw [hpA, hpB]; simp only [int2.add_y, int2.scale]; omega) ht0 ht1 c hc
    rw [hpA, hpB] at hbox
    omega
  · omega
  · omega

/-! ## Claim C13 -/

/-- A walk that gets stuck never returns, whatever the fuel. -/
theorem walkGetsStuck_sound (map : Map) (n : Nat) : ∀ (lastPoint curPoint : int2),
    walkGetsStuck map n lastPoint curPoint = true →
    ∀ fuel : Nat, secretWalk map fuel lastPoint curPoint = none := by
  induction n with
  | zero =>
    intro l c h fuel
    unfold walkGetsStuck at h
    by_cases hb : 2 ≤ (directions.filter (onward map c l)).length
    · rw [if_pos hb] at h; cases h
    · rw [if_neg hb] at h
      cases hf : directions.find? (onward map c l) with
      | some d => rw [hf] at h; cases h
      | none =>
        induction fuel with
        | zero => unfold secretWalk; rw [if_neg hb]
        | succ fuel ih => unfold secretWalk; rw [if_neg hb]; simp only [hf]; exact ih
  | succ n ihn =>
    intro l c h fuel
    unfold walkGetsStuck at h
    by_cases hb : 2 ≤ (directions.filter (onward map c l)).length
    · rw [if_pos hb] at h; cases h
    · rw [if_neg hb] at h
      cases hf : directions.find? (onward map c l) with
      | some d =>
        rw [hf] at h
        simp only at h
        cases fuel with
        | zero => unfold secretWalk; rw [if_neg hb]
        | succ fuel =>
          unfold secretWalk; rw [if_neg hb]; simp only [hf]
          exact ihn c (c + d.toInt2) h fuel
      | none =>
        induction fuel with
        | zero => unfold secretWalk; rw [if_neg hb]
        | succ fuel ih => unfold secretWalk; rw [if_neg hb]; simp only [hf]; exact ih

/-- The result of the walk does not depend on the fuel it was given. -/
theorem secretWalk_deterministic (map : Map) (f1 : Nat) : ∀ (f2 : Nat) (l c r1 r2 : int2),
    secretWalk map f1 l c = some r1 → secretWalk map f2 l c = some r2 → r1 = r2 := by
  induction f1 with
  | zero =>
    intro f2 l c r1 r2 h1 h2
    unfold secretWalk at h1
    by_cases hb : 2 ≤ (directions.filter (onward map c l)).length
    · rw [if_pos hb] at h1
      unfold secretWalk at h2
      rw [if_pos hb] at h2
      cases h1; cases h2; rfl
    · rw [if_neg hb] at h1; cases h1
  | succ f1 ih =>
    intro f2 l c r1 r2 h1 h2
    unfold secretWalk at h1
    by_cases hb : 2 ≤ (directions.filter (onward map c l)).length
    · rw [if_pos hb] at h1
      unfold secretWalk at h2
      rw [if_pos hb] at h2
      cases h1; cases h2; rfl
    · rw [if_neg hb] at h1
      simp only at h1
      cases f2 with
      | zero => unfold secretWalk at h2; rw [if_neg hb] at h2; cases h2
      | succ f2 =>
        unfold secretWalk at h2
        rw [if_neg hb] at h2
        simp only at h2
        cases hf : directions.find? (onward map c l) with
        | some d =>
          rw [hf] at h1 h2
          exact ih f2 _ _ r1 r2 h1 h2
        | none =>
          rw [hf] at h1 h2
          exact ih f2 _ _ r1 r2 h1 h2

/-- The result of handling one selected intersection does not depend on the fuel. -/
theorem placeSecretDoor_deterministic (f1 f2 : Nat) (point : int2) (n1 : Nat) :
    ∀ (n2 : Nat) (map : Map) (e : Engine) (r1 r2 : Map × Engine),
      placeSecretDoor f1 point n1 map e = some r1 → placeSecretDoor f2 point n2 map e = some r2 →
      r1 = r2 := by
  induction n1 with
  | zero => intro n2 map e r1 r2 h1; simp [placeSecretDoor] at h1
  | succ n1 ih =>
    intro n2 map e r1 r2 h1 h2
    cases n2 with
    | zero => simp [placeSecretDoor] at h2
    | succ n2 =>
      unfold placeSecretDoor at h1 h2
      cases hd : uniformInt 0 3 e with
      | none => rw [hd] at h1; cases h1
      | some res =>
        obtain ⟨k, e1⟩ := res
        rw [hd] at h1 h2
        simp only at h1 h2
        by_cases hacc : map.GetTile (point + (directions.getD k.toNat Direction.North).toInt2)
            ≠ Tile.TILE_WALL
        · rw [if_pos hacc] at h1 h2
          cases hw1 : secretWalk
              (map.set (point + (directions.getD k.toNat Direction.North).toInt2)
                Tile.TILE_HIDDEN_DOOR) f1
              (point + (directions.getD k.toNat Direction.North).toInt2)
              (point + (directions.getD k.toNat Direction.North).toInt2
                + (directions.getD k.toNat Direction.North).toInt2) with
          | none => rw [hw1] at h1; cases h1
          | some l1 =>
            cases hw2 : secretWalk
                (map.set (point + (directions.getD k.toNat Direction.North).toInt2)
                  Tile.TILE_HIDDEN_DOOR) f2
                (point + (directions.getD k.toNat Direction.North).toInt2)
                (point + (directions.getD k.toNat Direction.North).toInt2
                  + (directions.getD k.toNat Direction.North).toInt2) with
            | none => rw [hw2] at h2; cases h2
            | some l2 =>
              rw [hw1] at h1
              rw [hw2] at h2
              have hl := secretWalk_deterministic _ f1 f2 _ _ l1 l2 hw1 hw2
              subst hl
              simp only [Option.some.injEq] at h1 h2
              rw [← h1, ← h2]
        · rw [if_neg hacc] at h1 h2
          exact ih n2 map e1 r1 r2 h1 h2

/-- When the direction loop accepts a direction whose walk gets stuck, handling the intersection
never returns. -/
theorem secretDoorHangs_sound (bound : Nat) (map : Map) (point : int2) (n : Nat) :
    ∀ e : Engine, secretDoorHangs bound map point n e = true →
    ∀ (fuel m : Nat), placeSecretDoor fuel point m map e = none := by
  induction n with
  | zero => intro e h; simp [secretDoorHangs] at h
  | succ n ih =>
    intro e h fuel m
    cases m with
    | zero => simp [placeSecretDoor]
    | succ m =>
      unfold secretDoorHangs at h
      unfold placeSecretDoor
      cases hd : uniformInt 0 3 e with
      | none => rfl
      | some res =>
        obtain ⟨k, e1⟩ := res
        rw [hd] at h
        simp only at h ⊢
        by_cases hacc : map.GetTile (point + (directions.getD k.toNat Direction.North).toInt2)
            ≠ Tile.TILE_WALL
        · rw [if_pos hacc] at h ⊢
          rw [walkGetsStuck_sound _ bound _ _ h fuel]
        · rw [if_neg hacc] at h ⊢
          exact ih e1 h fuel m

/-- When the check `secretPhaseHangs` succeeds the secret-door phase never returns. -/
theorem secretPhaseHangs_sound (bound : Nat) (points : List int2) :
    ∀ (map : Map) (e : Engine), secretPhaseHangs bound points map e = true →
    ∀ fuel : Nat, placeSecretDoors fuel points map e = none := by
  induction points with
  | nil => intro map e h; simp [secretPhaseHangs] at h
  | cons point rest ih =>
    intro map e h fuel
    unfold secretPhaseHangs at h
    unfold placeSecretDoors
    by_cases hsel : (chanceOneInFive e).1 = true
    · rw [if_pos hsel] at h ⊢
      rw [Bool.or_eq_true] at h
      rcases h with h | h
      · rw [secretDoorHangs_sound bound map point bound _ h fuel fuel]
      · cases hb : placeSecretDoor bound point bound map (chanceOneInFive e).2 with
        | none => rw [hb] at h; cases h
        | some rb =>
          rw [hb] at h
          simp only at h
          cases hf : placeSecretDoor fuel point fuel map (chanceOneInFive e).2 with
          | none => rfl
          | some rf =>
            have heq := placeSecretDoor_deterministic bound fuel point bound fuel map _ rb rf hb hf
            subst heq
            exact ih rb.1 rb.2 h fuel
    · rw [if_neg hsel] at h ⊢
      exact ih map _ h fuel

/-- When the check `generatorHangs` succeeds `GenerateRandomMap` never returns. -/
theorem generatorHangs_sound (W H : Int) (bound : Nat) (e : Engine)
    (h : generatorHangs W H bound e = true) (fuel : Nat) :
    GenerateRandomMap W H fuel e = none := by
  unfold generatorHangs at h
  unfold GenerateRandomMap
  cases hp : placeRooms W H e with
  | none => rfl
  | some res =>
    obtain ⟨rooms, e1⟩ := res
    rw [hp] at h
    simp only at h ⊢
    cases ht : carveTunnels rooms (carveRooms W H rooms) e1 with
    | none => rfl
    | some res1 =>
      obtain ⟨mapT, e2⟩ := res1
      rw [ht] at h
      simp only at h ⊢
      rw [secretPhaseHangs_sound bound _ mapT e2 h fuel]

set_option maxRecDepth 100000 in
/-- C13 fails on the code: on an 80 by 24 map the draws of `deadEndEngine` lead the secret-door phase
to the intersection `(17,13)` with the direction west accepted (the cell `(16,13)` is the secret door
left by the passage of the intersection `(13,13)`, not a wall); the walk then stands on `(15,13)`
between two secret doors, finds no onward walkable neighbour, and repeats that state forever, so
`GenerateRandomMap` does not return for any amount of fuel. -/
theorem secret_walk_runs_forever :
    generatorHangs 80 24 8 deadEndEngine = true ∧
    ∀ fuel : Nat, GenerateRandomMap 80 24 fuel deadEndEngine = none := by
  have h : generatorHangs 80 24 8 deadEndEngine = true := by decide!
  exact ⟨h, generatorHangs_sound 80 24 8 deadEndEngine h⟩
